import Mathlib

/-!
# libdpa: the streaming correlator and the rasterizer

A shallow embedding of `src/dpa/correlator.cpp` and of the rasterization part of
`src/dpa/_preprocess.c`.

Conventions of the embedding.

* A C array is a function `Nat → α` from the offset to the element; a two-dimensional
  table keeps the flat index of the source (`mult_sum[j*samples + i]`).
* A `for` loop over `0 .. n-1` is a `List.foldl` over `List.range n`.
* A finite `float` or `double` is the rational number it stands for; an operation on
  them is the exact operation followed by the rounding `flt` or `dbl` (IEEE-754, round
  to nearest, ties to even).
* The correlator is stated in exact real arithmetic: its accumulators `sum`,
  `square_sum`, `mult_sum` are exact rationals in `Correlator`, and the values computed by
  `preprocess` and `update_matrix`, which can be infinite or NaN (division by zero, root
  of a negative number), live in `Dbl`, exact reals extended by the IEEE-754 special
  values.  The same computations with every operation rounded are `add_trace_rounded`,
  `key_stddev_rounded` and `cur_value_rounded`.
* C `int` products are taken modulo `2^32` (two's complement) by `wrapInt32`.
-/

namespace Dpa

/-! ## Machine numbers -/

/-- Value of a C `int` (32 bit, two's complement) holding the mathematical integer `x`. -/
def wrapInt32 (x : Int) : Int := (x + 2 ^ 31) % 2 ^ 32 - 2 ^ 31

/-! ## Binary floating point

The `float` and `double` operations of the source round their exact result to the nearest
number of 24 and 53 significant bits (IEEE-754, round to nearest, ties to even).  The
exponent range is not limited here: no value in this development comes near the overflow
or the subnormal range. -/

/-- The number `⌊log₂ n⌋` for `n ≥ 1`, by halving; `fuel` bounds the number of halvings,
and `fuel = n` is always enough. -/
def ilog2 : Nat → Nat → Nat
  | 0, _ => 0
  | fuel + 1, n => if n < 2 then 0 else ilog2 fuel (n / 2) + 1

/-- The binary exponent `⌊log₂ |x|⌋` of a rational `x ≠ 0`: it is the difference of the
exponents of numerator and denominator, or one less. -/
def exponent (x : ℚ) : Int :=
  if (2 : ℚ) ^ ((ilog2 x.num.natAbs x.num.natAbs : Int) - (ilog2 x.den x.den : Int)) ≤ |x|
  then (ilog2 x.num.natAbs x.num.natAbs : Int) - (ilog2 x.den x.den : Int)
  else (ilog2 x.num.natAbs x.num.natAbs : Int) - (ilog2 x.den x.den : Int) - 1

/-- The integer nearest to `m`; the even one of the two when `m` lies half-way. -/
def round_even (m : ℚ) : Int :=
  if m - ⌊m⌋ < 1 / 2 then ⌊m⌋
  else if 1 / 2 < m - ⌊m⌋ then ⌊m⌋ + 1
  else if ⌊m⌋ % 2 = 0 then ⌊m⌋ else ⌊m⌋ + 1

/-- Rounding to the nearest binary floating-point number with `p` significant bits, ties
to even: `x` is a multiple `m` of the unit `2^(e-p+1)` of its binade `2^e ≤ |x| < 2^(e+1)`,
and `m` is rounded to an integer. -/
def fl (p : Nat) (x : ℚ) : ℚ :=
  if x = 0 then 0
  else (round_even (x / (2 : ℚ) ^ (exponent x - ((p : Int) - 1))) : ℚ)
      * (2 : ℚ) ^ (exponent x - ((p : Int) - 1))

/-- Rounding to `double`. -/
def dbl (x : ℚ) : ℚ := fl 53 x

/-- Rounding to `float`. -/
def flt (x : ℚ) : ℚ := fl 24 x

/-- Bisection for the integer square root: with `lo² ≤ n < hi²` the number `s` with
`s² ≤ n < (s+1)²`. -/
def isqrt_bisect : Nat → Nat → Nat → Nat → Nat
  | 0, _, lo, _ => lo
  | fuel + 1, n, lo, hi =>
      if hi ≤ lo + 1 then lo
      else if ((lo + hi) / 2) ^ 2 ≤ n then isqrt_bisect fuel n ((lo + hi) / 2) hi
      else isqrt_bisect fuel n lo ((lo + hi) / 2)

/-- The integer square root: the `s` with `s² ≤ n < (s+1)²`. -/
def isqrt (n : Nat) : Nat := isqrt_bisect (n + 1) n 0 (n + 1)

/-- The square root of a finite number `x ≥ 0` rounded to `p` bits (IEEE-754 `sqrt` is
correctly rounded).  With `k = p - 1 - ⌊exponent x / 2⌋` the number `4^k x` lies in
`[2^(2p-2), 2^(2p))`, `s = ⌊√(4^k x)⌋` has `p` bits, and the result is `s / 2^k` or
`(s+1) / 2^k`, whichever is nearer to the root: `(s + 1/2)²` is compared with `4^k x`. -/
def fl_sqrt (p : Nat) (x : ℚ) : ℚ :=
  if x ≤ 0 then 0
  else
    let k : Int := (p : Int) - 1 - exponent x / 2
    let y : ℚ := x * (4 : ℚ) ^ k
    let s : Nat := isqrt ⌊y⌋.toNat
    let m : Nat :=
      if y < ((s : ℚ) + 1 / 2) ^ 2 then s
      else if ((s : ℚ) + 1 / 2) ^ 2 < y then s + 1
      else if s % 2 = 0 then s else s + 1
    (m : ℚ) / (2 : ℚ) ^ k

/-- The function `sqrt` on a finite `double` that is not negative. -/
def dbl_sqrt (x : ℚ) : ℚ := fl_sqrt 53 x

/-- A C `double` in exact arithmetic: a real number, or one of the IEEE-754 special
values.  The model has a single zero, which behaves as `+0` (the zero produced by `sqrt`
and by the subtraction of equal values). -/
inductive Dbl where
  | fin (x : ℝ)
  | pinf
  | ninf
  | nan

namespace Dbl

/-- Conversion `(double) q` of a finite accumulator. -/
noncomputable def ofRat (q : ℚ) : Dbl := fin (q : ℝ)

/-- Conversion `(double) z` of an `int64_t`. -/
noncomputable def ofInt (z : Int) : Dbl := fin (z : ℝ)

/-- Conversion of a `size_t` to `double`. -/
noncomputable def ofNat (n : Nat) : Dbl := fin (n : ℝ)

/-- Number `-x`. -/
noncomputable def neg : Dbl → Dbl
  | fin x => fin (-x)
  | pinf => ninf
  | ninf => pinf
  | nan => nan

/-- IEEE-754 addition. -/
noncomputable def add : Dbl → Dbl → Dbl
  | fin x, fin y => fin (x + y)
  | nan, _ => nan
  | _, nan => nan
  | pinf, ninf => nan
  | ninf, pinf => nan
  | pinf, _ => pinf
  | _, pinf => pinf
  | ninf, _ => ninf
  | _, ninf => ninf

/-- IEEE-754 subtraction. -/
noncomputable def sub (a b : Dbl) : Dbl := add a (neg b)

/-- An infinity times a finite number `y`: NaN for `y = 0`, otherwise the infinity whose
sign is the product of the signs. -/
noncomputable def infTimes (positive : Bool) (y : ℝ) : Dbl :=
  if y = 0 then nan
  else if 0 < y then (if positive then pinf else ninf)
  else (if positive then ninf else pinf)

/-- IEEE-754 multiplication. -/
noncomputable def mul : Dbl → Dbl → Dbl
  | fin x, fin y => fin (x * y)
  | nan, _ => nan
  | _, nan => nan
  | pinf, fin y => infTimes true y
  | ninf, fin y => infTimes false y
  | fin x, pinf => infTimes true x
  | fin x, ninf => infTimes false x
  | pinf, pinf => pinf
  | ninf, ninf => pinf
  | pinf, ninf => ninf
  | ninf, pinf => ninf

/-- IEEE-754 division.  A finite non-zero number divided by zero is an infinity of the
sign of the dividend, `0 / 0` and `∞ / ∞` are NaN, a finite number divided by an infinity
is zero. -/
noncomputable def div : Dbl → Dbl → Dbl
  | fin x, fin y =>
      if y = 0 then (if x = 0 then nan else if 0 < x then pinf else ninf) else fin (x / y)
  | nan, _ => nan
  | _, nan => nan
  | fin _, pinf => fin 0
  | fin _, ninf => fin 0
  | pinf, fin y => if 0 ≤ y then pinf else ninf
  | ninf, fin y => if 0 ≤ y then ninf else pinf
  | pinf, pinf => nan
  | pinf, ninf => nan
  | ninf, pinf => nan
  | ninf, ninf => nan

/-- The C library `sqrt`: NaN for a negative argument. -/
noncomputable def sqrt : Dbl → Dbl
  | fin x => if x < 0 then nan else fin (Real.sqrt x)
  | pinf => pinf
  | ninf => nan
  | nan => nan

/-- Comparison `a < b` of two doubles; false as soon as one side is NaN. -/
noncomputable def lt : Dbl → Dbl → Bool
  | fin x, fin y => decide (x < y)
  | fin _, pinf => true
  | fin _, ninf => false
  | ninf, fin _ => true
  | ninf, pinf => true
  | ninf, ninf => false
  | pinf, _ => false
  | nan, _ => false
  | _, nan => false

/-- Conversion of a `double` to `uint8_t`: the fractional part is discarded; the result
is `none` (undefined in C) when the truncated value does not fit. -/
noncomputable def toU8 : Dbl → Option Nat
  | fin x => if -1 < x ∧ x < 256 then some (Int.toNat ⌊x⌋) else none
  | _ => none

end Dbl

/-! ## The correlator (`correlator.h`, `correlator.cpp`) -/

/-- State of a `Correlator` object.  `hypo` holds `hypo_in_t = uint8_t` values,
`byte_matrix` holds `uint8_t` values (`none`: an indeterminate byte). -/
structure Correlator where
  samples : Nat
  traces : Nat
  keys : Nat
  count : Nat
  sum : Nat → ℚ
  square_sum : Nat → ℚ
  mult_sum : Nat → ℚ
  key_avg : Nat → Dbl
  key_stddev : Nat → Dbl
  hypo : Nat → Nat
  matrix : Nat → Dbl
  byte_matrix : Nat → Option Nat

/-- The constructor `Correlator::Correlator`: sizes are stored, `count` and the three
accumulators are zeroed; the other arrays are allocated but not initialised, their
contents are those of `u`. -/
def Correlator.init (samples traces keys : Nat) (u : Correlator) : Correlator :=
  { u with
    count := 0
    samples := samples
    traces := traces
    keys := keys
    sum := fun _ => 0
    square_sum := fun _ => 0
    mult_sum := fun _ => 0 }

/-- The caller fills the hypothesis table through the public pointer `hypo`. -/
def Correlator.fill_hypo (c : Correlator) (h : Nat → Nat) : Correlator :=
  { c with hypo := h }

/-- Arithmetic of the element type `data_in_t` of the macro `add_trace(name, data_in_t)`:
the conversion of a sample to `double`, the C product `key * d[i]` and the C product
`d[i] * d[i]`, each converted to `double` when it is added to an accumulator. -/
structure SampleOps (α : Type) where
  toAcc : α → ℚ
  keyMul : Nat → α → ℚ
  square : α → ℚ

/-- Integer element types `uint8_t`, `uint16_t`: both operands are promoted to `int`
and the product is an `int`. -/
def intSample : SampleOps Nat where
  toAcc x := (x : ℚ)
  keyMul key x := ((wrapInt32 ((key : Int) * (x : Int)) : Int) : ℚ)
  square x := ((wrapInt32 ((x : Int) * (x : Int)) : Int) : ℚ)

/-- Element type `float` (finite values): the products `key * d[i]`, with the `uint8_t`
key converted to `float`, and `d[i] * d[i]` are `float` products, rounded by `flt`; the
conversion of a `float` to `double` is exact. -/
def floatSample : SampleOps ℚ where
  toAcc x := x
  keyMul key x := flt ((key : ℚ) * x)
  square x := flt (x * x)

/-- The body of the macro `add_trace`: the method `Correlator::add_trace_##name`, with
exact additions; `add_trace_rounded` rounds each of them. -/
def add_trace {α : Type} (ops : SampleOps α) (c : Correlator) (hypo_idx : Nat)
    (d : Nat → α) : Correlator :=
  let mult_sum := (List.range c.keys).foldl (fun ms j =>
    let key := c.hypo (j * c.traces + hypo_idx)
    (List.range c.samples).foldl (fun ms i =>
      Function.update ms (j * c.samples + i)
        (ms (j * c.samples + i) + ops.keyMul key (d i))) ms) c.mult_sum
  let sums := (List.range c.samples).foldl (fun (sq : (Nat → ℚ) × (Nat → ℚ)) i =>
    (Function.update sq.1 i (sq.1 i + ops.toAcc (d i)),
     Function.update sq.2 i (sq.2 i + ops.square (d i)))) (c.sum, c.square_sum)
  { c with
    mult_sum := mult_sum
    sum := sums.1
    square_sum := sums.2
    count := c.count + 1 }

/-- Instance `add_trace(u16, uint16_t)`, with exact additions as for `add_trace_u8`. -/
def add_trace_u16 (c : Correlator) (hypo_idx : Nat) (d : Nat → Nat) : Correlator :=
  add_trace intSample c hypo_idx d

/-- The body of the macro `add_trace` in `double` arithmetic: the accumulators are
`double` arrays and every `+=` is a `double` addition, rounded by `dbl`. -/
def add_trace_rounded {α : Type} (ops : SampleOps α) (c : Correlator) (hypo_idx : Nat)
    (d : Nat → α) : Correlator :=
  let mult_sum := (List.range c.keys).foldl (fun ms j =>
    let key := c.hypo (j * c.traces + hypo_idx)
    (List.range c.samples).foldl (fun ms i =>
      Function.update ms (j * c.samples + i)
        (dbl (ms (j * c.samples + i) + ops.keyMul key (d i)))) ms) c.mult_sum
  let sums := (List.range c.samples).foldl (fun (sq : (Nat → ℚ) × (Nat → ℚ)) i =>
    (Function.update sq.1 i (dbl (sq.1 i + ops.toAcc (d i))),
     Function.update sq.2 i (dbl (sq.2 i + ops.square (d i))))) (c.sum, c.square_sum)
  { c with
    mult_sum := mult_sum
    sum := sums.1
    square_sum := sums.2
    count := c.count + 1 }

/-- Instance `add_trace(float, float)`, in `double` arithmetic. -/
def add_trace_float (c : Correlator) (hypo_idx : Nat) (d : Nat → ℚ) : Correlator :=
  add_trace_rounded floatSample c hypo_idx d

/-- Sequential ingestion of a list of traces, each with its hypothesis index. -/
def ingest {α : Type} (ops : SampleOps α) (c : Correlator)
    (l : List (Nat × (Nat → α))) : Correlator :=
  l.foldl (fun c td => add_trace ops c td.1 td.2) c

/-- Sequential ingestion of a list of traces in `double` arithmetic. -/
def ingest_rounded {α : Type} (ops : SampleOps α) (c : Correlator)
    (l : List (Nat × (Nat → α))) : Correlator :=
  l.foldl (fun c td => add_trace_rounded ops c td.1 td.2) c

/-- The loop of `Correlator::preprocess` over one hypothesis row `j`: the pair
`(sum, sq_sum)`.  Both are `int64_t` and cannot overflow, the constructor takes the number
of traces as an `int`; `cur * cur` is an `int` product. -/
def row_sums (c : Correlator) (j : Nat) : Int × Int :=
  (List.range c.traces).foldl (fun (s : Int × Int) i =>
    let cur : Int := (c.hypo (j * c.traces + i) : Int)
    (s.1 + cur, s.2 + wrapInt32 (cur * cur))) (0, 0)

/-- The method `Correlator::preprocess`, in exact real arithmetic; `key_avg_rounded` and
`key_stddev_rounded` are the same expressions with every operation rounded. -/
noncomputable def preprocess (c : Correlator) : Correlator :=
  let r := (List.range c.keys).foldl (fun (as : (Nat → Dbl) × (Nat → Dbl)) j =>
    let s := row_sums c j
    let key_avg := Function.update as.1 j (Dbl.div (Dbl.ofInt s.1) (Dbl.ofNat c.traces))
    let key_stddev := Function.update as.2 j
      (Dbl.sqrt (Dbl.sub (Dbl.div (Dbl.ofInt s.2) (Dbl.ofNat c.traces))
        (Dbl.mul (key_avg j) (key_avg j))))
    (key_avg, key_stddev)) (c.key_avg, c.key_stddev)
  { c with
    key_avg := r.1
    key_stddev := r.2 }

/-- The value `cur` that `Correlator::update_matrix` computes for hypothesis `j` and
sample `i` (lines 99 to 104 of `correlator.cpp`), in exact real arithmetic: no operation
is rounded.  The same expression with every operation rounded is `cur_value_rounded`. -/
noncomputable def cur_value (c : Correlator) (j i : Nat) : Dbl :=
  let cur_avg := Dbl.div (Dbl.ofRat (c.sum i)) (Dbl.ofNat c.count)
  Dbl.div
    (Dbl.div
      (Dbl.div
        (Dbl.sub (Dbl.ofRat (c.mult_sum (j * c.samples + i)))
          (Dbl.mul (Dbl.ofRat (c.sum i)) (c.key_avg j)))
        (Dbl.sqrt (Dbl.sub (Dbl.div (Dbl.ofRat (c.square_sum i)) (Dbl.ofNat c.count))
          (Dbl.mul cur_avg cur_avg))))
      (c.key_stddev j))
    (Dbl.ofNat c.count)

/-- The first loop nest of `Correlator::update_matrix`: the triple `(matrix, min, max)`,
with `min = -1` and `max = 1` at the start. -/
noncomputable def matrix_pass (c : Correlator) : (Nat → Dbl) × Dbl × Dbl :=
  (List.range c.keys).foldl (fun (st : (Nat → Dbl) × Dbl × Dbl) j =>
    (List.range c.samples).foldl (fun (st : (Nat → Dbl) × Dbl × Dbl) i =>
      let cur := cur_value c j i
      let matrix := Function.update st.1 (j * c.samples + i) cur
      let max := if Dbl.lt st.2.2 cur then cur else st.2.2
      let min := if Dbl.lt cur st.2.1 then cur else st.2.1
      (matrix, min, max)) st) (c.matrix, Dbl.fin (-1), Dbl.fin 1)

/-- The method `Correlator::update_matrix` (the two warnings on `stderr` are left out). -/
noncomputable def update_matrix (c : Correlator) : Correlator :=
  let r := matrix_pass c
  let min := r.2.1
  let max := r.2.2
  let byte_matrix := (List.range (c.keys * c.samples)).foldl (fun (bm : Nat → Option Nat) j =>
    Function.update bm j
      (Dbl.toU8 (Dbl.div (Dbl.mul (Dbl.sub (r.1 j) min) (Dbl.fin 255)) (Dbl.sub max min))))
    c.byte_matrix
  { c with
    matrix := r.1
    byte_matrix := byte_matrix }

/-- A `double` division `x / y` with a finite quotient; `none` when `y = 0`, where the
quotient is an infinity or NaN. -/
def div_rounded (x y : ℚ) : Option ℚ := if y = 0 then none else some (dbl (x / y))

/-- The function `sqrt` with a finite result; `none` for a negative argument, where the
result is NaN. -/
def sqrt_rounded (x : ℚ) : Option ℚ := if x < 0 then none else some (dbl_sqrt x)

/-- The value `preprocess` stores into `key_avg[j]` in `double` arithmetic: the `int64_t`
sum and the `size_t` number of traces are converted to `double` and divided.  `none`
stands for a value that is not finite. -/
def key_avg_rounded (c : Correlator) (j : Nat) : Option ℚ :=
  div_rounded (dbl ((row_sums c j).1 : ℚ)) (dbl (c.traces : ℚ))

/-- The value `preprocess` stores into `key_stddev[j]` in `double` arithmetic; `none`
stands for a value that is not finite. -/
def key_stddev_rounded (c : Correlator) (j : Nat) : Option ℚ :=
  (key_avg_rounded c j).bind fun key_avg =>
  (div_rounded (dbl ((row_sums c j).2 : ℚ)) (dbl (c.traces : ℚ))).bind fun m2 =>
  sqrt_rounded (dbl (m2 - dbl (key_avg * key_avg)))

/-- The value `cur` of `Correlator::update_matrix` for hypothesis `j` and sample `i` in
`double` arithmetic, on accumulators that hold `double` values and with `key_avg[j]`,
`key_stddev[j]` as `preprocess` computes them from the hypothesis table.  `none` stands
for a value that is not finite: once a divisor is zero or a radicand negative, the
quotients that follow are infinite or NaN. -/
def cur_value_rounded (c : Correlator) (j i : Nat) : Option ℚ :=
  (key_avg_rounded c j).bind fun key_avg =>
  (key_stddev_rounded c j).bind fun key_stddev =>
  (div_rounded (c.sum i) (dbl (c.count : ℚ))).bind fun cur_avg =>
  (div_rounded (c.square_sum i) (dbl (c.count : ℚ))).bind fun m2 =>
  (sqrt_rounded (dbl (m2 - dbl (cur_avg * cur_avg)))).bind fun sd =>
  (div_rounded (dbl (c.mult_sum (j * c.samples + i) - dbl (c.sum i * key_avg))) sd).bind
    fun q1 =>
  (div_rounded q1 key_stddev).bind fun q2 =>
  div_rounded q2 (dbl (c.count : ℚ))

/-! ## The rasterizer (`_preprocess.c`)

The element types `data_in_t` and `data_out_t` are `uint8_t`, the default of the file.
The `float` sum of `compare` is an integer at every turn and is kept as an `Int`.  Positions
(`cnt`, `min_pos`, `last_pos`) are C `int`s that stay far below `2^31`; they are natural
numbers here.  The raster width `raster` is a non-negative `int`. -/

/-- The global `raster_config`. -/
structure RasterConfig where
  trigger : Int
  pause_trigger : Int
  min_pause : Int
  max_pause : Int
  header_size : Nat

/-- The initial value `{120, 1100, 3, 6, 128}` of `raster_config`. -/
def raster_config : RasterConfig := ⟨120, 1100, 3, 6, 128⟩

/-- The function `compare`: the sum of the squared differences of `len` samples,
accumulated in a `float`.  The difference `*d1 - *d2` is an `int`, converted to `float`;
the square and the sum are `float` operations.  Every value is an integer (a `float` of
magnitude `2^24` or more is one), so that `⌊ ⌋` changes the type only. -/
def compare (d1 d2 : Nat → Nat) (len : Nat) : Int :=
  (List.range len).foldl (fun res cnt =>
    let val : ℚ := flt (((d1 cnt : Int) - (d2 cnt : Int) : Int) : ℚ)
    ⌊flt ((res : ℚ) + flt (val * val))⌋) 0

/-- Conversion of a `double` to `data_out_t = uint8_t`: the fractional part is discarded;
`none` (undefined in C) when the result does not fit. -/
def toU8q (v : ℚ) : Option Nat :=
  if -1 < v ∧ v < 256 then some (Int.toNat ⌊v⌋) else none

/-- Conversion `(int) x` of a `double`: rounding towards zero. -/
def truncq (x : ℚ) : Int := if 0 ≤ x then ⌊x⌋ else ⌈x⌉

/-- Arithmetic without rounding, for the statements made in exact arithmetic. -/
def exact (x : ℚ) : ℚ := x

/-- The value that `spline` stores into `out[i]`; `rnd` is the rounding of each `double`
operation, `dbl` in the program.  The sizes and `i` are `int`s, the samples `uint8_t`,
converted to `double` without rounding.  It is `none` where C leaves the behaviour
undefined: for `outsize = 1` the scale is a division by zero and `inpos` is NaN; for a
negative `a` the read `in[a]` lies before the buffer. -/
def spline_value (rnd : ℚ → ℚ) (inp : Nat → Nat) (outsize insize : Int) (i : Nat) :
    Option Nat :=
  if outsize - 1 = 0 then none
  else
    let scale : ℚ := rnd (((insize - 1 : Int) : ℚ) / ((outsize - 1 : Int) : ℚ))
    let inpos : ℚ := rnd ((i : ℚ) * scale)
    let a : Int := truncq inpos
    if a < 0 then none
    else toU8q (rnd (rnd ((inp a.toNat : ℚ) * rnd (rnd (1 - inpos) + a))
      + rnd ((inp (a.toNat + 1) : ℚ) * rnd (inpos - a))))

/-- The function `spline`, writing `out[0 .. outsize-1]` where `out` is the memory at
offset `o` of the output buffer. -/
def spline (rnd : ℚ → ℚ) (out : Nat → Nat) (o : Nat) (inp : Nat → Nat)
    (outsize insize : Int) : Option (Nat → Nat) :=
  (List.range outsize.toNat).foldl (fun (acc : Option (Nat → Nat)) i =>
    match acc, spline_value rnd inp outsize insize i with
    | some m, some v => some (Function.update m (o + i) v)
    | _, _ => none) (some out)

/-- The function `raster_write`: the new output memory and the returned length. -/
def raster_write (out : Nat → Nat) (o : Nat) (d : Nat → Nat) (dlen padlen : Int) :
    Option (Nat → Nat) × Nat :=
  (spline dbl out o d (dlen + padlen) dlen, (dlen + padlen).toNat)

/-- How a run of the scan of `raster` ends. -/
inductive Outcome (α : Type) where
  | ok (a : α)
  | abort
  | undefined
  | timeout

/-- The variables of the scan loop of `raster`: `last_pos`, `start` (the number of pause
regions seen), the offset `out_ptr - out`, the output memory, and a record of the calls of
`raster_write` as pairs `(last_pos, distance)`. -/
structure ScanState where
  last_pos : Nat
  start : Int
  out_pos : Nat
  out : Nat → Nat
  emitted : List (Nat × Int)

/-- The refinement loop over `cnt2`: the pair `(min_val, min_pos)` after it. -/
def refine_edge (comp_vals : Nat → Int) (raster : Nat) (cnt : Nat) : Int × Nat :=
  (List.range' (cnt + 1) (raster / 2)).foldl (fun (m : Int × Nat) cnt2 =>
    if comp_vals cnt2 < m.1 then (comp_vals cnt2, cnt2) else m) (comp_vals cnt, cnt)

/-- The comparison `min_pos < len - 2*raster`, carried out in `size_t` (64 bit). -/
def before_tail (len raster min_pos : Nat) : Prop :=
  (min_pos : Int) < ((len : Int) - 2 * (raster : Int)) % 2 ^ 64

instance (len raster min_pos : Nat) : Decidable (before_tail len raster min_pos) := by
  unfold before_tail
  infer_instance

/-- The two assertions `distance < 1.1 * raster` and `distance > 0.9 * (raster-5)`: the
constants `1.1` and `0.9` are doubles, each product is a `double` product, and the `int`
`distance` is compared with it as a `double`. -/
def in_tolerance (raster : Nat) (distance : Int) : Prop :=
  (distance : ℚ) < dbl (dbl (11 / 10) * (raster : ℚ))
    ∧ dbl (dbl (9 / 10) * (((raster : Int) - 5 : Int) : ℚ)) < (distance : ℚ)

instance (raster : Nat) (distance : Int) : Decidable (in_tolerance raster distance) := by
  unfold in_tolerance
  infer_instance

/-- The part of the loop body of `raster` guarded by `if(raster && start >= min_pause &&
distance < pause_trigger / 2)`, for an edge at `min_pos`. -/
def write_window (cfg : RasterConfig) (inp : Nat → Nat) (len raster : Nat)
    (min_pos : Nat) (distance : Int) (st : ScanState) : Outcome ScanState :=
  if raster ≠ 0 ∧ cfg.min_pause ≤ st.start ∧ distance < Int.tdiv cfg.pause_trigger 2 then
    if before_tail len raster min_pos ∧ ¬ in_tolerance raster distance then Outcome.abort
    else
      match raster_write st.out st.out_pos
          (fun a => inp (cfg.header_size + st.last_pos + a)) distance (raster - distance) with
      | (some out, n) =>
          Outcome.ok { st with
            out := out
            out_pos := st.out_pos + n
            emitted := st.emitted ++ [(st.last_pos, distance)] }
      | (none, _) => Outcome.undefined
  else Outcome.ok st

/-- The body of `if(comp_vals[cnt] < raster_config.trigger)` after the refinement loop
(the messages and the variable `max_distance`, which is only printed, are left out). -/
def on_edge (cfg : RasterConfig) (inp : Nat → Nat) (len raster : Nat) (min_pos : Nat)
    (st : ScanState) : Outcome ScanState :=
  if 0 < st.last_pos then
    let distance : Int := (min_pos : Int) - (st.last_pos : Int)
    match write_window cfg inp len raster min_pos distance st with
    | Outcome.ok st1 =>
        if cfg.pause_trigger < distance then
          if st1.start < cfg.max_pause then
            Outcome.ok { st1 with
              start := st1.start + 1
              last_pos := min_pos }
          else Outcome.abort
        else Outcome.ok { st1 with last_pos := min_pos }
    | o => o
  else Outcome.ok { st with last_pos := min_pos }

/-- The scan loop `for(cnt=0; cnt < (len - edge_len); )` of `raster`, from position `cnt`.
Each turn advances `cnt`, so `bound - cnt` turns are enough; `fuel` counts the turns. -/
def scan (cfg : RasterConfig) (inp : Nat → Nat) (len raster : Nat) (comp_vals : Nat → Int)
    (bound : Nat) : Nat → Nat → ScanState → Outcome ScanState
  | 0, cnt, st => if cnt < bound then Outcome.timeout else Outcome.ok st
  | fuel + 1, cnt, st =>
      if cnt < bound then
        if comp_vals cnt < cfg.trigger then
          match on_edge cfg inp len raster (refine_edge comp_vals raster cnt).2 st with
          | Outcome.ok st1 =>
              scan cfg inp len raster comp_vals bound fuel (cnt + raster / 2 + 1 + 1) st1
          | o => o
        else scan cfg inp len raster comp_vals bound fuel (cnt + 1) st
      else Outcome.ok st

/-- What a call of `raster` leaves behind: the returned `int`, and the value written to
`*out_size` and the output memory when they are written.

* `too_short`: the length check failed and `-1` was returned, before anything was
  allocated, written to `out` or stored into `*out_size`;
* `not_started start`: the scan ended with `start ≠ min_pause` and `1` was returned,
  `*out_size` unwritten;
* `done start out_size out emitted`: `start` was returned after `out_size` was stored
  into `*out_size`; `out` is the output memory, `emitted` the windows written;
* `aborted`: an assertion failed; `undefined`: C leaves the behaviour undefined;
  `timeout`: the scan ran out of fuel (it never does, `raster_no_timeout`). -/
inductive RasterResult where
  | too_short
  | not_started (start : Int)
  | done (start : Int) (out_size : Nat) (out : Nat → Nat) (emitted : List (Nat × Int))
  | aborted
  | undefined
  | timeout

/-- The `int` returned by `raster`, when it returns. -/
def RasterResult.retval : RasterResult → Option Int
  | RasterResult.too_short => some (-1)
  | RasterResult.not_started _ => some 1
  | RasterResult.done start _ _ _ => some start
  | _ => none

/-- The value stored into `*out_size`, when one is stored. -/
def RasterResult.out_size : RasterResult → Option Nat
  | RasterResult.done _ n _ _ => some n
  | _ => none

/-- The record of the calls of `raster_write` of a run that returned without failure. -/
def RasterResult.windows : RasterResult → List (Nat × Int)
  | RasterResult.done _ _ _ e => e
  | _ => []

/-- The array `comp_vals`: cell `cnt` holds `compare(tdata+cnt, edge, edge_len)` for
`cnt < len - edge_len`; the other cells are never written and hold `junk`. -/
def comp_array (cfg : RasterConfig) (junk : Nat → Int) (inp : Nat → Nat) (edge : Nat → Nat)
    (edge_len bound : Nat) (cnt : Nat) : Int :=
  if cnt < bound then compare (fun k => inp (cfg.header_size + cnt + k)) edge edge_len
  else junk cnt

/-- The function `raster`.  `junk` is the content of the freshly allocated `comp_vals`,
`out` the content of the output buffer before the call. -/
def raster (cfg : RasterConfig) (junk : Nat → Int) (out : Nat → Nat) (inp : Nat → Nat)
    (len : Nat) (raster : Nat) (edge : Nat → Nat) (edge_len : Nat) : RasterResult :=
  if len < cfg.header_size + edge_len then RasterResult.too_short
  else
    let len1 := len - cfg.header_size
    let comp_vals := comp_array cfg junk inp edge edge_len (len1 - edge_len)
    match scan cfg inp len1 raster comp_vals (len1 - edge_len) (len1 - edge_len) 0
        ⟨0, 0, 0, out, []⟩ with
    | Outcome.ok st =>
        if st.start ≠ cfg.min_pause then RasterResult.not_started st.start
        else RasterResult.done st.start st.out_pos st.out st.emitted
    | Outcome.abort => RasterResult.aborted
    | Outcome.undefined => RasterResult.undefined
    | Outcome.timeout => RasterResult.timeout

/-- The position `cnt` and the variables of the scan loop of `raster` after `k` turns,
started at position `cnt` in state `st`; `none` when the loop has ended or failed before
it has done `k` turns. -/
def scan_turns (cfg : RasterConfig) (inp : Nat → Nat) (len raster : Nat)
    (comp_vals : Nat → Int) (bound : Nat) : Nat → Nat → ScanState → Option (Nat × ScanState)
  | 0, cnt, st => some (cnt, st)
  | k + 1, cnt, st =>
      if cnt < bound then
        if comp_vals cnt < cfg.trigger then
          match on_edge cfg inp len raster (refine_edge comp_vals raster cnt).2 st with
          | Outcome.ok st1 =>
              scan_turns cfg inp len raster comp_vals bound k (cnt + raster / 2 + 1 + 1) st1
          | _ => none
        else scan_turns cfg inp len raster comp_vals bound k (cnt + 1) st
      else none

/-- The position, `last_pos` and `start` of a turn of the scan. -/
def turn_view (t : Nat × ScanState) : Nat × Nat × Int := (t.1, t.2.last_pos, t.2.start)

/-! ## Scenario data -/

/-- A correlator object whose arrays are all zero: the memory contents before construction
in the scenarios below. -/
noncomputable def blank : Correlator where
  samples := 0
  traces := 0
  keys := 0
  count := 0
  sum := fun _ => 0
  square_sum := fun _ => 0
  mult_sum := fun _ => 0
  key_avg := fun _ => Dbl.fin 0
  key_stddev := fun _ => Dbl.fin 0
  hypo := fun _ => 0
  matrix := fun _ => Dbl.fin 0
  byte_matrix := fun _ => some 0

/-- Scenario S1 of the specification: `hypo = [[0,1,2],[2,2,2]]`, flat. -/
def s1_hypo (x : Nat) : Nat := [0, 1, 2, 2, 2, 2].getD x 0

/-- Scenario S1: the traces `[1,1,1,1]`, `[2,4,2,4]`, `[3,7,3,7]`. -/
def s1_trace (t : Nat) (i : Nat) : Nat :=
  ([[1, 1, 1, 1], [2, 4, 2, 4], [3, 7, 3, 7]].getD t []).getD i 0

/-- Scenario S1 with sample column 0 replaced by the constant 5. -/
def s1_trace_const (t : Nat) (i : Nat) : Nat := if i = 0 then 5 else s1_trace t i

/-- A hypothesis table of one row, `hypo = [[0, 1]]`. -/
def two_hypo (x : Nat) : Nat := [0, 1].getD x 0

/-- Two traces of one 16-bit sample each, `[0]` and `[65535]`. -/
def wide_trace (t : Nat) (_ : Nat) : Nat := [0, 65535].getD t 0

/-- Three traces of one `float` sample each: `2^53`, `1` and `-2^53`. -/
def float_trace (t : Nat) (_ : Nat) : ℚ := [9007199254740992, 1, -9007199254740992].getD t 0

/-! ## Statistics of the specification -/

/-- Arithmetic mean of `x 0, ..., x (T-1)`. -/
noncomputable def mean (T : Nat) (x : Nat → ℝ) : ℝ :=
  (∑ t in Finset.range T, x t) / T

/-- Population covariance of two sequences of length `T`. -/
noncomputable def covariance (T : Nat) (x y : Nat → ℝ) : ℝ :=
  (∑ t in Finset.range T, (x t - mean T x) * (y t - mean T y)) / T

/-- Population variance of a sequence of length `T`. -/
noncomputable def variance (T : Nat) (x : Nat → ℝ) : ℝ :=
  (∑ t in Finset.range T, (x t - mean T x) ^ 2) / T

/-- Population standard deviation. -/
noncomputable def stddev (T : Nat) (x : Nat → ℝ) : ℝ :=
  Real.sqrt (variance T x)

/-- Pearson correlation coefficient: the covariance divided by the product of the two
population standard deviations. -/
noncomputable def pearson (T : Nat) (x y : Nat → ℝ) : ℝ :=
  covariance T x y / (stddev T x * stddev T y)

/-! ## Auxiliary definitions -/

/-- The products of the element type are exact on sample `x` and hypothesis value `key`:
no `int` overflow has occurred. -/
def SampleOps.Exact {α : Type} (ops : SampleOps α) (key : Nat) (x : α) : Prop :=
  ops.keyMul key x = (key : ℚ) * ops.toAcc x ∧ ops.square x = ops.toAcc x * ops.toAcc x

/-- The life cycle of a correlator: construction with sizes `(S, T, H)`, filling of the
hypothesis table, `preprocess`, then one `add_trace` per trace index in the order given
by `order`, trace `t` carrying the samples `d t`. -/
noncomputable def run_traces {α : Type} (ops : SampleOps α) (S T H : Nat) (u : Correlator)
    (hyp : Nat → Nat) (order : List Nat) (d : Nat → Nat → α) : Correlator :=
  ingest ops (preprocess ((Correlator.init S T H u).fill_hypo hyp))
    (order.map (fun t => (t, d t)))

/-- The life cycle of a correlator in `double` arithmetic: construction with sizes
`(S, T, H)`, filling of the hypothesis table, then one `add_trace` per trace index in the
order given by `order`.  What `preprocess` stores is recomputed from the hypothesis table
by `key_avg_rounded` and `key_stddev_rounded`. -/
def run_traces_rounded {α : Type} (ops : SampleOps α) (S T H : Nat) (u : Correlator)
    (hyp : Nat → Nat) (order : List Nat) (d : Nat → Nat → α) : Correlator :=
  ingest_rounded ops ((Correlator.init S T H u).fill_hypo hyp) (order.map (fun t => (t, d t)))

/-- Every accumulator cell of the correlator holds an integer of absolute value at most
`n * 2^31`. -/
def IntBounded (n : Nat) (c : Correlator) : Prop :=
  ∀ x, (∃ z : Int, c.sum x = (z : ℚ) ∧ |z| ≤ (n : Int) * 2 ^ 31)
    ∧ (∃ z : Int, c.square_sum x = (z : ℚ) ∧ |z| ≤ (n : Int) * 2 ^ 31)
    ∧ (∃ z : Int, c.mult_sum x = (z : ℚ) ∧ |z| ≤ (n : Int) * 2 ^ 31)

/-- Row `k` of an `H × T` hypothesis table, as a real sequence. -/
def hypo_row (hyp : Nat → Nat) (T k : Nat) (t : Nat) : ℝ := (hyp (k * T + t) : ℝ)

/-- Sample column `i` of the traces, as a real sequence. -/
def sample_col {α : Type} (ops : SampleOps α) (d : Nat → Nat → α) (i : Nat) (t : Nat) : ℝ :=
  ((ops.toAcc (d t i) : ℚ) : ℝ)

/-- The value `cur` of `update_matrix` at the flat index `x`. -/
noncomputable def flat_cur (c : Correlator) (x : Nat) : Dbl :=
  cur_value c (x / c.samples) (x % c.samples)

/-- What one call of `add_trace` adds to cell `x` of `mult_sum`. -/
def mult_term {α : Type} (ops : SampleOps α) (c : Correlator) (t : Nat) (d : Nat → α)
    (x : Nat) : ℚ :=
  ops.keyMul (c.hypo (x / c.samples * c.traces + t)) (d (x % c.samples))

/-- The value `preprocess` stores into `key_avg[j]`. -/
noncomputable def avg_value (c : Correlator) (j : Nat) : Dbl :=
  Dbl.div (Dbl.ofInt (row_sums c j).1) (Dbl.ofNat c.traces)

/-- The value `preprocess` stores into `key_stddev[j]`. -/
noncomputable def stddev_value (c : Correlator) (j : Nat) : Dbl :=
  Dbl.sqrt (Dbl.sub (Dbl.div (Dbl.ofInt (row_sums c j).2) (Dbl.ofNat c.traces))
    (Dbl.mul (avg_value c j) (avg_value c j)))

/-- The running minimum of `update_matrix`, started at `-1`. -/
noncomputable def min_pass (c : Correlator) : Dbl :=
  (List.range (c.keys * c.samples)).foldl
    (fun m x => if Dbl.lt (flat_cur c x) m then flat_cur c x else m) (Dbl.fin (-1))

/-- The running maximum of `update_matrix`, started at `1`. -/
noncomputable def max_pass (c : Correlator) : Dbl :=
  (List.range (c.keys * c.samples)).foldl
    (fun m x => if Dbl.lt m (flat_cur c x) then flat_cur c x else m) (Dbl.fin 1)

/-- The output memory after a run of `raster` that returned without failure. -/
def RasterResult.out_mem : RasterResult → Nat → Nat
  | RasterResult.done _ _ o _ => o
  | _ => fun _ => 0

/-- What the scan of `raster` keeps true of its output: `out_ptr` is `raster` times the
number of windows written; each window `(last_pos, distance)` written was closer than
`pause_trigger / 2` and, when its closing edge `last_pos + distance` lies before the tail
`len - 2*raster`, within the tolerance; and the `j`-th window occupies
`out[j*raster .. (j+1)*raster)` with the values computed by `spline`. -/
def ScanInv (cfg : RasterConfig) (inp : Nat → Nat) (len raster : Nat) (st : ScanState) :
    Prop :=
  st.out_pos = raster * st.emitted.length
    ∧ (∀ w, w ∈ st.emitted →
        w.2 < Int.tdiv cfg.pause_trigger 2
          ∧ ((w.1 : Int) + w.2 < ((len : Int) - 2 * (raster : Int)) % 2 ^ 64
            → in_tolerance raster w.2))
    ∧ (∀ j w, st.emitted[j]? = some w → ∀ i, i < raster →
        spline_value dbl (fun a => inp (cfg.header_size + w.1 + a)) raster w.2 i
          = some (st.out (j * raster + i)))

/-- The state after a call of `raster_write` for the window `(st.last_pos, distance)`. -/
def window_written (st : ScanState) (raster : Nat) (distance : Int) (out : Nat → Nat) :
    ScanState :=
  { st with
    out := out
    out_pos := st.out_pos + raster
    emitted := st.emitted ++ [(st.last_pos, distance)] }

/-! ## Raster scenarios -/

/-- A small raster configuration: trigger 1, pause threshold 20, one leading pause
expected, at most 6, no header. -/
def cfgA : RasterConfig := ⟨1, 20, 1, 6, 0⟩

/-- The edge template `[1]`. -/
def edgeA (_ : Nat) : Nat := 1

/-- An acquisition with an edge at 1, a pause, an edge at 23 and an edge at 30, seven
samples later and less than `2 * 4` samples before the end of 36 samples. -/
def inA (x : Nat) : Nat := if x = 1 ∨ x = 23 ∨ x = 30 then 1 else 0

/-- An acquisition with an edge at 1, a pause, an edge at 23 and an edge at 27, four
samples later. -/
def inB (x : Nat) : Nat := if x = 1 ∨ x = 23 ∨ x = 27 then 1 else 0

/-- An acquisition without any edge. -/
def inZ (_ : Nat) : Nat := 0

/-- A raster configuration with the pause threshold 30: trigger 1, one leading pause
expected, at most 6, no header. -/
def cfgW : RasterConfig := ⟨1, 30, 1, 6, 0⟩

/-- An acquisition of 70 samples with an edge at 1, a pause, an edge at 40 and an edge at
51, eleven samples later; the samples 46 and 47 of the window are 201 and 30. -/
def inW (x : Nat) : Nat :=
  if x = 1 ∨ x = 40 ∨ x = 51 then 1 else if x = 46 then 201 else if x = 47 then 30 else 0

/-! ## Element-wise and sliding-window functions (`_preprocess.c`) -/

/-- Value of a `size_t` (64 bit) holding the mathematical integer `x`. -/
def wrapSize (x : Int) : Nat := (x % 2 ^ 64).toNat

/-- The macro `SSCALE(x, issigned, scale)` for a `double` `x`, the `int` `issigned` and the
`double` `scale`: `(issigned) + ((x) - (issigned)) * (scale)`, each operation a `double`
operation. -/
def SSCALE (x : ℚ) (issigned : Int) (scale : ℚ) : ℚ :=
  dbl ((issigned : ℚ) + dbl (dbl (x - (issigned : ℚ)) * scale))

/-- One turn of the second loop of `average_filter`, with `i = n - 1 + offset`: the pair
`(avg, out)`.  `avg` is a `double`, and `n` is converted to `double` for the division.
The output memory is `none` where C leaves the behaviour undefined (a value that does not
fit `data_out_t`, a remainder by `skip = 0`). -/
def average_step (inp : Nat → Nat) (n1 n skip : Nat) (scale : ℚ) (issigned : Int)
    (st : ℚ × Option (Nat → Nat)) (offset : Nat) : ℚ × Option (Nat → Nat) :=
  let i := n1 + offset
  let avg := dbl (st.1 + (inp i : ℚ))
  let out1 : Option (Nat → Nat) :=
    if skip = 0 then none
    else if offset % skip = 0 then
      match st.2, toU8q (SSCALE (dbl (avg / dbl (n : ℚ))) issigned scale) with
      | some m, some v => some (Function.update m (offset / skip) v)
      | _, _ => none
    else st.2
  (dbl (avg - (inp offset : ℚ)), out1)

/-- The function `average_filter`; `n - 1` is a `size_t`. -/
def average_filter (out : Nat → Nat) (inp : Nat → Nat) (len n skip : Nat) (scale : ℚ)
    (issigned : Int) : Option (Nat → Nat) :=
  let n1 := wrapSize ((n : Int) - 1)
  let avg0 : ℚ := (List.range n1).foldl (fun avg i => dbl (avg + (inp i : ℚ))) 0
  ((List.range (len - n1)).foldl (average_step inp n1 n skip scale issigned)
    (avg0, some out)).2

/-- The mean of the `n` samples `in[s .. s+n-1]`. -/
def window_mean (inp : Nat → Nat) (n s : Nat) : ℚ :=
  (∑ k in Finset.range n, (inp (s + k) : ℚ)) / (n : ℚ)

/-- An input of 49 samples whose sum is 1. -/
def in_unit (x : Nat) : Nat := if x = 0 then 1 else 0

/-- The variables of the loop of `peak_extract`.  `max` only ever holds a sample; `out`
is `none` once a value was stored that does not fit `data_in_t`. -/
structure PeakState where
  state : Nat
  max : ℚ
  pos : Nat
  last_pos : Nat
  break_count : Nat
  out : Option (Nat → Nat)

/-- The store `out[pos] = v` of a `double` into the output of `peak_extract`. -/
def store_peak (out : Option (Nat → Nat)) (pos : Nat) (v : ℚ) : Option (Nat → Nat) :=
  match out, toU8q v with
  | some m, some b => some (Function.update m pos b)
  | _, _ => none

/-- One turn of the loop of `peak_extract` at index `i` with the sample `x = in[i]`: the
four `if` statements in their order. -/
def peak_step (trsh_low trsh_high : ℚ) (break_length : Nat) (st : PeakState) (i : Nat)
    (x : Nat) : PeakState :=
  let s1 : PeakState :=
    if st.state = 0 ∧ (x : ℚ) < trsh_low then
      { st with
        state := st.state + 1
        max := (x : ℚ) }
    else st
  let s2 : PeakState :=
    if s1.state ≠ 0 ∧ s1.max < (x : ℚ) then { s1 with max := (x : ℚ) } else s1
  let s3 : PeakState :=
    if s2.state = 1 ∧ trsh_high < (x : ℚ) then { s2 with state := s2.state + 1 } else s2
  if s3.state = 2 ∧ (x : ℚ) < trsh_low then
    let out := store_peak s3.out s3.pos s3.max
    let pos := s3.pos + 1
    let broke : Bool := decide (s3.break_count ≠ 0 ∧ break_length < i - s3.last_pos)
    let break_count := if broke then s3.break_count - 1 else s3.break_count
    let pos1 := if broke ∧ break_count = 0 then 0 else pos
    { state := 1
      max := (x : ℚ)
      pos := pos1
      last_pos := i
      break_count := break_count
      out := out }
  else s3

/-- The function `peak_extract`: the returned count `pos` and the output memory.  The two
thresholds are `double` values, `avg - std_dev` and `avg + std_dev` rounded. -/
def peak_extract (out : Nat → Nat) (inp : Nat → Nat) (len : Nat) (avg std_dev : ℚ)
    (break_length break_count : Nat) : Nat × Option (Nat → Nat) :=
  let st := (List.range len).foldl
    (fun st i => peak_step (dbl (avg - std_dev)) (dbl (avg + std_dev)) break_length st i
      (inp i))
    ⟨0, (inp 0 : ℚ), 0, 0, break_count, some out⟩
  (st.pos, st.out)

/-- The result of `normalize`: the returned `int` and the output memory. -/
structure NormResult where
  ret : Int
  out : Nat → Nat

/-- The loop of `normalize` over the indices `l`; `scale` is the `double` computed before
the loop, `none` when it is not finite.  The `size_t` value `-i` is converted to the `int`
that is returned; the stored value `(in[i] - min) * scale + type_min` is formed in
`double` arithmetic and converted to `data_out_t = uint8_t`, which is undefined for a
value that is not finite or does not fit. -/
def normalize_loop (inp : Nat → Nat) (min max : ℚ) (scale : Option ℚ) (type_min : Nat) :
    List Nat → (Nat → Nat) → Option NormResult
  | [], out => some ⟨1, out⟩
  | i :: l, out =>
      if max < (inp i : ℚ) ∨ (inp i : ℚ) < min then some ⟨wrapInt32 (-(i : Int)), out⟩
      else
        match scale.bind (fun s =>
            toU8q (dbl (dbl (dbl ((inp i : ℚ) - min) * s) + (type_min : ℚ)))) with
        | some v => normalize_loop inp min max scale type_min l (Function.update out i v)
        | none => none

/-- The function `normalize` for `data_out_t = uint8_t`: `type_max = 255`,
`type_min = (uint8_t) 256 = 0`, and `scale = (type_max - type_min) / (max - min)` is the
`double` quotient of the `int` 255 by the `double` difference, not finite for
`max = min`.  `none` where C leaves the behaviour undefined. -/
def normalize (out : Nat → Nat) (inp : Nat → Nat) (len : Nat) (min max : ℚ) :
    Option NormResult :=
  let type_max : Nat := 255
  let type_min : Nat := (type_max + 1) % 256
  normalize_loop inp min max
    (div_rounded ((((type_max : Int) - (type_min : Int) : Int)) : ℚ) (dbl (max - min)))
    type_min (List.range len) out

/-- The array `poff` of `reorder` after its loop; only the cells `0 .. period-1` are
meant. -/
def reorder_poff (len period : Nat) : Nat → Nat :=
  (List.range' 1 (period - 1)).foldl (fun (poff : Nat → Nat) i =>
    Function.update poff i (poff (i - 1) + (len + period - i) / period))
    (Function.update (fun _ => 0) 0 0)

/-- The index map of `reorder`. -/
def reorder_index (len period : Nat) (i : Nat) : Nat :=
  reorder_poff len period (i % period) + i / period

/-- The function `reorder` (`period ≥ 1`). -/
def reorder (out : Nat → Nat) (inp : Nat → Nat) (len period : Nat) : Nat → Nat :=
  (List.range len).foldl (fun (out : Nat → Nat) i =>
    Function.update out (reorder_index len period i) (inp i)) out

/-! ## Auxiliary definitions and scenarios for the element-wise functions -/

/-- The loop of `peak_extract` over the indices `s .. s+n-1`. -/
def peak_run (trsh_low trsh_high : ℚ) (break_length : Nat) (inp : Nat → Nat) (s n : Nat)
    (st : PeakState) : PeakState :=
  (List.range' s n).foldl (fun st i => peak_step trsh_low trsh_high break_length st i (inp i)) st

/-- Scenario S3 of the specification: 100 samples of 50, 5 of 150, 400 of 50, 5 of 150,
10 of 50, 5 of 150; the cells from 525 on hold 50. -/
def s3_in (x : Nat) : Nat :=
  if (100 ≤ x ∧ x < 105) ∨ (505 ≤ x ∧ x < 510) ∨ (520 ≤ x ∧ x < 525) then 150 else 50

/-- Scenario S4 of the specification: `in = [0, 64, 128, 192, 255]`. -/
def s4_in (x : Nat) : Nat := [0, 64, 128, 192, 255].getD x 0

/-- An input of `2^32` samples whose last sample alone is out of the range `[0, 100]`. -/
def in_long (x : Nat) : Nat := if x = 4294967295 then 255 else 0

/-- The number `(len + period - (r+1)) / period` that the loop of `reorder` adds for the
residue `r`: how many indices below `len` are congruent to `r`. -/
def class_count (len period r : Nat) : Nat := (len + period - (r + 1)) / period

/-- The offset of the residue class `r` in the output of `reorder`: the sum of the counts
of the classes before it. -/
def class_offset (len period r : Nat) : Nat :=
  ∑ k in Finset.range r, class_count len period k

/-- An acquisition of 36 samples with an edge at 1, a pause, an edge at 25 and an edge at
33, less than `R/2 = 2` samples before the last window position 34. -/
def inC (x : Nat) : Nat := if x = 1 ∨ x = 25 ∨ x = 33 then 1 else 0

/-- A correlator for one 16-bit sample, one trace and one hypothesis of value 1. -/
noncomputable def wide_state : Correlator :=
  (Correlator.init 1 1 1 blank).fill_hypo (fun _ => 1)

/-! ## `spline` with checked indices: definitions -/

/-- How a bounds-checked run of `spline` stops before its loop is done. -/
inductive SplineFault where
  /-- The scale is a division by zero: `outsize - 1 = 0`. -/
  | scale
  /-- At output index `i` the read `in[idx]` lies outside the cells of `in`. -/
  | read (i : Nat) (idx : Int)
  /-- At output index `i` the value does not fit `data_out_t`. -/
  | store (i : Nat)
  /-- The write `out[i]` lies outside the cells of `out`. -/
  | write (i : Nat)
  deriving DecidableEq

/-- The read `in[idx]` of `spline` at output index `i`, checked against the `in_len` cells
of `in`. -/
def read_checked (inp : Nat → Nat) (in_len i : Nat) (idx : Int) : Except SplineFault Nat :=
  if 0 ≤ idx ∧ idx < (in_len : Int) then Except.ok (inp idx.toNat)
  else Except.error (SplineFault.read i idx)

/-- One turn of the loop of `spline` with every index checked: `in[a]` and `in[a+1]` are
read (both operands of the sum are evaluated, whatever their weights), the sum is
converted to `data_out_t` and stored into `out[i]`.  `in` has `in_len` cells and `out` has
`out_len` cells. -/
def spline_step_checked (inp : Nat → Nat) (in_len out_len o : Nat) (outsize insize : Int)
    (m : Nat → Nat) (i : Nat) : Except SplineFault (Nat → Nat) :=
  if outsize - 1 = 0 then Except.error SplineFault.scale
  else
    let scale : ℚ := ((insize - 1 : Int) : ℚ) / ((outsize - 1 : Int) : ℚ)
    let inpos : ℚ := (i : ℚ) * scale
    let a : Int := truncq inpos
    match read_checked inp in_len i a with
    | Except.error e => Except.error e
    | Except.ok x =>
      match read_checked inp in_len i (a + 1) with
      | Except.error e => Except.error e
      | Except.ok y =>
        match toU8q ((x : ℚ) * (1 - inpos + a) + (y : ℚ) * (inpos - a)) with
        | none => Except.error (SplineFault.store i)
        | some v =>
          if i < out_len then Except.ok (Function.update m (o + i) v)
          else Except.error (SplineFault.write i)

/-- The function `spline` with bounds-checked indexing: the loop of `spline` over
`i = 0 .. outsize-1`, stopping at the first access outside the `in_len` cells of `in` or
the `out_len` cells of `out`. -/
def spline_checked (out : Nat → Nat) (o : Nat) (inp : Nat → Nat) (in_len out_len : Nat)
    (outsize insize : Int) : Except SplineFault (Nat → Nat) :=
  (List.range outsize.toNat).foldl (fun (acc : Except SplineFault (Nat → Nat)) i =>
    match acc with
    | Except.ok m => spline_step_checked inp in_len out_len o outsize insize m i
    | Except.error e => Except.error e) (Except.ok out)

/-- The fault of a bounds-checked run, `none` when it ran to its end. -/
def fault_of (r : Except SplineFault (Nat → Nat)) : Option SplineFault :=
  match r with
  | Except.ok _ => none
  | Except.error e => some e

/-- The cells `out[o .. o+n-1]` that a bounds-checked run leaves behind, `none` when it
stopped early. -/
def cells_of (r : Except SplineFault (Nat → Nat)) (o n : Nat) : Option (List Nat) :=
  match r with
  | Except.ok m => some ((List.range n).map (fun i => m (o + i)))
  | Except.error _ => none

/-- An input of two samples. -/
def in_two (x : Nat) : Nat := [10, 20].getD x 0

/-! ## Loops as closed forms -/

section Loops

variable {σ : Type}

theorem range_mul_succ (K S : Nat) :
    List.range ((K + 1) * S) = List.range (K * S) ++ (List.range S).map (fun i => K * S + i) := by
  rw [Nat.succ_mul, List.range_add]

/-- A loop nest over `j < K`, `i < S` is one loop over the flat index `x = j * S + i`. -/
theorem nested_fold (f : σ → Nat → Nat → σ) (K S : Nat) (s : σ) :
    (List.range K).foldl (fun s j => (List.range S).foldl (fun s i => f s j i) s) s
      = (List.range (K * S)).foldl (fun s x => f s (x / S) (x % S)) s := by
  induction K with
  | zero => simp
  | succ K ih =>
    rw [List.range_succ, List.foldl_append, ih, range_mul_succ, List.foldl_append,
      List.foldl_map]
    simp only [List.foldl_cons, List.foldl_nil]
    apply List.foldl_ext
    intro a i hi
    have hi' : i < S := List.mem_range.mp hi
    have hS : 0 < S := by omega
    have h1 : (K * S + i) / S = K := by
      rw [Nat.mul_comm, Nat.mul_add_div hS, Nat.div_eq_of_lt hi']; simp
    have h2 : (K * S + i) % S = i := by
      rw [Nat.mul_comm, Nat.mul_add_mod, Nat.mod_eq_of_lt hi']
    rw [h1, h2]

/-- A loop that adds `v x` to cell `x` for each `x < N`. -/
theorem fold_update_add (v : Nat → ℚ) (N : Nat) (f : Nat → ℚ) :
    (List.range N).foldl (fun f x => Function.update f x (f x + v x)) f
      = fun y => if y < N then f y + v y else f y := by
  induction N with
  | zero => simp
  | succ N ih =>
    rw [List.range_succ, List.foldl_append, ih]
    funext y
    simp only [List.foldl_cons, List.foldl_nil, Function.update_apply]
    by_cases h : y = N
    · subst h; simp
    · simp only [h, if_false]
      by_cases h2 : y < N
      · have : y < N + 1 := by omega
        simp [h2, this]
      · have : ¬ y < N + 1 := by omega
        simp [h2, this]

/-- A loop that stores `g x` into cell `x` for each `x < N`. -/
theorem fold_update_set {β : Type} (g : Nat → β) (N : Nat) (f : Nat → β) :
    (List.range N).foldl (fun f x => Function.update f x (g x)) f
      = fun y => if y < N then g y else f y := by
  induction N with
  | zero => simp
  | succ N ih =>
    rw [List.range_succ, List.foldl_append, ih]
    funext y
    simp only [List.foldl_cons, List.foldl_nil, Function.update_apply]
    by_cases h : y = N
    · subst h; simp
    · simp only [h, if_false]
      by_cases h2 : y < N
      · have : y < N + 1 := by omega
        simp [h2, this]
      · have : ¬ y < N + 1 := by omega
        simp [h2, this]

/-- A loop over a pair whose two components evolve independently. -/
theorem fold_pair {α β ι : Type} (f : α → ι → α) (g : β → ι → β) (l : List ι) (a : α) (b : β) :
    l.foldl (fun (p : α × β) i => (f p.1 i, g p.2 i)) (a, b) = (l.foldl f a, l.foldl g b) := by
  induction l generalizing a b with
  | nil => rfl
  | cons x l ih => simp only [List.foldl_cons, ih]

end Loops

/-! ## Binary floating point: rounding -/

theorem ilog2_spec (fuel n : Nat) (h1 : 1 ≤ n) (hf : n ≤ fuel) :
    2 ^ ilog2 fuel n ≤ n ∧ n < 2 ^ (ilog2 fuel n + 1) := by
  induction fuel generalizing n with
  | zero => omega
  | succ f ih =>
    unfold ilog2
    by_cases h2 : n < 2
    · rw [if_pos h2]
      constructor
      · simpa using h1
      · simpa using h2
    · rw [if_neg h2]
      obtain ⟨a, b⟩ := ih (n / 2) (by omega) (by omega)
      constructor
      · rw [pow_succ]
        omega
      · rw [pow_succ]
        omega

/-- The exponent of a non-zero rational is the exponent of its binade. -/
theorem exponent_spec {x : ℚ} (hx : x ≠ 0) :
    (2 : ℚ) ^ exponent x ≤ |x| ∧ |x| < (2 : ℚ) ^ (exponent x + 1) := by
  have hn : 1 ≤ x.num.natAbs := by
    have : x.num ≠ 0 := Rat.num_ne_zero.mpr hx
    omega
  have hd : 1 ≤ x.den := x.den_pos
  obtain ⟨a1, a2⟩ := ilog2_spec x.num.natAbs x.num.natAbs hn le_rfl
  obtain ⟨b1, b2⟩ := ilog2_spec x.den x.den hd le_rfl
  have habs : |x| = (x.num.natAbs : ℚ) / (x.den : ℚ) := by
    have h1 : |x| = |(x.num : ℚ)| / |(x.den : ℚ)| := by
      conv_lhs => rw [← Rat.num_div_den x]
      rw [abs_div]
    rw [h1, Nat.abs_cast, Nat.cast_natAbs, Int.cast_abs]
  have hdq : (0 : ℚ) < (x.den : ℚ) := by exact_mod_cast hd
  have a1q : (2 : ℚ) ^ (ilog2 x.num.natAbs x.num.natAbs) ≤ (x.num.natAbs : ℚ) := by
    exact_mod_cast a1
  have a2q : (x.num.natAbs : ℚ) < (2 : ℚ) ^ (ilog2 x.num.natAbs x.num.natAbs + 1) := by
    exact_mod_cast a2
  have b1q : (2 : ℚ) ^ (ilog2 x.den x.den) ≤ (x.den : ℚ) := by exact_mod_cast b1
  have b2q : (x.den : ℚ) < (2 : ℚ) ^ (ilog2 x.den x.den + 1) := by exact_mod_cast b2
  unfold exponent
  generalize ilog2 x.num.natAbs x.num.natAbs = a at *
  generalize ilog2 x.den x.den = b at *
  have h2 : (0 : ℚ) < 2 := by norm_num
  have e1 : (2 : ℚ) ^ ((a : Int) - (b : Int) + 1) = (2 : ℚ) ^ (a + 1) / (2 : ℚ) ^ b := by
    rw [show (a : Int) - (b : Int) + 1 = ((a + 1 : Nat) : Int) - (b : Int) by push_cast; ring,
      zpow_sub₀ h2.ne', zpow_natCast, zpow_natCast]
  have e2 : (2 : ℚ) ^ ((a : Int) - (b : Int) - 1) = (2 : ℚ) ^ a / (2 : ℚ) ^ (b + 1) := by
    rw [show (a : Int) - (b : Int) - 1 = (a : Int) - ((b + 1 : Nat) : Int) by push_cast; ring,
      zpow_sub₀ h2.ne', zpow_natCast, zpow_natCast]
  have hb0 : (0 : ℚ) < (2 : ℚ) ^ b := by positivity
  have hb1 : (0 : ℚ) < (2 : ℚ) ^ (b + 1) := by positivity
  split_ifs with hc
  · refine ⟨hc, ?_⟩
    rw [e1, habs, div_lt_div_iff₀ hdq hb0]
    calc (x.num.natAbs : ℚ) * 2 ^ b < 2 ^ (a + 1) * 2 ^ b := by
          exact mul_lt_mul_of_pos_right a2q hb0
      _ ≤ 2 ^ (a + 1) * (x.den : ℚ) := by
          exact mul_le_mul_of_nonneg_left b1q (by positivity)
  · constructor
    · rw [e2, habs, div_le_div_iff₀ hb1 hdq]
      calc (2 : ℚ) ^ a * (x.den : ℚ) ≤ 2 ^ a * 2 ^ (b + 1) := by
            exact mul_le_mul_of_nonneg_left b2q.le (by positivity)
        _ ≤ (x.num.natAbs : ℚ) * 2 ^ (b + 1) := by
            exact mul_le_mul_of_nonneg_right a1q (by positivity)
    · rw [sub_add_cancel]
      exact not_le.mp hc

theorem exponent_neg (x : ℚ) : exponent (-x) = exponent x := by
  unfold exponent
  rw [Rat.num_neg_eq_neg_num, Rat.den_neg_eq_den, Int.natAbs_neg, abs_neg]

theorem round_even_le {m : ℚ} {k : Int} (h : m ≤ (k : ℚ)) : round_even m ≤ k := by
  unfold round_even
  have hf : ⌊m⌋ ≤ k := Int.floor_le_iff.mpr (by linarith)
  rcases h.lt_or_eq with hlt | heq
  · have : ⌊m⌋ < k := Int.floor_lt.mpr hlt
    split_ifs <;> omega
  · subst heq
    rw [Int.floor_intCast]
    simp

theorem le_round_even {m : ℚ} {k : Int} (h : (k : ℚ) ≤ m) : k ≤ round_even m := by
  unfold round_even
  have hf : k ≤ ⌊m⌋ := Int.le_floor.mpr h
  split_ifs <;> omega

theorem round_even_intCast (k : Int) : round_even (k : ℚ) = k :=
  le_antisymm (round_even_le le_rfl) (le_round_even le_rfl)

/-- The distance of a number to its rounded value is at most one half. -/
theorem abs_round_even_sub (m : ℚ) : |(round_even m : ℚ) - m| ≤ 1 / 2 := by
  have h1 := Int.floor_le m
  have h2 := Int.lt_floor_add_one m
  unfold round_even
  split_ifs with a b c
  · rw [abs_le]; constructor <;> linarith
  · rw [abs_le]; push_cast; constructor <;> linarith
  · rw [abs_le]; constructor <;> linarith
  · rw [abs_le]; push_cast; constructor <;> linarith

theorem fl_zero (p : Nat) : fl p 0 = 0 := by
  unfold fl
  rw [if_pos rfl]

/-- An integer of at most `p` bits is a barrier for rounding from below. -/
theorem fl_le_of_le_int (p : Nat) (hp : 1 ≤ p) {x : ℚ} {d : Int} (hd : |d| ≤ 2 ^ p)
    (h : x ≤ (d : ℚ)) : fl p x ≤ (d : ℚ) := by
  by_cases hx : x = 0
  · rw [hx, fl_zero]
    rw [hx] at h
    exact h
  obtain ⟨e1, e2⟩ := exponent_spec hx
  unfold fl
  rw [if_neg hx]
  generalize exponent x = e at e1 e2 ⊢
  have h2 : (0 : ℚ) < 2 := by norm_num
  have hq : (0 : ℚ) < (2 : ℚ) ^ (e - ((p : Int) - 1)) := zpow_pos h2 _
  have hdq : |(d : ℚ)| ≤ (2 : ℚ) ^ p := by
    have : ((|d| : Int) : ℚ) ≤ ((2 ^ p : Int) : ℚ) := by exact_mod_cast hd
    simpa using this
  -- an integer `K` with `x / q ≤ K` and `K * q ≤ d`
  suffices hK : ∃ K : Int, x / (2 : ℚ) ^ (e - ((p : Int) - 1)) ≤ (K : ℚ)
      ∧ (K : ℚ) * (2 : ℚ) ^ (e - ((p : Int) - 1)) ≤ (d : ℚ) by
    obtain ⟨K, k1, k2⟩ := hK
    have : ((round_even (x / (2 : ℚ) ^ (e - ((p : Int) - 1))) : Int) : ℚ) ≤ (K : ℚ) := by
      exact_mod_cast round_even_le k1
    exact (mul_le_mul_of_nonneg_right this hq.le).trans k2
  by_cases he : e ≤ (p : Int) - 1
  · -- the unit is `2^(-k)`: `d` is a multiple of it
    obtain ⟨k, hk⟩ := Int.eq_ofNat_of_zero_le (show 0 ≤ (p : Int) - 1 - e by omega)
    have hqk : (2 : ℚ) ^ (e - ((p : Int) - 1)) = ((2 : ℚ) ^ k)⁻¹ := by
      rw [show e - ((p : Int) - 1) = -(k : Int) by omega, zpow_neg, zpow_natCast]
    refine ⟨d * 2 ^ k, ?_, ?_⟩
    · rw [hqk, div_inv_eq_mul]
      push_cast
      exact mul_le_mul_of_nonneg_right h (by positivity)
    · rw [hqk]
      push_cast
      rw [mul_assoc, mul_inv_cancel₀ (by positivity), mul_one]
  · -- `|x| ≥ 2^p ≥ |d|`
    have he' : (p : Int) ≤ e := by omega
    have hpe : (2 : ℚ) ^ p ≤ (2 : ℚ) ^ e := by
      rw [← zpow_natCast]
      exact zpow_le_zpow_right₀ (by norm_num) he'
    have hsplit : (2 : ℚ) ^ e
        = (2 : ℚ) ^ ((p : Int) - 1) * (2 : ℚ) ^ (e - ((p : Int) - 1)) := by
      rw [← zpow_add₀ h2.ne']
      congr 1
      ring
    obtain ⟨p1, hp1⟩ := Int.eq_ofNat_of_zero_le (show 0 ≤ (p : Int) - 1 by omega)
    have hK0 : (2 : ℚ) ^ ((p : Int) - 1) = (((2 : Int) ^ p1 : Int) : ℚ) := by
      rw [hp1, zpow_natCast]
      push_cast
      rfl
    rcases lt_or_gt_of_ne hx with hneg | hpos
    · refine ⟨-(2 ^ p1), ?_, ?_⟩
      · rw [div_le_iff₀ hq]
        push_cast
        rw [abs_of_neg hneg] at e1
        have : -(((2 : Int) ^ p1 : Int) : ℚ) * (2 : ℚ) ^ (e - ((p : Int) - 1)) = -(2 : ℚ) ^ e := by
          rw [hsplit, hK0]; ring
        push_cast at this
        rw [this]
        linarith
      · have : ((-(2 ^ p1) : Int) : ℚ) * (2 : ℚ) ^ (e - ((p : Int) - 1)) = -(2 : ℚ) ^ e := by
          rw [hsplit, hK0]; push_cast; ring
        rw [this]
        have := (abs_le.mp hdq).1
        linarith
    · refine ⟨2 ^ p1, ?_, ?_⟩
      · rw [div_le_iff₀ hq]
        have : (((2 : Int) ^ p1 : Int) : ℚ) * (2 : ℚ) ^ (e - ((p : Int) - 1)) = (2 : ℚ) ^ e := by
          rw [hsplit, hK0]
        rw [this]
        rw [abs_of_pos hpos] at e1
        have := (abs_le.mp hdq).2
        linarith
      · have : (((2 : Int) ^ p1 : Int) : ℚ) * (2 : ℚ) ^ (e - ((p : Int) - 1)) = (2 : ℚ) ^ e := by
          rw [hsplit, hK0]
        rw [this]
        rw [abs_of_pos hpos] at e1
        have := (abs_le.mp hdq).2
        linarith

theorem round_even_neg (m : ℚ) : round_even (-m) = -round_even m := by
  by_cases hint : (⌊m⌋ : ℚ) = m
  · rw [← hint, ← Int.cast_neg, round_even_intCast, round_even_intCast]
  · have h1 : (⌊m⌋ : ℚ) < m := lt_of_le_of_ne (Int.floor_le m) hint
    have h2 := Int.lt_floor_add_one m
    have hfl : ⌊-m⌋ = -⌊m⌋ - 1 := by
      rw [Int.floor_eq_iff]
      push_cast
      constructor <;> linarith
    unfold round_even
    rw [hfl]
    push_cast
    by_cases c1 : m - ⌊m⌋ < 1 / 2
    · have c2 : ¬ (-m - (-(⌊m⌋ : ℚ) - 1) < 1 / 2) := by linarith
      have c3 : 1 / 2 < -m - (-(⌊m⌋ : ℚ) - 1) := by linarith
      rw [if_pos c1, if_neg c2, if_pos c3]
      ring
    · by_cases c4 : 1 / 2 < m - ⌊m⌋
      · have c5 : -m - (-(⌊m⌋ : ℚ) - 1) < 1 / 2 := by linarith
        rw [if_neg c1, if_pos c4, if_pos c5]
        ring
      · have c6 : ¬ (-m - (-(⌊m⌋ : ℚ) - 1) < 1 / 2) := by linarith
        have c7 : ¬ (1 / 2 < -m - (-(⌊m⌋ : ℚ) - 1)) := by linarith
        rw [if_neg c1, if_neg c4, if_neg c6, if_neg c7]
        by_cases c8 : ⌊m⌋ % 2 = 0
        · have c9 : ¬ ((-⌊m⌋ - 1) % 2 = 0) := by omega
          rw [if_pos c8, if_neg c9]
          ring
        · have c9 : (-⌊m⌋ - 1) % 2 = 0 := by omega
          rw [if_neg c8, if_pos c9]
          ring

/-- Rounding is odd. -/
theorem fl_neg (p : Nat) (x : ℚ) : fl p (-x) = -fl p x := by
  unfold fl
  by_cases hx : x = 0
  · simp [hx]
  · have hx' : -x ≠ 0 := neg_ne_zero.mpr hx
    rw [if_neg hx, if_neg hx', exponent_neg, neg_div, round_even_neg]
    push_cast
    ring

/-- An integer of at most `p` bits is a barrier for rounding from above. -/
theorem le_fl_of_int_le (p : Nat) (hp : 1 ≤ p) {x : ℚ} {d : Int} (hd : |d| ≤ 2 ^ p)
    (h : (d : ℚ) ≤ x) : (d : ℚ) ≤ fl p x := by
  have h1 : fl p (-x) ≤ ((-d : Int) : ℚ) :=
    fl_le_of_le_int p hp (by rwa [abs_neg]) (by push_cast; linarith)
  rw [fl_neg] at h1
  push_cast at h1
  linarith

/-- An integer of at most `p` bits is a floating-point number of `p` significant bits. -/
theorem fl_intCast (p : Nat) (hp : 1 ≤ p) {d : Int} (hd : |d| ≤ 2 ^ p) : fl p (d : ℚ) = d :=
  le_antisymm (fl_le_of_le_int p hp hd le_rfl) (le_fl_of_int_le p hp hd le_rfl)

theorem fl_natCast (p : Nat) (hp : 1 ≤ p) {n : Nat} (hn : n ≤ 2 ^ p) : fl p (n : ℚ) = n := by
  have := fl_intCast p hp (d := (n : Int)) (by
    rw [abs_of_nonneg (Int.ofNat_nonneg n)]
    exact_mod_cast hn)
  simpa using this

theorem fl_nonneg (p : Nat) (hp : 1 ≤ p) {x : ℚ} (h : 0 ≤ x) : 0 ≤ fl p x := by
  have := le_fl_of_int_le p hp (d := 0) (x := x) (by simp) (by simpa using h)
  simpa using this

theorem dbl_intCast {d : Int} (hd : |d| ≤ 2 ^ 53) : dbl (d : ℚ) = d := fl_intCast 53 (by decide) hd

theorem dbl_natCast {n : Nat} (hn : n ≤ 2 ^ 53) : dbl (n : ℚ) = n := fl_natCast 53 (by decide) hn

theorem dbl_le_of_le_int {x : ℚ} {d : Int} (hd : |d| ≤ 2 ^ 53) (h : x ≤ (d : ℚ)) :
    dbl x ≤ (d : ℚ) := fl_le_of_le_int 53 (by decide) hd h

theorem le_dbl_of_int_le {x : ℚ} {d : Int} (hd : |d| ≤ 2 ^ 53) (h : (d : ℚ) ≤ x) :
    (d : ℚ) ≤ dbl x := le_fl_of_int_le 53 (by decide) hd h

theorem flt_intCast {d : Int} (hd : |d| ≤ 2 ^ 24) : flt (d : ℚ) = d := fl_intCast 24 (by decide) hd

/-- The constants `1.1` and `0.9` of the source as doubles. -/
theorem dbl_literals :
    dbl (11 / 10) = 4953959590107546 / 4503599627370496
      ∧ dbl (9 / 10) = 8106479329266893 / 9007199254740992 := by
  constructor <;> decide!

theorem flt_neg (x : ℚ) : flt (-x) = -flt x := fl_neg 24 x

theorem dbl_neg (x : ℚ) : dbl (-x) = -dbl x := fl_neg 53 x

theorem flt_zero : flt 0 = 0 := fl_zero 24

theorem dbl_zero : dbl 0 = 0 := fl_zero 53

theorem flt_nonneg {x : ℚ} (h : 0 ≤ x) : 0 ≤ flt x := fl_nonneg 24 (by decide) h

theorem dbl_nonneg {x : ℚ} (h : 0 ≤ x) : 0 ≤ dbl x := fl_nonneg 53 (by decide) h

theorem le_flt_of_int_le {x : ℚ} {d : Int} (hd : |d| ≤ 2 ^ 24) (h : (d : ℚ) ≤ x) :
    (d : ℚ) ≤ flt x := le_fl_of_int_le 24 (by decide) hd h

/-- The relative error of a rounding to `p` bits is at most `2^-p`. -/
theorem fl_abs_sub_le (p : Nat) (x : ℚ) : |fl p x - x| ≤ |x| / 2 ^ p := by
  by_cases hx : x = 0
  · rw [hx, fl_zero]
    simp
  obtain ⟨e1, -⟩ := exponent_spec hx
  unfold fl
  rw [if_neg hx]
  generalize exponent x = e at e1 ⊢
  have h2 : (2 : ℚ) ≠ 0 := by norm_num
  have hs : (2 : ℚ) ^ (e - ((p : Int) - 1)) = (2 : ℚ) ^ e * 2 / 2 ^ p := by
    rw [show e - ((p : Int) - 1) = e + 1 - (p : Int) by ring, zpow_sub₀ h2, zpow_add_one₀ h2,
      zpow_natCast]
  have hpos : (0 : ℚ) < (2 : ℚ) ^ (e - ((p : Int) - 1)) := zpow_pos (by norm_num) _
  generalize (2 : ℚ) ^ (e - ((p : Int) - 1)) = s at hs hpos
  have hr := abs_round_even_sub (x / s)
  have e3 : (round_even (x / s) : ℚ) * s - x = ((round_even (x / s) : ℚ) - x / s) * s := by
    field_simp
  rw [e3, abs_mul, abs_of_pos hpos]
  have hp : (0 : ℚ) < (2 : ℚ) ^ p := by positivity
  calc |(round_even (x / s) : ℚ) - x / s| * s ≤ 1 / 2 * s :=
        mul_le_mul_of_nonneg_right hr hpos.le
    _ = (2 : ℚ) ^ e / 2 ^ p := by rw [hs]; ring
    _ ≤ |x| / 2 ^ p := div_le_div_of_nonneg_right e1 hp.le

theorem dbl_le_mul {x : ℚ} (hx : 0 ≤ x) : dbl x ≤ x * (10001 / 10000) := by
  have h := fl_abs_sub_le 53 x
  rw [abs_of_nonneg hx] at h
  have h1 := (abs_le.mp h).2
  have h2 : x / 2 ^ 53 ≤ x * (1 / 10000) := by
    rw [div_eq_mul_one_div]
    exact mul_le_mul_of_nonneg_left (by norm_num) hx
  unfold dbl
  linarith

theorem mul_le_dbl {x : ℚ} (hx : 0 ≤ x) : x * (9999 / 10000) ≤ dbl x := by
  have h := fl_abs_sub_le 53 x
  rw [abs_of_nonneg hx] at h
  have h1 := (abs_le.mp h).1
  have h2 : x / 2 ^ 53 ≤ x * (1 / 10000) := by
    rw [div_eq_mul_one_div]
    exact mul_le_mul_of_nonneg_left (by norm_num) hx
  unfold dbl
  linarith

/-! ## `add_trace` -/

theorem wrapInt32_eq {x : Int} (h0 : 0 ≤ x) (h1 : x < 2 ^ 31) : wrapInt32 x = x := by
  unfold wrapInt32
  omega

section AddTrace

variable {α : Type} (ops : SampleOps α)

theorem add_trace_mult_sum (c : Correlator) (t : Nat) (d : Nat → α) :
    (add_trace ops c t d).mult_sum
      = fun x => if x < c.keys * c.samples then c.mult_sum x + mult_term ops c t d x
          else c.mult_sum x := by
  show (List.range c.keys).foldl (fun ms j =>
      (List.range c.samples).foldl (fun ms i =>
        Function.update ms (j * c.samples + i)
          (ms (j * c.samples + i) + ops.keyMul (c.hypo (j * c.traces + t)) (d i))) ms)
      c.mult_sum = _
  rw [nested_fold (fun (ms : Nat → ℚ) j i => Function.update ms (j * c.samples + i)
          (ms (j * c.samples + i) + ops.keyMul (c.hypo (j * c.traces + t)) (d i)))]
  simp only [Nat.div_add_mod']
  exact fold_update_add (mult_term ops c t d) _ _

theorem add_trace_sum (c : Correlator) (t : Nat) (d : Nat → α) :
    (add_trace ops c t d).sum
      = fun i => if i < c.samples then c.sum i + ops.toAcc (d i) else c.sum i := by
  show ((List.range c.samples).foldl (fun (sq : (Nat → ℚ) × (Nat → ℚ)) i =>
    (Function.update sq.1 i (sq.1 i + ops.toAcc (d i)),
     Function.update sq.2 i (sq.2 i + ops.square (d i)))) (c.sum, c.square_sum)).1 = _
  rw [fold_pair (fun f i => Function.update f i (f i + ops.toAcc (d i)))
    (fun f i => Function.update f i (f i + ops.square (d i)))]
  exact fold_update_add (fun i => ops.toAcc (d i)) _ _

theorem add_trace_square_sum (c : Correlator) (t : Nat) (d : Nat → α) :
    (add_trace ops c t d).square_sum
      = fun i => if i < c.samples then c.square_sum i + ops.square (d i)
          else c.square_sum i := by
  show ((List.range c.samples).foldl (fun (sq : (Nat → ℚ) × (Nat → ℚ)) i =>
    (Function.update sq.1 i (sq.1 i + ops.toAcc (d i)),
     Function.update sq.2 i (sq.2 i + ops.square (d i)))) (c.sum, c.square_sum)).2 = _
  rw [fold_pair (fun f i => Function.update f i (f i + ops.toAcc (d i)))
    (fun f i => Function.update f i (f i + ops.square (d i)))]
  exact fold_update_add (fun i => ops.square (d i)) _ _

/-- The whole effect of one `add_trace`. -/
theorem add_trace_eq (c : Correlator) (t : Nat) (d : Nat → α) :
    add_trace ops c t d =
      { c with
        mult_sum := fun x => if x < c.keys * c.samples
          then c.mult_sum x + mult_term ops c t d x else c.mult_sum x
        sum := fun i => if i < c.samples then c.sum i + ops.toAcc (d i) else c.sum i
        square_sum := fun i => if i < c.samples then c.square_sum i + ops.square (d i)
          else c.square_sum i
        count := c.count + 1 } := by
  have h1 := add_trace_mult_sum ops c t d
  have h2 := add_trace_sum ops c t d
  have h3 := add_trace_square_sum ops c t d
  cases c
  simp only [add_trace] at h1 h2 h3 ⊢
  simp only [Correlator.mk.injEq, true_and, and_true]
  exact ⟨h2, h3, h1⟩

/-- Two calls of `add_trace` commute. -/
theorem add_trace_comm (c : Correlator) (a b : Nat × (Nat → α)) :
    add_trace ops (add_trace ops c a.1 a.2) b.1 b.2
      = add_trace ops (add_trace ops c b.1 b.2) a.1 a.2 := by
  rw [add_trace_eq ops (add_trace ops c a.1 a.2), add_trace_eq ops (add_trace ops c b.1 b.2),
    add_trace_eq ops c a.1 a.2, add_trace_eq ops c b.1 b.2]
  simp only [Correlator.mk.injEq, true_and, and_true, mult_term]
  refine ⟨?_, ?_, ?_⟩
  · funext i; split_ifs <;> ring
  · funext i; split_ifs <;> ring
  · funext i; split_ifs <;> ring

/-- Ingestion does not depend on the order of the traces, from any state. -/
theorem ingest_perm (c : Correlator) {l₁ l₂ : List (Nat × (Nat → α))} (h : l₁.Perm l₂) :
    ingest ops c l₁ = ingest ops c l₂ :=
  List.Perm.foldl_eq' h (fun x _ y _ z => add_trace_comm ops z x y) c

end AddTrace

/-! ## Arithmetic of `Dbl` on finite values -/

namespace Dbl

theorem sub_fin (x y : ℝ) : sub (fin x) (fin y) = fin (x - y) := by
  simp [sub, neg, add, sub_eq_add_neg]

theorem mul_fin (x y : ℝ) : mul (fin x) (fin y) = fin (x * y) := rfl

theorem div_fin (x : ℝ) {y : ℝ} (h : y ≠ 0) : div (fin x) (fin y) = fin (x / y) := by
  simp [div, h]

theorem div_zero_zero : div (fin 0) (fin 0) = nan := by
  simp [div]

theorem sqrt_fin {x : ℝ} (h : 0 ≤ x) : sqrt (fin x) = fin (Real.sqrt x) := by
  simp [sqrt, not_lt.mpr h]

end Dbl

/-! ## `preprocess` -/

theorem fold_int_sum (f : Nat → Int) (n : Nat) (a : Int) :
    (List.range n).foldl (fun s i => s + f i) a = a + ∑ i in Finset.range n, f i := by
  induction n with
  | zero => simp
  | succ n ih =>
    rw [List.range_succ, List.foldl_append, ih, Finset.sum_range_succ]
    simp only [List.foldl_cons, List.foldl_nil]
    ring

theorem row_sums_eq (c : Correlator) (j : Nat) :
    row_sums c j
      = (∑ i in Finset.range c.traces, (c.hypo (j * c.traces + i) : Int),
         ∑ i in Finset.range c.traces,
           wrapInt32 ((c.hypo (j * c.traces + i) : Int) * (c.hypo (j * c.traces + i) : Int))) := by
  unfold row_sums
  rw [fold_pair (fun (s : Int) i => s + (c.hypo (j * c.traces + i) : Int))
    (fun (s : Int) i => s + wrapInt32
      ((c.hypo (j * c.traces + i) : Int) * (c.hypo (j * c.traces + i) : Int)))]
  rw [fold_int_sum, fold_int_sum]
  simp

theorem preprocess_eq (c : Correlator) :
    preprocess c =
      { c with
        key_avg := fun j => if j < c.keys then avg_value c j else c.key_avg j
        key_stddev := fun j => if j < c.keys then stddev_value c j else c.key_stddev j } := by
  have h : (List.range c.keys).foldl (fun (as : (Nat → Dbl) × (Nat → Dbl)) j =>
      (Function.update as.1 j (avg_value c j), Function.update as.2 j (stddev_value c j)))
      (c.key_avg, c.key_stddev)
      = (fun j => if j < c.keys then avg_value c j else c.key_avg j,
         fun j => if j < c.keys then stddev_value c j else c.key_stddev j) := by
    rw [fold_pair (fun (f : Nat → Dbl) j => Function.update f j (avg_value c j))
      (fun (f : Nat → Dbl) j => Function.update f j (stddev_value c j)),
      fold_update_set, fold_update_set]
  unfold preprocess
  simp only [Function.update_same]
  simp only [avg_value, stddev_value] at h
  rw [h]
  rfl

/-! ## Moments -/

section Moments

variable (T : Nat) (x y : Nat → ℝ)

theorem sum_centered_mul :
    ∑ t in Finset.range T, (x t - mean T x) * (y t - mean T y)
      = ∑ t in Finset.range T, x t * y t
        - (∑ t in Finset.range T, x t) * mean T y
        - mean T x * (∑ t in Finset.range T, y t)
        + T * (mean T x * mean T y) := by
  have h : ∀ t, (x t - mean T x) * (y t - mean T y)
      = x t * y t - x t * mean T y - mean T x * y t + mean T x * mean T y := by
    intro t; ring
  simp only [h, Finset.sum_add_distrib, Finset.sum_sub_distrib, Finset.sum_const,
    Finset.card_range, ← Finset.sum_mul, ← Finset.mul_sum, nsmul_eq_mul]

theorem sum_eq_mul_mean (hT : 0 < T) : ∑ t in Finset.range T, x t = T * mean T x := by
  have : (T : ℝ) ≠ 0 := by positivity
  unfold mean
  field_simp

/-- The covariance in the one-pass form of `update_matrix`. -/
theorem covariance_eq (hT : 0 < T) :
    covariance T x y
      = (∑ t in Finset.range T, x t * y t - (∑ t in Finset.range T, x t) * mean T y) / T := by
  unfold covariance
  rw [sum_centered_mul, sum_eq_mul_mean T y hT]
  ring

/-- The variance in the one-pass form of `update_matrix` and `preprocess`. -/
theorem variance_eq (hT : 0 < T) :
    variance T x = (∑ t in Finset.range T, x t * x t) / T - mean T x * mean T x := by
  have hT' : (T : ℝ) ≠ 0 := by positivity
  have h : ∀ t, (x t - mean T x) ^ 2 = (x t - mean T x) * (x t - mean T x) := by
    intro t; ring
  unfold variance
  simp only [h]
  rw [sum_centered_mul, sum_eq_mul_mean T x hT]
  field_simp
  ring

theorem variance_nonneg : 0 ≤ variance T x := by
  unfold variance
  apply div_nonneg
  · exact Finset.sum_nonneg (fun t _ => sq_nonneg _)
  · positivity

theorem variance_eq_covariance : variance T x = covariance T x x := by
  unfold variance covariance
  congr 1
  apply Finset.sum_congr rfl
  intro t _
  ring

/-- A sequence with two different entries has a positive variance. -/
theorem variance_pos_of_ne {a b : Nat} (ha : a < T) (hb : b < T) (hab : x a ≠ x b) :
    0 < variance T x := by
  have hT : 0 < T := by omega
  rcases (variance_nonneg T x).lt_or_eq with h | h
  · exact h
  · exfalso
    have hT' : (T : ℝ) ≠ 0 := by positivity
    have hs : ∑ t in Finset.range T, (x t - mean T x) ^ 2 = 0 := by
      have := h.symm
      unfold variance at this
      rcases div_eq_zero_iff.mp this with h1 | h1
      · exact h1
      · exact absurd h1 hT'
    have hz := (Finset.sum_eq_zero_iff_of_nonneg (fun t _ => sq_nonneg (x t - mean T x))).mp hs
    have h1 := hz a (Finset.mem_range.mpr ha)
    have h2 := hz b (Finset.mem_range.mpr hb)
    have e1 : x a = mean T x := by
      have := pow_eq_zero_iff (two_ne_zero) |>.mp h1
      linarith
    have e2 : x b = mean T x := by
      have := pow_eq_zero_iff (two_ne_zero) |>.mp h2
      linarith
    exact hab (e1.trans e2.symm)

/-- Moments of an affine image `α x + β`. -/
theorem mean_affine (hT : 0 < T) (α β : ℝ) :
    mean T (fun t => α * x t + β) = α * mean T x + β := by
  have hT' : (T : ℝ) ≠ 0 := by positivity
  unfold mean
  simp only [Finset.sum_add_distrib, Finset.sum_const, Finset.card_range, ← Finset.mul_sum,
    nsmul_eq_mul]
  field_simp
  ring

theorem covariance_affine (hT : 0 < T) (α β : ℝ) :
    covariance T x (fun t => α * x t + β) = α * variance T x := by
  rw [variance_eq_covariance]
  unfold covariance
  rw [mean_affine T x hT, ← mul_div_assoc, Finset.mul_sum]
  congr 1
  apply Finset.sum_congr rfl
  intro t _
  ring

theorem variance_affine (hT : 0 < T) (α β : ℝ) :
    variance T (fun t => α * x t + β) = α ^ 2 * variance T x := by
  unfold variance
  rw [mean_affine T x hT, ← mul_div_assoc, Finset.mul_sum]
  congr 1
  apply Finset.sum_congr rfl
  intro t _
  ring

theorem covariance_comm : covariance T x y = covariance T y x := by
  unfold covariance
  congr 1
  apply Finset.sum_congr rfl
  intro t _
  ring

end Moments

/-! ## Ingestion of a list of traces -/

section Ingest

variable {α : Type} (ops : SampleOps α)

theorem ingest_eq (c : Correlator) (l : List (Nat × (Nat → α))) :
    ingest ops c l =
      { c with
        mult_sum := fun x => if x < c.keys * c.samples
          then c.mult_sum x + (l.map (fun td => mult_term ops c td.1 td.2 x)).sum
          else c.mult_sum x
        sum := fun i => if i < c.samples
          then c.sum i + (l.map (fun td => ops.toAcc (td.2 i))).sum else c.sum i
        square_sum := fun i => if i < c.samples
          then c.square_sum i + (l.map (fun td => ops.square (td.2 i))).sum
          else c.square_sum i
        count := c.count + l.length } := by
  induction l generalizing c with
  | nil =>
    cases c
    simp [ingest]
  | cons a l ih =>
    have h : ingest ops c (a :: l) = ingest ops (add_trace ops c a.1 a.2) l := rfl
    rw [h, ih, add_trace_eq]
    simp only [Correlator.mk.injEq, true_and, and_true, mult_term, List.map_cons,
      List.sum_cons, List.length_cons]
    refine ⟨by omega, ?_, ?_, ?_⟩
    · funext i; split_ifs <;> ring
    · funext i; split_ifs <;> ring
    · funext i; split_ifs <;> ring

theorem list_range_map_sum {β : Type} [AddCommMonoid β] (f : Nat → β) (n : Nat) :
    ((List.range n).map f).sum = ∑ t in Finset.range n, f t := by
  induction n with
  | zero => simp
  | succ n ih =>
    rw [List.range_succ, List.map_append, List.sum_append, ih, Finset.sum_range_succ]
    simp

/-- The sum over the traces, ingested once each in any order. -/
theorem perm_range_map_sum {β : Type} [AddCommMonoid β] (g : Nat → β) {order : List Nat}
    {T : Nat} (h : order.Perm (List.range T)) (d : Nat → Nat → α)
    (f : Nat × (Nat → α) → β) (hf : ∀ t, f (t, d t) = g t) :
    ((order.map (fun t => (t, d t))).map f).sum = ∑ t in Finset.range T, g t := by
  rw [List.map_map]
  have : (f ∘ fun t => (t, d t)) = g := by
    funext t
    exact hf t
  rw [this, (h.map g).sum_eq, list_range_map_sum]

end Ingest

/-! ## `update_matrix` -/

theorem fold_triple {α β γ ι : Type} (f : α → ι → α) (g : β → ι → β) (h : γ → ι → γ)
    (l : List ι) (a : α) (b : β) (c : γ) :
    l.foldl (fun (p : α × β × γ) i => (f p.1 i, g p.2.1 i, h p.2.2 i)) (a, b, c)
      = (l.foldl f a, l.foldl g b, l.foldl h c) := by
  induction l generalizing a b c with
  | nil => rfl
  | cons x l ih => simp only [List.foldl_cons, ih]

theorem matrix_pass_eq (c : Correlator) :
    matrix_pass c
      = (fun x => if x < c.keys * c.samples then flat_cur c x else c.matrix x,
         min_pass c, max_pass c) := by
  unfold matrix_pass
  rw [nested_fold (fun (st : (Nat → Dbl) × Dbl × Dbl) j i =>
      (Function.update st.1 (j * c.samples + i) (cur_value c j i),
       if Dbl.lt (cur_value c j i) st.2.1 then cur_value c j i else st.2.1,
       if Dbl.lt st.2.2 (cur_value c j i) then cur_value c j i else st.2.2))]
  simp only [Nat.div_add_mod']
  have h := fold_triple (fun (f : Nat → Dbl) x => Function.update f x (flat_cur c x))
    (fun m x => if Dbl.lt (flat_cur c x) m then flat_cur c x else m)
    (fun m x => if Dbl.lt m (flat_cur c x) then flat_cur c x else m)
    (List.range (c.keys * c.samples)) c.matrix (Dbl.fin (-1)) (Dbl.fin 1)
  rw [fold_update_set] at h
  simp only [flat_cur, min_pass, max_pass] at h ⊢
  exact h

theorem update_matrix_eq (c : Correlator) :
    update_matrix c =
      { c with
        matrix := fun x => if x < c.keys * c.samples then flat_cur c x else c.matrix x
        byte_matrix := fun x => if x < c.keys * c.samples
          then Dbl.toU8 (Dbl.div
            (Dbl.mul (Dbl.sub (flat_cur c x) (min_pass c)) (Dbl.fin 255))
            (Dbl.sub (max_pass c) (min_pass c)))
          else c.byte_matrix x } := by
  unfold update_matrix
  simp only [matrix_pass_eq, fold_update_set]
  congr 1
  funext x
  split_ifs <;> rfl

theorem flat_index {S k i : Nat} (H : Nat) (hk : k < H) (hi : i < S) :
    k * S + i < H * S ∧ (k * S + i) / S = k ∧ (k * S + i) % S = i := by
  have hS : 0 < S := by omega
  refine ⟨?_, ?_, ?_⟩
  · calc k * S + i < k * S + S := by omega
      _ = (k + 1) * S := by ring
      _ ≤ H * S := Nat.mul_le_mul_right _ hk
  · rw [Nat.mul_comm, Nat.mul_add_div hS, Nat.div_eq_of_lt hi]; simp
  · rw [Nat.mul_comm, Nat.mul_add_mod, Nat.mod_eq_of_lt hi]

theorem update_matrix_entry (c : Correlator) {k i : Nat} (hk : k < c.keys)
    (hi : i < c.samples) :
    (update_matrix c).matrix (k * c.samples + i) = cur_value c k i := by
  obtain ⟨h1, h2, h3⟩ := flat_index c.keys hk hi
  rw [update_matrix_eq]
  simp only [h1, if_true, flat_cur, h2, h3]

/-! ## The state after a complete run -/

section Run

variable {α : Type} (ops : SampleOps α) (S T H : Nat) (u : Correlator) (hyp : Nat → Nat)

theorem avg_value_eq (c : Correlator) (hT : 0 < c.traces) (k : Nat) :
    avg_value c k = Dbl.fin (mean c.traces (hypo_row c.hypo c.traces k)) := by
  have hT' : (c.traces : ℝ) ≠ 0 := by positivity
  unfold avg_value
  rw [row_sums_eq]
  simp only [Dbl.ofInt, Dbl.ofNat]
  rw [Dbl.div_fin _ hT']
  simp [mean, hypo_row]

theorem row_squares_eq (c : Correlator) (k : Nat)
    (hb : ∀ t, t < c.traces → c.hypo (k * c.traces + t) < 256) :
    ∑ i in Finset.range c.traces,
      wrapInt32 ((c.hypo (k * c.traces + i) : Int) * (c.hypo (k * c.traces + i) : Int))
      = ∑ i in Finset.range c.traces,
          (c.hypo (k * c.traces + i) : Int) * (c.hypo (k * c.traces + i) : Int) := by
  apply Finset.sum_congr rfl
  intro t ht
  have a := hb t (Finset.mem_range.mp ht)
  apply wrapInt32_eq
  · positivity
  · have : (c.hypo (k * c.traces + t) : Int) * (c.hypo (k * c.traces + t) : Int) ≤ 255 * 255 :=
      mul_le_mul (by omega) (by omega) (by omega) (by omega)
    omega

theorem stddev_value_eq (c : Correlator) (hT : 0 < c.traces) (k : Nat)
    (hb : ∀ t, t < c.traces → c.hypo (k * c.traces + t) < 256) :
    stddev_value c k = Dbl.fin (stddev c.traces (hypo_row c.hypo c.traces k)) := by
  have hT' : (c.traces : ℝ) ≠ 0 := by positivity
  unfold stddev_value
  rw [avg_value_eq c hT, row_sums_eq]
  simp only [Dbl.ofInt, Dbl.ofNat]
  rw [row_squares_eq c k hb, Dbl.div_fin _ hT', Dbl.mul_fin, Dbl.sub_fin]
  have hv : ((∑ i in Finset.range c.traces,
        (c.hypo (k * c.traces + i) : Int) * (c.hypo (k * c.traces + i) : Int) : Int) : ℝ)
      / (c.traces : ℝ)
        - mean c.traces (hypo_row c.hypo c.traces k) * mean c.traces (hypo_row c.hypo c.traces k)
      = variance c.traces (hypo_row c.hypo c.traces k) := by
    rw [variance_eq c.traces _ hT]
    simp [hypo_row]
  rw [hv, Dbl.sqrt_fin (variance_nonneg c.traces _)]
  rfl

variable (order : List Nat) (d : Nat → Nat → α)

theorem run_traces_frame :
    (run_traces ops S T H u hyp order d).samples = S
      ∧ (run_traces ops S T H u hyp order d).traces = T
      ∧ (run_traces ops S T H u hyp order d).keys = H
      ∧ (run_traces ops S T H u hyp order d).hypo = hyp
      ∧ (run_traces ops S T H u hyp order d).count = order.length := by
  unfold run_traces
  rw [ingest_eq, preprocess_eq]
  simp [Correlator.init, Correlator.fill_hypo]

theorem run_traces_keys {k : Nat} (hk : k < H) :
    (run_traces ops S T H u hyp order d).key_avg k
        = avg_value ((Correlator.init S T H u).fill_hypo hyp) k
      ∧ (run_traces ops S T H u hyp order d).key_stddev k
        = stddev_value ((Correlator.init S T H u).fill_hypo hyp) k := by
  unfold run_traces
  rw [ingest_eq, preprocess_eq]
  have : k < ((Correlator.init S T H u).fill_hypo hyp).keys := hk
  simp only [this, if_true, and_self]

theorem run_traces_sums (h : order.Perm (List.range T)) {i : Nat} (hi : i < S) :
    (run_traces ops S T H u hyp order d).sum i
        = ∑ t in Finset.range T, ops.toAcc (d t i)
      ∧ (run_traces ops S T H u hyp order d).square_sum i
        = ∑ t in Finset.range T, ops.square (d t i) := by
  unfold run_traces
  rw [ingest_eq, preprocess_eq]
  have hi' : i < ((Correlator.init S T H u).fill_hypo hyp).samples := hi
  simp only [hi', if_true]
  rw [perm_range_map_sum (fun t => ops.toAcc (d t i)) h d _ (fun _ => rfl),
    perm_range_map_sum (fun t => ops.square (d t i)) h d _ (fun _ => rfl)]
  simp [Correlator.init, Correlator.fill_hypo]

theorem run_traces_mult_sum (h : order.Perm (List.range T)) {k i : Nat} (hk : k < H)
    (hi : i < S) :
    (run_traces ops S T H u hyp order d).mult_sum (k * S + i)
      = ∑ t in Finset.range T, ops.keyMul (hyp (k * T + t)) (d t i) := by
  obtain ⟨h1, h2, h3⟩ := flat_index H hk hi
  unfold run_traces
  rw [ingest_eq, preprocess_eq]
  have hx : k * S + i < ((Correlator.init S T H u).fill_hypo hyp).keys
      * ((Correlator.init S T H u).fill_hypo hyp).samples := h1
  simp only [hx, if_true]
  rw [perm_range_map_sum (fun t => ops.keyMul (hyp (k * T + t)) (d t i)) h d]
  · simp [Correlator.init, Correlator.fill_hypo]
  · intro t
    simp only [mult_term, Correlator.init, Correlator.fill_hypo, h2, h3]

/-- The value `cur` after a complete run, before the three divisions are carried out. -/
theorem cur_value_run (hT : 0 < T) (h : order.Perm (List.range T)) {k i : Nat} (hk : k < H)
    (hi : i < S) (hb : ∀ t, t < T → hyp (k * T + t) < 256)
    (hex : ∀ t, t < T → ops.Exact (hyp (k * T + t)) (d t i)) :
    cur_value (run_traces ops S T H u hyp order d) k i
      = Dbl.div (Dbl.div (Dbl.div
          (Dbl.fin (T * covariance T (hypo_row hyp T k) (sample_col ops d i)))
          (Dbl.fin (stddev T (sample_col ops d i))))
          (Dbl.fin (stddev T (hypo_row hyp T k))))
          (Dbl.fin T) := by
  have hT' : (T : ℝ) ≠ 0 := by positivity
  obtain ⟨f1, -, -, -, f5⟩ := run_traces_frame ops S T H u hyp order d
  obtain ⟨g1, g2⟩ := run_traces_keys ops S T H u hyp order d hk
  obtain ⟨s1, s2⟩ := run_traces_sums ops S T H u hyp order d h hi
  have m1 := run_traces_mult_sum ops S T H u hyp order d h hk hi
  have hlen : order.length = T := by rw [h.length_eq, List.length_range]
  have e1 : ((∑ t in Finset.range T, ops.toAcc (d t i) : ℚ) : ℝ)
      = ∑ t in Finset.range T, sample_col ops d i t := by
    push_cast
    rfl
  have e2 : ((∑ t in Finset.range T, ops.square (d t i) : ℚ) : ℝ)
      = ∑ t in Finset.range T, sample_col ops d i t * sample_col ops d i t := by
    push_cast
    apply Finset.sum_congr rfl
    intro t ht
    rw [(hex t (Finset.mem_range.mp ht)).2]
    push_cast
    rfl
  have e3 : ((∑ t in Finset.range T, ops.keyMul (hyp (k * T + t)) (d t i) : ℚ) : ℝ)
      = ∑ t in Finset.range T, sample_col ops d i t * hypo_row hyp T k t := by
    push_cast
    apply Finset.sum_congr rfl
    intro t ht
    rw [(hex t (Finset.mem_range.mp ht)).1]
    push_cast
    simp only [sample_col, hypo_row]
    ring
  have a1 : avg_value ((Correlator.init S T H u).fill_hypo hyp) k
      = Dbl.fin (mean T (hypo_row hyp T k)) :=
    avg_value_eq ((Correlator.init S T H u).fill_hypo hyp) hT k
  have a2 : stddev_value ((Correlator.init S T H u).fill_hypo hyp) k
      = Dbl.fin (stddev T (hypo_row hyp T k)) :=
    stddev_value_eq ((Correlator.init S T H u).fill_hypo hyp) hT k hb
  unfold cur_value
  rw [f1, f5, hlen, g1, g2, s1, s2, m1, a1, a2]
  simp only [Dbl.ofRat, Dbl.ofNat]
  rw [e1, e2, e3, Dbl.div_fin _ hT', Dbl.div_fin _ hT', Dbl.mul_fin, Dbl.mul_fin,
    Dbl.sub_fin, Dbl.sub_fin]
  have hnum : ∑ t in Finset.range T, sample_col ops d i t * hypo_row hyp T k t
      - (∑ t in Finset.range T, sample_col ops d i t) * mean T (hypo_row hyp T k)
      = T * covariance T (hypo_row hyp T k) (sample_col ops d i) := by
    rw [covariance_comm, covariance_eq T _ _ hT]
    field_simp
  have hrad : (∑ t in Finset.range T, sample_col ops d i t * sample_col ops d i t) / (T : ℝ)
      - (∑ t in Finset.range T, sample_col ops d i t) / (T : ℝ)
        * ((∑ t in Finset.range T, sample_col ops d i t) / (T : ℝ))
      = variance T (sample_col ops d i) := by
    rw [variance_eq T _ hT]
    rfl
  rw [hnum, hrad, Dbl.sqrt_fin (variance_nonneg T _)]
  rfl

/-- With both variances different from zero, the entry is Pearson's coefficient. -/
theorem cur_value_pearson (hT : 0 < T) (h : order.Perm (List.range T)) {k i : Nat}
    (hk : k < H) (hi : i < S) (hb : ∀ t, t < T → hyp (k * T + t) < 256)
    (hex : ∀ t, t < T → ops.Exact (hyp (k * T + t)) (d t i))
    (hvk : variance T (hypo_row hyp T k) ≠ 0) (hvi : variance T (sample_col ops d i) ≠ 0) :
    cur_value (run_traces ops S T H u hyp order d) k i
      = Dbl.fin (pearson T (hypo_row hyp T k) (sample_col ops d i)) := by
  have hT' : (T : ℝ) ≠ 0 := by positivity
  have h1 : stddev T (hypo_row hyp T k) ≠ 0 := by
    unfold stddev
    rw [Real.sqrt_ne_zero (variance_nonneg T _)]
    exact hvk
  have h2 : stddev T (sample_col ops d i) ≠ 0 := by
    unfold stddev
    rw [Real.sqrt_ne_zero (variance_nonneg T _)]
    exact hvi
  rw [cur_value_run ops S T H u hyp order d hT h hk hi hb hex, Dbl.div_fin _ h2,
    Dbl.div_fin _ h1, Dbl.div_fin _ hT']
  congr 1
  unfold pearson
  field_simp
  ring

end Run

/-! ## Special columns and rows -/

section Special

variable {α : Type} (ops : SampleOps α) (S T H : Nat) (u : Correlator) (hyp : Nat → Nat)
  (order : List Nat) (d : Nat → Nat → α)

theorem mean_congr {T : Nat} {x x' : Nat → ℝ} (h : ∀ t, t < T → x t = x' t) :
    mean T x = mean T x' := by
  unfold mean
  rw [Finset.sum_congr rfl (fun t ht => h t (Finset.mem_range.mp ht))]

theorem variance_congr {T : Nat} {x x' : Nat → ℝ} (h : ∀ t, t < T → x t = x' t) :
    variance T x = variance T x' := by
  unfold variance
  rw [mean_congr h]
  congr 1
  apply Finset.sum_congr rfl
  intro t ht
  rw [h t (Finset.mem_range.mp ht)]

theorem covariance_congr {T : Nat} {x y y' : Nat → ℝ} (h : ∀ t, t < T → y t = y' t) :
    covariance T x y = covariance T x y' := by
  unfold covariance
  rw [mean_congr h]
  congr 1
  apply Finset.sum_congr rfl
  intro t ht
  rw [h t (Finset.mem_range.mp ht)]

/-- Pearson's coefficient of a sequence and an affine image of it is the sign of the
slope. -/
theorem pearson_affine {T : Nat} (hT : 0 < T) {x y : Nat → ℝ} {a b : ℝ}
    (hv : variance T x ≠ 0) (hlin : ∀ t, t < T → y t = a * x t + b) (ha : a ≠ 0) :
    variance T y ≠ 0 ∧ pearson T x y = a / |a| := by
  have hvy : variance T y = a ^ 2 * variance T x := by
    rw [variance_congr hlin, variance_affine T x hT]
  have hcy : covariance T x y = a * variance T x := by
    rw [covariance_congr hlin, covariance_affine T x hT]
  have hpos : 0 < variance T x := lt_of_le_of_ne (variance_nonneg T x) (Ne.symm hv)
  refine ⟨by rw [hvy]; positivity, ?_⟩
  unfold pearson stddev
  rw [hvy, hcy, Real.sqrt_mul (sq_nonneg a), Real.sqrt_sq_eq_abs]
  have hs : Real.sqrt (variance T x) * Real.sqrt (variance T x) = variance T x :=
    Real.mul_self_sqrt hpos.le
  have habs : |a| ≠ 0 := abs_ne_zero.mpr ha
  have hsq : Real.sqrt (variance T x) ≠ 0 := by
    rw [Real.sqrt_ne_zero hpos.le]
    exact hv
  rw [show Real.sqrt (variance T x) * (|a| * Real.sqrt (variance T x))
      = |a| * (Real.sqrt (variance T x) * Real.sqrt (variance T x)) by ring, hs]
  field_simp
  ring

theorem covariance_eq_zero_of_variance_left {T : Nat} {x : Nat → ℝ} (y : Nat → ℝ)
    (hv : variance T x = 0) : covariance T x y = 0 := by
  by_cases hT : T = 0
  · subst hT
    simp [covariance]
  · have hT' : (T : ℝ) ≠ 0 := by exact_mod_cast hT
    have hs : ∑ t in Finset.range T, (x t - mean T x) ^ 2 = 0 := by
      unfold variance at hv
      rcases div_eq_zero_iff.mp hv with h1 | h1
      · exact h1
      · exact absurd h1 hT'
    have hz := (Finset.sum_eq_zero_iff_of_nonneg (fun t _ => sq_nonneg (x t - mean T x))).mp hs
    unfold covariance
    rw [Finset.sum_eq_zero, zero_div]
    intro t ht
    have := pow_eq_zero_iff (two_ne_zero) |>.mp (hz t ht)
    rw [this, zero_mul]

/-- The entry of a constant hypothesis row, or of a constant sample column, is NaN:
`update_matrix` divides zero by zero. -/
theorem cur_value_constant (hT : 0 < T) (h : order.Perm (List.range T)) {k i : Nat}
    (hk : k < H) (hi : i < S) (hb : ∀ t, t < T → hyp (k * T + t) < 256)
    (hex : ∀ t, t < T → ops.Exact (hyp (k * T + t)) (d t i))
    (hv : variance T (hypo_row hyp T k) = 0 ∨ variance T (sample_col ops d i) = 0) :
    cur_value (run_traces ops S T H u hyp order d) k i = Dbl.nan := by
  have hc : covariance T (hypo_row hyp T k) (sample_col ops d i) = 0 := by
    rcases hv with hv | hv
    · exact covariance_eq_zero_of_variance_left _ hv
    · rw [covariance_comm]
      exact covariance_eq_zero_of_variance_left _ hv
  rw [cur_value_run ops S T H u hyp order d hT h hk hi hb hex, hc, mul_zero]
  by_cases h2 : stddev T (sample_col ops d i) = 0
  · rw [h2, Dbl.div_zero_zero]
    rfl
  · rw [Dbl.div_fin _ h2, zero_div]
    have h1 : stddev T (hypo_row hyp T k) = 0 := by
      rcases hv with hv | hv
      · unfold stddev
        rw [hv, Real.sqrt_zero]
      · exfalso
        apply h2
        unfold stddev
        rw [hv, Real.sqrt_zero]
    rw [h1, Dbl.div_zero_zero]
    rfl

theorem intSample_exact {key x : Nat} (hkey : key < 256) (hx : x < 46341) :
    intSample.Exact key x := by
  have h1 : wrapInt32 ((key : Int) * (x : Int)) = (key : Int) * (x : Int) := by
    apply wrapInt32_eq
    · exact mul_nonneg (Int.ofNat_nonneg _) (Int.ofNat_nonneg _)
    · have : (key : Int) * (x : Int) ≤ 255 * 46340 :=
        mul_le_mul (by omega) (by omega) (by omega) (by omega)
      omega
  have h2 : wrapInt32 ((x : Int) * (x : Int)) = (x : Int) * (x : Int) := by
    apply wrapInt32_eq
    · exact mul_nonneg (Int.ofNat_nonneg _) (Int.ofNat_nonneg _)
    · have : (x : Int) * (x : Int) ≤ 46340 * 46340 :=
        mul_le_mul (by omega) (by omega) (by omega) (by omega)
      omega
  constructor
  · simp only [intSample, h1]
    push_cast
    ring
  · simp only [intSample, h2]
    push_cast
    ring

end Special

/-! ## `add_trace` in `double` arithmetic -/

/-- A loop that replaces cell `x` by `g x` of its content for each `x < N`. -/
theorem fold_update_map (g : Nat → ℚ → ℚ) (N : Nat) (f : Nat → ℚ) :
    (List.range N).foldl (fun f x => Function.update f x (g x (f x))) f
      = fun y => if y < N then g y (f y) else f y := by
  induction N with
  | zero => simp
  | succ N ih =>
    rw [List.range_succ, List.foldl_append, ih]
    funext y
    simp only [List.foldl_cons, List.foldl_nil, Function.update_apply]
    by_cases h : y = N
    · subst h; simp
    · simp only [h, if_false]
      by_cases h2 : y < N
      · have : y < N + 1 := by omega
        simp [h2, this]
      · have : ¬ y < N + 1 := by omega
        simp [h2, this]

section AddTraceRounded

variable {α : Type} (ops : SampleOps α)

theorem add_trace_rounded_mult_sum (c : Correlator) (t : Nat) (d : Nat → α) :
    (add_trace_rounded ops c t d).mult_sum
      = fun x => if x < c.keys * c.samples then dbl (c.mult_sum x + mult_term ops c t d x)
          else c.mult_sum x := by
  show (List.range c.keys).foldl (fun ms j =>
      (List.range c.samples).foldl (fun ms i =>
        Function.update ms (j * c.samples + i)
          (dbl (ms (j * c.samples + i) + ops.keyMul (c.hypo (j * c.traces + t)) (d i)))) ms)
      c.mult_sum = _
  rw [nested_fold (fun (ms : Nat → ℚ) j i => Function.update ms (j * c.samples + i)
          (dbl (ms (j * c.samples + i) + ops.keyMul (c.hypo (j * c.traces + t)) (d i))))]
  simp only [Nat.div_add_mod']
  exact fold_update_map (fun x a => dbl (a + mult_term ops c t d x)) _ _

theorem add_trace_rounded_sum (c : Correlator) (t : Nat) (d : Nat → α) :
    (add_trace_rounded ops c t d).sum
      = fun i => if i < c.samples then dbl (c.sum i + ops.toAcc (d i)) else c.sum i := by
  show ((List.range c.samples).foldl (fun (sq : (Nat → ℚ) × (Nat → ℚ)) i =>
    (Function.update sq.1 i (dbl (sq.1 i + ops.toAcc (d i))),
     Function.update sq.2 i (dbl (sq.2 i + ops.square (d i))))) (c.sum, c.square_sum)).1 = _
  rw [fold_pair (fun f i => Function.update f i (dbl (f i + ops.toAcc (d i))))
    (fun f i => Function.update f i (dbl (f i + ops.square (d i))))]
  exact fold_update_map (fun i a => dbl (a + ops.toAcc (d i))) _ _

theorem add_trace_rounded_square_sum (c : Correlator) (t : Nat) (d : Nat → α) :
    (add_trace_rounded ops c t d).square_sum
      = fun i => if i < c.samples then dbl (c.square_sum i + ops.square (d i))
          else c.square_sum i := by
  show ((List.range c.samples).foldl (fun (sq : (Nat → ℚ) × (Nat → ℚ)) i =>
    (Function.update sq.1 i (dbl (sq.1 i + ops.toAcc (d i))),
     Function.update sq.2 i (dbl (sq.2 i + ops.square (d i))))) (c.sum, c.square_sum)).2 = _
  rw [fold_pair (fun f i => Function.update f i (dbl (f i + ops.toAcc (d i))))
    (fun f i => Function.update f i (dbl (f i + ops.square (d i))))]
  exact fold_update_map (fun i a => dbl (a + ops.square (d i))) _ _

/-- The whole effect of one `add_trace` in `double` arithmetic. -/
theorem add_trace_rounded_eq (c : Correlator) (t : Nat) (d : Nat → α) :
    add_trace_rounded ops c t d =
      { c with
        mult_sum := fun x => if x < c.keys * c.samples
          then dbl (c.mult_sum x + mult_term ops c t d x) else c.mult_sum x
        sum := fun i => if i < c.samples then dbl (c.sum i + ops.toAcc (d i)) else c.sum i
        square_sum := fun i => if i < c.samples then dbl (c.square_sum i + ops.square (d i))
          else c.square_sum i
        count := c.count + 1 } := by
  have h1 := add_trace_rounded_mult_sum ops c t d
  have h2 := add_trace_rounded_sum ops c t d
  have h3 := add_trace_rounded_square_sum ops c t d
  cases c
  simp only [add_trace_rounded] at h1 h2 h3 ⊢
  simp only [Correlator.mk.injEq, true_and, and_true]
  exact ⟨h2, h3, h1⟩

end AddTraceRounded

/-- The sum of an integer accumulator and an `int` term is a `double` as long as fewer
than `2^21` terms have been added. -/
theorem dbl_add_int {n : Nat} (hn : n < 2 ^ 21) {a t : ℚ}
    (ha : ∃ z : Int, a = (z : ℚ) ∧ |z| ≤ (n : Int) * 2 ^ 31)
    (ht : ∃ w : Int, t = (w : ℚ) ∧ |w| ≤ 2 ^ 31) :
    dbl (a + t) = a + t
      ∧ ∃ z : Int, a + t = (z : ℚ) ∧ |z| ≤ ((n + 1 : Nat) : Int) * 2 ^ 31 := by
  obtain ⟨z, rfl, hz⟩ := ha
  obtain ⟨w, rfl, hw⟩ := ht
  have hb : |z + w| ≤ ((n + 1 : Nat) : Int) * 2 ^ 31 := by
    have := abs_add z w
    push_cast
    linarith
  have hb2 : |z + w| ≤ 2 ^ 53 := by
    have : ((n + 1 : Nat) : Int) * 2 ^ 31 ≤ 2 ^ 21 * 2 ^ 31 := by
      apply mul_le_mul_of_nonneg_right _ (by norm_num)
      exact_mod_cast hn
    have h2 : (2 : Int) ^ 21 * 2 ^ 31 ≤ 2 ^ 53 := by norm_num
    linarith
  refine ⟨?_, z + w, by push_cast; ring, hb⟩
  have := dbl_intCast hb2
  push_cast at this
  exact this

theorem wrapInt32_abs (x : Int) : |wrapInt32 x| ≤ 2 ^ 31 := by
  unfold wrapInt32
  rw [abs_le]
  constructor <;> omega

theorem bounded_mono {n : Nat} {a : ℚ} (ha : ∃ z : Int, a = (z : ℚ) ∧ |z| ≤ (n : Int) * 2 ^ 31) :
    ∃ z : Int, a = (z : ℚ) ∧ |z| ≤ ((n + 1 : Nat) : Int) * 2 ^ 31 := by
  obtain ⟨z, hz, hb⟩ := ha
  refine ⟨z, hz, ?_⟩
  push_cast
  linarith

/-- On integer accumulators below `2^21 * 2^31` one `add_trace` on integer samples rounds
nothing: it is the exact `add_trace`. -/
theorem add_trace_rounded_int {n : Nat} (hn : n < 2 ^ 21) (c : Correlator)
    (hc : IntBounded n c) (t : Nat) (d : Nat → Nat) (hd : ∀ i, d i < 2 ^ 16) :
    add_trace_rounded intSample c t d = add_trace intSample c t d
      ∧ IntBounded (n + 1) (add_trace intSample c t d) := by
  have hm : ∀ x, ∃ w : Int, mult_term intSample c t d x = (w : ℚ) ∧ |w| ≤ 2 ^ 31 :=
    fun x => ⟨_, rfl, wrapInt32_abs _⟩
  have hq : ∀ i, ∃ w : Int, intSample.square (d i) = (w : ℚ) ∧ |w| ≤ 2 ^ 31 :=
    fun i => ⟨_, rfl, wrapInt32_abs _⟩
  have hs : ∀ i, ∃ w : Int, intSample.toAcc (d i) = (w : ℚ) ∧ |w| ≤ 2 ^ 31 := by
    intro i
    refine ⟨(d i : Int), by simp [intSample], ?_⟩
    have := hd i
    rw [abs_of_nonneg (Int.ofNat_nonneg _)]
    omega
  rw [add_trace_rounded_eq, add_trace_eq]
  constructor
  · simp only [Correlator.mk.injEq, true_and, and_true]
    refine ⟨?_, ?_, ?_⟩
    · funext i
      split_ifs
      · exact (dbl_add_int hn (hc i).1 (hs i)).1
      · rfl
    · funext i
      split_ifs
      · exact (dbl_add_int hn (hc i).2.1 (hq i)).1
      · rfl
    · funext x
      split_ifs
      · exact (dbl_add_int hn (hc x).2.2 (hm x)).1
      · rfl
  · intro x
    refine ⟨?_, ?_, ?_⟩
    · show ∃ z : Int, (if x < c.samples then c.sum x + intSample.toAcc (d x) else c.sum x)
        = (z : ℚ) ∧ _
      split_ifs
      · exact (dbl_add_int hn (hc x).1 (hs x)).2
      · exact bounded_mono (hc x).1
    · show ∃ z : Int, (if x < c.samples then c.square_sum x + intSample.square (d x)
        else c.square_sum x) = (z : ℚ) ∧ _
      split_ifs
      · exact (dbl_add_int hn (hc x).2.1 (hq x)).2
      · exact bounded_mono (hc x).2.1
    · show ∃ z : Int, (if x < c.keys * c.samples then c.mult_sum x + mult_term intSample c t d x
        else c.mult_sum x) = (z : ℚ) ∧ _
      split_ifs
      · exact (dbl_add_int hn (hc x).2.2 (hm x)).2
      · exact bounded_mono (hc x).2.2

/-- Ingestion of at most `2^21` traces of integer samples rounds nothing. -/
theorem ingest_rounded_int (l : List (Nat × (Nat → Nat))) :
    ∀ (n : Nat) (c : Correlator), IntBounded n c → n + l.length ≤ 2 ^ 21 →
      (∀ td, td ∈ l → ∀ i, td.2 i < 2 ^ 16) →
      ingest_rounded intSample c l = ingest intSample c l := by
  induction l with
  | nil => intro n c _ _ _; rfl
  | cons td l ih =>
    intro n c hc hlen hd
    have hlen' : n + (l.length + 1) ≤ 2 ^ 21 := by simpa using hlen
    obtain ⟨h1, h2⟩ := add_trace_rounded_int (n := n) (by omega) c hc td.1 td.2
      (hd td (List.mem_cons_self td l))
    show ingest_rounded intSample (add_trace_rounded intSample c td.1 td.2) l
      = ingest intSample (add_trace intSample c td.1 td.2) l
    rw [h1]
    exact ih (n + 1) _ h2 (by omega) (fun td' h => hd td' (List.mem_cons_of_mem td h))

theorem init_int_bounded (S T H : Nat) (u : Correlator) (hyp : Nat → Nat) :
    IntBounded 0 ((Correlator.init S T H u).fill_hypo hyp) :=
  fun _ => ⟨⟨0, by simp [Correlator.init, Correlator.fill_hypo], by simp⟩,
    ⟨0, by simp [Correlator.init, Correlator.fill_hypo], by simp⟩,
    ⟨0, by simp [Correlator.init, Correlator.fill_hypo], by simp⟩⟩

theorem s1_trace_lt (t i : Nat) : s1_trace t i < 2 ^ 16 := by
  unfold s1_trace
  rcases t with _ | _ | _ | t <;> rcases i with _ | _ | _ | _ | i <;> simp

/-! ## Claims on `add_trace` -/

/-- C3, as the code has it: for every list of at most `2^21` traces of 8-bit or 16-bit
samples, each with its hypothesis index, and every permutation of it, ingesting the
permuted list into a freshly constructed correlator (whose hypothesis table has been
filled), every `+=` being a `double` addition, gives the same `sum`, `square_sum`,
`mult_sum` and `count` as ingesting the list in its original order.  Every accumulator
then holds an integer below `2^53`, which no addition rounds: the result is that of the
exact additions. -/
theorem C3_ingest_order_irrelevant (S T H : Nat) (u : Correlator) (hyp : Nat → Nat)
    (l₁ l₂ : List (Nat × (Nat → Nat))) (h : l₁.Perm l₂) (hlen : l₁.length ≤ 2 ^ 21)
    (hd : ∀ td, td ∈ l₁ → ∀ i, td.2 i < 2 ^ 16) :
    (ingest_rounded intSample ((Correlator.init S T H u).fill_hypo hyp) l₂).sum
        = (ingest_rounded intSample ((Correlator.init S T H u).fill_hypo hyp) l₁).sum
      ∧ (ingest_rounded intSample ((Correlator.init S T H u).fill_hypo hyp) l₂).square_sum
        = (ingest_rounded intSample ((Correlator.init S T H u).fill_hypo hyp) l₁).square_sum
      ∧ (ingest_rounded intSample ((Correlator.init S T H u).fill_hypo hyp) l₂).mult_sum
        = (ingest_rounded intSample ((Correlator.init S T H u).fill_hypo hyp) l₁).mult_sum
      ∧ (ingest_rounded intSample ((Correlator.init S T H u).fill_hypo hyp) l₂).count
        = (ingest_rounded intSample ((Correlator.init S T H u).fill_hypo hyp) l₁).count
      ∧ ingest_rounded intSample ((Correlator.init S T H u).fill_hypo hyp) l₁
        = ingest intSample ((Correlator.init S T H u).fill_hypo hyp) l₁ := by
  have e1 := ingest_rounded_int l₁ 0 _ (init_int_bounded S T H u hyp) (by omega) hd
  have e2 := ingest_rounded_int l₂ 0 _ (init_int_bounded S T H u hyp)
    (by rw [← h.length_eq]; omega) (fun td htd => hd td (h.mem_iff.mpr htd))
  rw [e1, e2, ingest_perm intSample _ h]
  exact ⟨rfl, rfl, rfl, rfl, rfl⟩

theorem s1_rotation :
    [(0, s1_trace 0), (1, s1_trace 1), (2, s1_trace 2)].Perm
      [(2, s1_trace 2), (0, s1_trace 0), (1, s1_trace 1)] := by
  show ([(0, s1_trace 0), (1, s1_trace 1)] ++ [(2, s1_trace 2)]).Perm
    ([(2, s1_trace 2)] ++ [(0, s1_trace 0), (1, s1_trace 1)])
  exact List.perm_append_comm

theorem C3_ingest_order_irrelevant_witness :
    ([(0, s1_trace 0), (1, s1_trace 1), (2, s1_trace 2)].Perm
        [(2, s1_trace 2), (0, s1_trace 0), (1, s1_trace 1)]
      ∧ [(0, s1_trace 0), (1, s1_trace 1), (2, s1_trace 2)].length ≤ 2 ^ 21)
      ∧ (ingest_rounded intSample ((Correlator.init 4 3 2 blank).fill_hypo s1_hypo)
          [(2, s1_trace 2), (0, s1_trace 0), (1, s1_trace 1)]).sum
        = (ingest_rounded intSample ((Correlator.init 4 3 2 blank).fill_hypo s1_hypo)
          [(0, s1_trace 0), (1, s1_trace 1), (2, s1_trace 2)]).sum :=
  ⟨⟨s1_rotation, by norm_num⟩,
   (C3_ingest_order_irrelevant 4 3 2 blank s1_hypo
      [(0, s1_trace 0), (1, s1_trace 1), (2, s1_trace 2)]
      [(2, s1_trace 2), (0, s1_trace 0), (1, s1_trace 1)] s1_rotation (by norm_num)
      (fun td _ i => by
        have : ∀ t, (s1_trace t) i < 2 ^ 16 := fun t => s1_trace_lt t i
        rcases (by assumption : td ∈ [(0, s1_trace 0), (1, s1_trace 1), (2, s1_trace 2)])
          with _ | ⟨_, _ | ⟨_, _ | ⟨_, h⟩⟩⟩
        · exact this 0
        · exact this 1
        · exact this 2
        · cases h)).1⟩

/-- C3 fails as stated: three `float` traces of one sample, `2^53`, `1` and `-2^53`.
Ingested in this order `sum[0]` is 0, the addition `2^53 + 1` being rounded to `2^53`;
with the last two exchanged it is 1. -/
theorem C3_counterexample :
    [(0, float_trace 0), (1, float_trace 1), (2, float_trace 2)].Perm
        [(0, float_trace 0), (2, float_trace 2), (1, float_trace 1)]
      ∧ (ingest_rounded floatSample ((Correlator.init 1 3 1 blank).fill_hypo (fun _ => 0))
          [(0, float_trace 0), (1, float_trace 1), (2, float_trace 2)]).sum 0 = 0
      ∧ (ingest_rounded floatSample ((Correlator.init 1 3 1 blank).fill_hypo (fun _ => 0))
          [(0, float_trace 0), (2, float_trace 2), (1, float_trace 1)]).sum 0 = 1
      ∧ flt (float_trace 0 0) = float_trace 0 0
      ∧ flt (float_trace 1 0) = float_trace 1 0
      ∧ flt (float_trace 2 0) = float_trace 2 0 := by
  refine ⟨List.Perm.cons _ (List.Perm.swap _ _ _), ?_, ?_, ?_, ?_, ?_⟩ <;> decide!

/-- The matrix entry in exact arithmetic, where no `int` product has overflowed: after
construction with `S` samples, `T ≥ 1` traces and `H` hypotheses, filling of the
hypothesis table with 8-bit values, `preprocess`, and one `add_trace` for each trace index
`0 .. T-1` (in any order), `update_matrix` stores into `matrix[k][i]` the Pearson
correlation coefficient of hypothesis row `k` and sample column `i`, whenever both have a
non-zero variance. -/
theorem update_matrix_pearson_exact {α : Type} (ops : SampleOps α) (S T H : Nat)
    (u : Correlator) (hyp : Nat → Nat) (order : List Nat) (d : Nat → Nat → α)
    (hT : 1 ≤ T) (hperm : order.Perm (List.range T)) (k i : Nat) (hk : k < H) (hi : i < S)
    (hb : ∀ t, t < T → hyp (k * T + t) < 256)
    (hex : ∀ t, t < T → ops.Exact (hyp (k * T + t)) (d t i))
    (hvk : variance T (hypo_row hyp T k) ≠ 0)
    (hvi : variance T (sample_col ops d i) ≠ 0) :
    (update_matrix (run_traces ops S T H u hyp order d)).matrix (k * S + i)
      = Dbl.fin (pearson T (hypo_row hyp T k) (sample_col ops d i)) := by
  obtain ⟨f1, -, f3, -, -⟩ := run_traces_frame ops S T H u hyp order d
  have e := update_matrix_entry (run_traces ops S T H u hyp order d)
    (k := k) (i := i) (by rw [f3]; exact hk) (by rw [f1]; exact hi)
  rw [f1] at e
  rw [e]
  exact cur_value_pearson ops S T H u hyp order d hT hperm hk hi hb hex hvk hvi

theorem s1_order : [2, 0, 1].Perm (List.range 3) := by decide

theorem s1_row0_bound : ∀ t, t < 3 → s1_hypo (0 * 3 + t) < 256 := by decide

theorem s1_row1_bound : ∀ t, t < 3 → s1_hypo (1 * 3 + t) < 256 := by decide

theorem s1_exact (k i : Nat) (hk : k < 2) (hi : i < 4) :
    ∀ t, t < 3 → intSample.Exact (s1_hypo (k * 3 + t)) (s1_trace t i) := by
  intro t ht
  apply intSample_exact
  · interval_cases k <;> interval_cases t <;> decide
  · interval_cases i <;> interval_cases t <;> decide

theorem s1_row0_variance : variance 3 (hypo_row s1_hypo 3 0) ≠ 0 :=
  (variance_pos_of_ne 3 _ (a := 0) (b := 1) (by decide) (by decide)
    (by norm_num [hypo_row, s1_hypo])).ne'

theorem s1_col_variance (i : Nat) (hi : i < 4) :
    variance 3 (sample_col intSample s1_trace i) ≠ 0 :=
  (variance_pos_of_ne 3 _ (a := 0) (b := 1) (by decide) (by decide)
    (by interval_cases i <;> norm_num [sample_col, intSample, s1_trace])).ne'

/-- Scenario S1, row 0 and column 1: the entry is the Pearson coefficient. -/
theorem update_matrix_pearson_s1 :
    (update_matrix (run_traces intSample 4 3 2 blank s1_hypo [2, 0, 1] s1_trace)).matrix
        (0 * 4 + 1)
      = Dbl.fin (pearson 3 (hypo_row s1_hypo 3 0) (sample_col intSample s1_trace 1)) :=
  update_matrix_pearson_exact intSample 4 3 2 blank s1_hypo [2, 0, 1] s1_trace (by decide)
    s1_order 0 1 (by decide) (by decide) s1_row0_bound (s1_exact 0 1 (by decide) (by decide))
    s1_row0_variance (s1_col_variance 1 (by decide))

/-! ## The correlator on 16-bit samples -/

theorem Dbl.div_nan_right (a : Dbl) : Dbl.div a Dbl.nan = Dbl.nan := by
  cases a <;> rfl

theorem Dbl.div_nan_left (b : Dbl) : Dbl.div Dbl.nan b = Dbl.nan := by
  cases b <;> rfl

theorem wide_col_linear :
    ∀ t, t < 2 → sample_col intSample wide_trace 0 t = 65535 * hypo_row two_hypo 2 0 t + 0 := by
  intro t ht
  interval_cases t <;> norm_num [sample_col, intSample, wide_trace, hypo_row, two_hypo]

theorem two_hypo_variance : variance 2 (hypo_row two_hypo 2 0) ≠ 0 :=
  (variance_pos_of_ne 2 _ (a := 0) (b := 1) (by decide) (by decide)
    (by norm_num [hypo_row, two_hypo])).ne'

/-- The entry `matrix[0][0]` after the two 16-bit traces `[0]` and `[65535]`: the
radicand of the column is negative. -/
theorem wide_entry_nan :
    cur_value (run_traces intSample 1 2 1 blank two_hypo [0, 1] wide_trace) 0 0 = Dbl.nan := by
  have hp : [0, 1].Perm (List.range 2) := by decide
  obtain ⟨-, -, -, -, f5⟩ := run_traces_frame intSample 1 2 1 blank two_hypo [0, 1] wide_trace
  obtain ⟨s1, s2⟩ := run_traces_sums intSample 1 2 1 blank two_hypo [0, 1] wide_trace hp
    (i := 0) (by decide)
  have e1 : (run_traces intSample 1 2 1 blank two_hypo [0, 1] wide_trace).sum 0 = 65535 := by
    rw [s1]
    norm_num [Finset.sum_range_succ, intSample, wide_trace]
  have e2 : (run_traces intSample 1 2 1 blank two_hypo [0, 1] wide_trace).square_sum 0
      = -131071 := by
    rw [s2]
    norm_num [Finset.sum_range_succ, intSample, wide_trace, wrapInt32]
  have e3 : (run_traces intSample 1 2 1 blank two_hypo [0, 1] wide_trace).count = 2 := f5
  have h2 : ((2 : Nat) : ℝ) ≠ 0 := by norm_num
  have hs : Dbl.sqrt (Dbl.sub (Dbl.div (Dbl.ofRat (-131071)) (Dbl.ofNat 2))
      (Dbl.mul (Dbl.div (Dbl.ofRat 65535) (Dbl.ofNat 2))
        (Dbl.div (Dbl.ofRat 65535) (Dbl.ofNat 2)))) = Dbl.nan := by
    simp only [Dbl.ofRat, Dbl.ofNat]
    rw [Dbl.div_fin _ h2, Dbl.div_fin _ h2, Dbl.mul_fin, Dbl.sub_fin]
    show (if ((-131071 : ℚ) : ℝ) / ((2 : Nat) : ℝ)
        - ((65535 : ℚ) : ℝ) / ((2 : Nat) : ℝ) * (((65535 : ℚ) : ℝ) / ((2 : Nat) : ℝ)) < 0
      then Dbl.nan else _) = Dbl.nan
    rw [if_pos (by norm_num)]
  unfold cur_value
  simp only [e1, e2, e3]
  rw [hs, Dbl.div_nan_right, Dbl.div_nan_left, Dbl.div_nan_left]

/-- C1 against the code, for 16-bit samples: a correlator with `S = 1`, `T = 2`, `H = 1`,
`hypo = [[0, 1]]`, after `preprocess` and `add_trace_u16` for the traces `[0]` and
`[65535]`.  Hypothesis row and sample column both have a non-zero variance and their
Pearson coefficient is 1, but `update_matrix` stores NaN into `matrix[0][0]`: the `int`
product `d[i] * d[i]` has overflowed, `square_sum[0]` is `-131071` and the radicand is
negative.  It is NaN in exact arithmetic and when every operation is rounded. -/
theorem C1_u16_entry_is_not_pearson :
    (update_matrix (add_trace_u16 (add_trace_u16
        (preprocess ((Correlator.init 1 2 1 blank).fill_hypo two_hypo)) 0 (wide_trace 0))
        1 (wide_trace 1))).matrix 0 = Dbl.nan
      ∧ pearson 2 (hypo_row two_hypo 2 0) (sample_col intSample wide_trace 0) = 1
      ∧ variance 2 (hypo_row two_hypo 2 0) ≠ 0
      ∧ variance 2 (sample_col intSample wide_trace 0) ≠ 0
      ∧ (add_trace_u16 (add_trace_u16
          (preprocess ((Correlator.init 1 2 1 blank).fill_hypo two_hypo)) 0 (wide_trace 0))
          1 (wide_trace 1)).square_sum 0 = -131071
      ∧ cur_value_rounded (run_traces_rounded intSample 1 2 1 blank two_hypo [0, 1] wide_trace)
          0 0 = none := by
  have hrun : add_trace_u16 (add_trace_u16
        (preprocess ((Correlator.init 1 2 1 blank).fill_hypo two_hypo)) 0 (wide_trace 0))
        1 (wide_trace 1)
      = run_traces intSample 1 2 1 blank two_hypo [0, 1] wide_trace := rfl
  have hp : [0, 1].Perm (List.range 2) := by decide
  obtain ⟨f1, -, f3, -, -⟩ := run_traces_frame intSample 1 2 1 blank two_hypo [0, 1] wide_trace
  have e := update_matrix_entry (run_traces intSample 1 2 1 blank two_hypo [0, 1] wide_trace)
    (k := 0) (i := 0) (by rw [f3]; decide) (by rw [f1]; decide)
  rw [f1] at e
  obtain ⟨hvi, hpe⟩ := pearson_affine (by decide : 0 < 2) two_hypo_variance wide_col_linear
    (by norm_num : (65535 : ℝ) ≠ 0)
  rw [hrun]
  refine ⟨?_, ?_, two_hypo_variance, hvi, ?_, ?_⟩
  · rw [← wide_entry_nan, ← e]
  · rw [hpe]
    norm_num
  · rw [(run_traces_sums intSample 1 2 1 blank two_hypo [0, 1] wide_trace hp
      (i := 0) (by decide)).2]
    norm_num [Finset.sum_range_succ, intSample, wide_trace, wrapInt32]
  · decide!

/-- C2, in exact real arithmetic and with no `int` product overflowed (`hex`: every 8-bit
sample, 16-bit samples below 46341): after `preprocess` and one `add_trace` per trace
index, if hypothesis row `k` is not constant and sample column `i` is
`a * hypo[k][t] + b` for every trace `t`, then `update_matrix` stores `+1` into
`matrix[k][i]` when `a > 0` and `-1` when `a < 0`. -/
theorem C2_linear_column_is_unit {α : Type} (ops : SampleOps α) (S T H : Nat)
    (u : Correlator) (hyp : Nat → Nat) (order : List Nat) (d : Nat → Nat → α)
    (hperm : order.Perm (List.range T)) (k i : Nat) (hk : k < H) (hi : i < S)
    (hb : ∀ t, t < T → hyp (k * T + t) < 256)
    (hex : ∀ t, t < T → ops.Exact (hyp (k * T + t)) (d t i))
    (hnc : ∃ t₁ t₂, t₁ < T ∧ t₂ < T ∧ hyp (k * T + t₁) ≠ hyp (k * T + t₂))
    (a b : ℝ) (hlin : ∀ t, t < T → sample_col ops d i t = a * hypo_row hyp T k t + b) :
    (0 < a → (update_matrix (run_traces ops S T H u hyp order d)).matrix (k * S + i)
        = Dbl.fin 1)
      ∧ (a < 0 → (update_matrix (run_traces ops S T H u hyp order d)).matrix (k * S + i)
        = Dbl.fin (-1)) := by
  obtain ⟨t₁, t₂, h1, h2, hne⟩ := hnc
  have hT : 0 < T := by omega
  have hvk : variance T (hypo_row hyp T k) ≠ 0 :=
    (variance_pos_of_ne T _ h1 h2 (by
      simp only [hypo_row]
      exact_mod_cast hne)).ne'
  obtain ⟨f1, -, f3, -, -⟩ := run_traces_frame ops S T H u hyp order d
  have e := update_matrix_entry (run_traces ops S T H u hyp order d)
    (k := k) (i := i) (by rw [f3]; exact hk) (by rw [f1]; exact hi)
  rw [f1] at e
  rw [e]
  constructor
  · intro ha
    obtain ⟨hvi, hp⟩ := pearson_affine hT hvk hlin ha.ne'
    rw [cur_value_pearson ops S T H u hyp order d hT hperm hk hi hb hex hvk hvi, hp,
      abs_of_pos ha, div_self ha.ne']
  · intro ha
    obtain ⟨hvi, hp⟩ := pearson_affine hT hvk hlin ha.ne
    rw [cur_value_pearson ops S T H u hyp order d hT hperm hk hi hb hex hvk hvi, hp,
      abs_of_neg ha, div_neg, div_self ha.ne]

theorem s1_col1_linear :
    ∀ t, t < 3 → sample_col intSample s1_trace 1 t = 3 * hypo_row s1_hypo 3 0 t + 1 := by
  intro t ht
  interval_cases t <;> norm_num [sample_col, intSample, s1_trace, hypo_row, s1_hypo]

theorem s1_col3_linear :
    ∀ t, t < 3 → sample_col intSample s1_trace 3 t = 3 * hypo_row s1_hypo 3 0 t + 1 := by
  intro t ht
  interval_cases t <;> norm_num [sample_col, intSample, s1_trace, hypo_row, s1_hypo]

theorem C2_linear_column_is_unit_witness :
    (∃ t₁ t₂, t₁ < 3 ∧ t₂ < 3 ∧ s1_hypo (0 * 3 + t₁) ≠ s1_hypo (0 * 3 + t₂))
      ∧ (update_matrix (run_traces intSample 4 3 2 blank s1_hypo [2, 0, 1] s1_trace)).matrix
          (0 * 4 + 1) = Dbl.fin 1
      ∧ (update_matrix (run_traces intSample 4 3 2 blank s1_hypo [2, 0, 1] s1_trace)).matrix
          (0 * 4 + 3) = Dbl.fin 1 :=
  ⟨⟨0, 1, by decide, by decide, by decide⟩,
   (C2_linear_column_is_unit intSample 4 3 2 blank s1_hypo [2, 0, 1] s1_trace s1_order 0 1
      (by decide) (by decide) s1_row0_bound (s1_exact 0 1 (by decide) (by decide))
      ⟨0, 1, by decide, by decide, by decide⟩ 3 1 s1_col1_linear).1 (by norm_num),
   (C2_linear_column_is_unit intSample 4 3 2 blank s1_hypo [2, 0, 1] s1_trace s1_order 0 3
      (by decide) (by decide) s1_row0_bound (s1_exact 0 3 (by decide) (by decide))
      ⟨0, 1, by decide, by decide, by decide⟩ 3 1 s1_col3_linear).1 (by norm_num)⟩

/-- C2 fails as stated, on its own witness: in scenario S1 the columns 1 and 3 are
`3 * hypo[0][t] + 1`, and the `double` computation of `update_matrix` stores
`1 + 2^-52 = 1.0000000000000002` into `matrix[0][1]` and `matrix[0][3]`, not 1: the root
`key_stddev[0]` of `2/3` and the quotients are rounded. -/
theorem C2_counterexample :
    cur_value_rounded (run_traces_rounded intSample 4 3 2 blank s1_hypo [0, 1, 2] s1_trace) 0 1
        = some (1 + 1 / 2 ^ 52)
      ∧ cur_value_rounded (run_traces_rounded intSample 4 3 2 blank s1_hypo [0, 1, 2] s1_trace)
          0 3 = some (1 + 1 / 2 ^ 52)
      ∧ key_avg_rounded (run_traces_rounded intSample 4 3 2 blank s1_hypo [0, 1, 2] s1_trace) 0
        = some 1
      ∧ key_stddev_rounded (run_traces_rounded intSample 4 3 2 blank s1_hypo [0, 1, 2] s1_trace)
          0 = some (3677173697615391 / 2 ^ 52)
      ∧ (∀ t : Fin 3, s1_trace t 1 = 3 * s1_hypo (0 * 3 + t) + 1
          ∧ s1_trace t 3 = 3 * s1_hypo (0 * 3 + t) + 1)
      ∧ s1_hypo (0 * 3 + 0) ≠ s1_hypo (0 * 3 + 1) := by
  refine ⟨by decide!, by decide!, by decide!, by decide!, by decide, by decide⟩

theorem s1_row1_variance : variance 3 (hypo_row s1_hypo 3 1) = 0 := by
  norm_num [variance, mean, hypo_row, s1_hypo, Finset.sum_range_succ]

theorem s1_const_col_variance : variance 3 (sample_col intSample s1_trace_const 0) = 0 := by
  norm_num [variance, mean, sample_col, intSample, s1_trace_const, Finset.sum_range_succ]

theorem s1_const_exact : ∀ t, t < 3 → intSample.Exact (s1_hypo (0 * 3 + t)) (s1_trace_const t 0) := by
  intro t ht
  apply intSample_exact
  · interval_cases t <;> decide
  · interval_cases t <;> decide

/-- C5 (the code does not do this): in scenario S1 hypothesis row 1 is `[2,2,2]`, and
`update_matrix` stores NaN, not 0, into each of `matrix[1][0..3]`; with sample column 0
constant it stores NaN into `matrix[0][0]`.  The quotient `0 / 0` is formed without a
guard. -/
theorem C5_constant_row_gives_nan :
    (update_matrix (run_traces intSample 4 3 2 blank s1_hypo [0, 1, 2] s1_trace)).matrix
        (1 * 4 + 0) = Dbl.nan
      ∧ (update_matrix (run_traces intSample 4 3 2 blank s1_hypo [0, 1, 2] s1_trace)).matrix
        (1 * 4 + 1) = Dbl.nan
      ∧ (update_matrix (run_traces intSample 4 3 2 blank s1_hypo [0, 1, 2] s1_trace)).matrix
        (1 * 4 + 2) = Dbl.nan
      ∧ (update_matrix (run_traces intSample 4 3 2 blank s1_hypo [0, 1, 2] s1_trace)).matrix
        (1 * 4 + 3) = Dbl.nan
      ∧ (update_matrix
          (run_traces intSample 4 3 2 blank s1_hypo [0, 1, 2] s1_trace_const)).matrix
        (0 * 4 + 0) = Dbl.nan := by
  have hp : [0, 1, 2].Perm (List.range 3) := by decide
  have row : ∀ i, i < 4 →
      (update_matrix (run_traces intSample 4 3 2 blank s1_hypo [0, 1, 2] s1_trace)).matrix
        (1 * 4 + i) = Dbl.nan := by
    intro i hi
    obtain ⟨f1, -, f3, -, -⟩ := run_traces_frame intSample 4 3 2 blank s1_hypo [0, 1, 2] s1_trace
    have e := update_matrix_entry (run_traces intSample 4 3 2 blank s1_hypo [0, 1, 2] s1_trace)
      (k := 1) (i := i) (by rw [f3]; decide) (by rw [f1]; exact hi)
    rw [f1] at e
    rw [e]
    exact cur_value_constant intSample 4 3 2 blank s1_hypo [0, 1, 2] s1_trace (by decide) hp
      (by decide) hi s1_row1_bound (s1_exact 1 i (by decide) hi) (Or.inl s1_row1_variance)
  refine ⟨row 0 (by decide), row 1 (by decide), row 2 (by decide), row 3 (by decide), ?_⟩
  obtain ⟨f1, -, f3, -, -⟩ :=
    run_traces_frame intSample 4 3 2 blank s1_hypo [0, 1, 2] s1_trace_const
  have e := update_matrix_entry
    (run_traces intSample 4 3 2 blank s1_hypo [0, 1, 2] s1_trace_const)
    (k := 0) (i := 0) (by rw [f3]; decide) (by rw [f1]; decide)
  rw [f1] at e
  rw [e]
  exact cur_value_constant intSample 4 3 2 blank s1_hypo [0, 1, 2] s1_trace_const (by decide) hp
    (by decide) (by decide) s1_row0_bound s1_const_exact (Or.inr s1_const_col_variance)

section Raster

variable (cfg : RasterConfig) (inp : Nat → Nat) (len raster : Nat) (comp_vals : Nat → Int)
  (bound : Nat)

/-- The four ways through `write_window`. -/
theorem write_window_cases (min_pos : Nat) (distance : Int) (st : ScanState) :
    write_window cfg inp len raster min_pos distance st = Outcome.ok st
      ∨ (write_window cfg inp len raster min_pos distance st = Outcome.abort
          ∧ before_tail len raster min_pos ∧ ¬ in_tolerance raster distance)
      ∨ write_window cfg inp len raster min_pos distance st = Outcome.undefined
      ∨ ∃ out,
          spline dbl st.out st.out_pos (fun a => inp (cfg.header_size + st.last_pos + a))
              raster distance = some out
            ∧ distance < Int.tdiv cfg.pause_trigger 2
            ∧ (before_tail len raster min_pos → in_tolerance raster distance)
            ∧ write_window cfg inp len raster min_pos distance st
              = Outcome.ok (window_written st raster distance out) := by
  have hsum : distance + ((raster : Int) - distance) = (raster : Int) := by ring
  unfold write_window raster_write
  rw [hsum, Int.toNat_ofNat]
  by_cases h1 : raster ≠ 0 ∧ cfg.min_pause ≤ st.start ∧ distance < Int.tdiv cfg.pause_trigger 2
  · by_cases h2 : before_tail len raster min_pos ∧ ¬ in_tolerance raster distance
    · right; left
      rw [if_pos h1, if_pos h2]
      exact ⟨rfl, h2.1, h2.2⟩
    · cases hs : spline dbl st.out st.out_pos
          (fun a => inp (cfg.header_size + st.last_pos + a))
          raster distance with
      | none =>
        right; right; left
        rw [if_pos h1, if_neg h2]
      | some out =>
        right; right; right
        refine ⟨out, rfl, h1.2.2, ?_, ?_⟩
        · intro hb
          by_contra hn
          exact h2 ⟨hb, hn⟩
        · rw [if_pos h1, if_neg h2]
          rfl
  · left
    rw [if_neg h1]

/-- What a successful turn of `on_edge` does to the output. -/
theorem on_edge_ok {min_pos : Nat} {st st1 : ScanState}
    (h : on_edge cfg inp len raster min_pos st = Outcome.ok st1) :
    (st1.out = st.out ∧ st1.out_pos = st.out_pos ∧ st1.emitted = st.emitted)
      ∨ ∃ out,
          spline dbl st.out st.out_pos (fun a => inp (cfg.header_size + st.last_pos + a))
              raster ((min_pos : Int) - (st.last_pos : Int)) = some out
            ∧ (min_pos : Int) - (st.last_pos : Int) < Int.tdiv cfg.pause_trigger 2
            ∧ (before_tail len raster min_pos
                → in_tolerance raster ((min_pos : Int) - (st.last_pos : Int)))
            ∧ st1.out = out ∧ st1.out_pos = st.out_pos + raster
            ∧ st1.emitted = st.emitted ++ [(st.last_pos, (min_pos : Int) - (st.last_pos : Int))] := by
  unfold on_edge at h
  by_cases h0 : 0 < st.last_pos
  · simp only [h0, if_true] at h
    rcases write_window_cases cfg inp len raster min_pos
        ((min_pos : Int) - (st.last_pos : Int)) st with hw | ⟨hw, -, -⟩ | hw | ⟨out, hs, hd, ht, hw⟩
    · rw [hw] at h
      dsimp only at h
      left
      split_ifs at h
      · simp only [Outcome.ok.injEq] at h
        subst h
        exact ⟨rfl, rfl, rfl⟩
      · simp only [Outcome.ok.injEq] at h
        subst h
        exact ⟨rfl, rfl, rfl⟩
    · rw [hw] at h
      simp at h
    · rw [hw] at h
      simp at h
    · rw [hw] at h
      dsimp only at h
      right
      refine ⟨out, hs, hd, ht, ?_⟩
      split_ifs at h
      · simp only [Outcome.ok.injEq] at h
        subst h
        exact ⟨rfl, rfl, rfl⟩
      · simp only [Outcome.ok.injEq] at h
        subst h
        exact ⟨rfl, rfl, rfl⟩
  · simp only [h0, if_false, Outcome.ok.injEq] at h
    subst h
    left
    exact ⟨rfl, rfl, rfl⟩

theorem on_edge_no_timeout (min_pos : Nat) (st : ScanState) :
    on_edge cfg inp len raster min_pos st ≠ Outcome.timeout := by
  unfold on_edge
  by_cases h0 : 0 < st.last_pos
  · simp only [h0, if_true]
    rcases write_window_cases cfg inp len raster min_pos
        ((min_pos : Int) - (st.last_pos : Int)) st with hw | ⟨hw, -, -⟩ | hw | ⟨out, -, -, -, hw⟩
    · rw [hw]
      dsimp only
      split_ifs <;> simp
    · rw [hw]
      simp
    · rw [hw]
      simp
    · rw [hw]
      dsimp only
      split_ifs <;> simp
  · simp [h0]

/-- One turn of the scan loop. -/
theorem scan_succ (fuel cnt : Nat) (st : ScanState) :
    scan cfg inp len raster comp_vals bound (fuel + 1) cnt st
      = if cnt < bound then
          if comp_vals cnt < cfg.trigger then
            match on_edge cfg inp len raster (refine_edge comp_vals raster cnt).2 st with
            | Outcome.ok st1 =>
                scan cfg inp len raster comp_vals bound fuel (cnt + raster / 2 + 1 + 1) st1
            | o => o
          else scan cfg inp len raster comp_vals bound fuel (cnt + 1) st
        else Outcome.ok st := rfl

/-- The scan never runs out of turns when it is given `bound - cnt` of them. -/
theorem scan_no_timeout (fuel cnt : Nat) (st : ScanState) (h : bound ≤ cnt + fuel) :
    scan cfg inp len raster comp_vals bound fuel cnt st ≠ Outcome.timeout := by
  induction fuel generalizing cnt st with
  | zero =>
    have : ¬ cnt < bound := by omega
    simp [scan, this]
  | succ fuel ih =>
    rw [scan_succ]
    split_ifs with h1 h2
    · cases hoe : on_edge cfg inp len raster (refine_edge comp_vals raster cnt).2 st with
      | ok a => exact ih _ _ (by omega)
      | abort => simp
      | undefined => simp
      | timeout => exact absurd hoe (on_edge_no_timeout cfg inp len raster _ st)
    · exact ih _ _ (by omega)
    · simp

/-- A property of the scan state that every successful `on_edge` keeps holds at the end of
a successful scan. -/
theorem scan_invariant (P : ScanState → Prop)
    (hstep : ∀ min_pos st st1, P st → on_edge cfg inp len raster min_pos st = Outcome.ok st1
      → P st1)
    (fuel cnt : Nat) (st st1 : ScanState) (h0 : P st)
    (h : scan cfg inp len raster comp_vals bound fuel cnt st = Outcome.ok st1) : P st1 := by
  induction fuel generalizing cnt st with
  | zero =>
    unfold scan at h
    split_ifs at h
    cases h
    exact h0
  | succ fuel ih =>
    rw [scan_succ] at h
    split_ifs at h with h1 h2
    · cases hoe : on_edge cfg inp len raster (refine_edge comp_vals raster cnt).2 st with
      | ok a =>
        rw [hoe] at h
        exact ih _ a (hstep _ st a h0 hoe) h
      | abort => rw [hoe] at h; cases h
      | undefined => rw [hoe] at h; cases h
      | timeout => rw [hoe] at h; cases h
    · exact ih _ st h0 h
    · cases h
      exact h0

/-- The cells that `spline` writes, and those it leaves alone. -/
theorem spline_some (rnd : ℚ → ℚ) (out : Nat → Nat) (o : Nat) (d : Nat → Nat) (n : Nat)
    (insize : Int) (out1 : Nat → Nat) (h : spline rnd out o d (n : Int) insize = some out1) :
    (∀ i, i < n → spline_value rnd d (n : Int) insize i = some (out1 (o + i)))
      ∧ (∀ x, x < o ∨ o + n ≤ x → out1 x = out x) := by
  unfold spline at h
  rw [Int.toNat_ofNat] at h
  generalize hN : (n : Int) = N at h ⊢
  clear hN
  induction n generalizing out1 with
  | zero =>
    simp only [List.range_zero, List.foldl_nil, Option.some.injEq] at h
    subst h
    exact ⟨fun i hi => absurd hi (Nat.not_lt_zero i), fun _ _ => rfl⟩
  | succ n ih =>
    rw [List.range_succ, List.foldl_append] at h
    simp only [List.foldl_cons, List.foldl_nil] at h
    cases hm : (List.range n).foldl (fun (acc : Option (Nat → Nat)) i =>
        match acc, spline_value rnd d N insize i with
        | some m, some v => some (Function.update m (o + i) v)
        | _, _ => none) (some out) with
    | none => rw [hm] at h; simp at h
    | some m =>
      cases hv : spline_value rnd d N insize n with
      | none => rw [hm, hv] at h; simp at h
      | some v =>
        rw [hm, hv] at h
        simp only [Option.some.injEq] at h
        subst h
        obtain ⟨ih1, ih2⟩ := ih m hm
        constructor
        · intro i hi
          by_cases hin : i = n
          · subst hin
            simp [hv]
          · have : i < n := by omega
            rw [ih1 i this]
            have hne : o + i ≠ o + n := by omega
            simp [Function.update_apply, hne]
        · intro x hx
          have hne : x ≠ o + n := by omega
          rw [Function.update_apply, if_neg hne]
          exact ih2 x (by omega)

theorem scanInv_init (out : Nat → Nat) : ScanInv cfg inp len raster ⟨0, 0, 0, out, []⟩ := by
  refine ⟨by simp, ?_, ?_⟩
  · intro w hw
    simp at hw
  · intro j w hw
    simp at hw

theorem scanInv_step (min_pos : Nat) (st st1 : ScanState) (hinv : ScanInv cfg inp len raster st)
    (h : on_edge cfg inp len raster min_pos st = Outcome.ok st1) :
    ScanInv cfg inp len raster st1 := by
  obtain ⟨i1, i2, i3⟩ := hinv
  rcases on_edge_ok cfg inp len raster h with ⟨e1, e2, e3⟩ | ⟨out, hs, hd, ht, e1, e2, e3⟩
  · unfold ScanInv
    rw [e1, e2, e3]
    exact ⟨i1, i2, i3⟩
  · obtain ⟨s1, s2⟩ := spline_some dbl st.out st.out_pos _ raster _ out hs
    unfold ScanInv
    rw [e1, e2, e3]
    refine ⟨?_, ?_, ?_⟩
    · rw [i1, List.length_append, List.length_singleton]
      ring
    · intro w hw
      rcases List.mem_append.mp hw with hw | hw
      · exact i2 w hw
      · rw [List.mem_singleton] at hw
        subst hw
        refine ⟨hd, ?_⟩
        intro hb
        apply ht
        unfold before_tail
        have : (min_pos : Int) = (st.last_pos : Int) + ((min_pos : Int) - (st.last_pos : Int)) := by
          ring
        rw [this]
        exact hb
    · intro j w hw i hi
      by_cases hj : j < st.emitted.length
      · rw [List.getElem?_append_left hj] at hw
        rw [i3 j w hw i hi]
        congr 1
        symm
        apply s2
        left
        rw [i1]
        calc j * raster + i < j * raster + raster := by omega
          _ = raster * (j + 1) := by ring
          _ ≤ raster * st.emitted.length := Nat.mul_le_mul_left _ hj
      · have hj' : st.emitted.length ≤ j := by omega
        rw [List.getElem?_append_right hj'] at hw
        have hj0 : j - st.emitted.length = 0 := by
          by_contra hne
          have : 1 ≤ j - st.emitted.length := by omega
          rw [List.getElem?_eq_none (by simpa using this)] at hw
          cases hw
        rw [hj0] at hw
        simp only [List.getElem?_cons_zero, Option.some.injEq] at hw
        subst hw
        have hjl : j = st.emitted.length := by omega
        rw [s1 i hi, i1, hjl]
        congr 2
        ring

/-- A run of `raster` that stores into `*out_size` is a scan that ended with
`start = min_pause`. -/
theorem raster_done (junk : Nat → Int) (out : Nat → Nat) (edge : Nat → Nat) (edge_len : Nat)
    (n : Nat) (h : (Dpa.raster cfg junk out inp len raster edge edge_len).out_size = some n) :
    ∃ st, ScanInv cfg inp (len - cfg.header_size) raster st
      ∧ st.start = cfg.min_pause
      ∧ Dpa.raster cfg junk out inp len raster edge edge_len
        = RasterResult.done st.start st.out_pos st.out st.emitted
      ∧ n = st.out_pos := by
  unfold Dpa.raster at h ⊢
  by_cases hl : len < cfg.header_size + edge_len
  · rw [if_pos hl] at h
    simp [RasterResult.out_size] at h
  · rw [if_neg hl] at h ⊢
    dsimp only at h ⊢
    cases hsc : scan cfg inp (len - cfg.header_size) raster
        (comp_array cfg junk inp edge edge_len (len - cfg.header_size - edge_len))
        (len - cfg.header_size - edge_len) (len - cfg.header_size - edge_len) 0
        ⟨0, 0, 0, out, []⟩ with
    | ok st =>
      rw [hsc] at h
      dsimp only at h ⊢
      by_cases hst : st.start ≠ cfg.min_pause
      · rw [if_pos hst] at h
        simp [RasterResult.out_size] at h
      · rw [if_neg hst] at h ⊢
        simp only [RasterResult.out_size, Option.some.injEq] at h
        refine ⟨st, ?_, not_not.mp hst, rfl, h.symm⟩
        exact scan_invariant cfg inp (len - cfg.header_size) raster _ _
          (ScanInv cfg inp (len - cfg.header_size) raster)
          (fun mp s s1 hs hoe => scanInv_step cfg inp _ raster mp s s1 hs hoe)
          _ 0 _ st (scanInv_init cfg inp _ raster out) hsc
    | abort => rw [hsc] at h; simp [RasterResult.out_size] at h
    | undefined => rw [hsc] at h; simp [RasterResult.out_size] at h
    | timeout => rw [hsc] at h; simp [RasterResult.out_size] at h

end Raster

/-- With `len1 - edge_len` turns the scan of `raster` always comes to an end. -/
theorem raster_no_timeout (cfg : RasterConfig) (junk : Nat → Int) (out inp : Nat → Nat)
    (len raster : Nat) (edge : Nat → Nat) (edge_len : Nat) :
    Dpa.raster cfg junk out inp len raster edge edge_len ≠ RasterResult.timeout := by
  unfold Dpa.raster
  split_ifs
  · simp
  · dsimp only
    cases hsc : scan cfg inp (len - cfg.header_size) raster
        (comp_array cfg junk inp edge edge_len (len - cfg.header_size - edge_len))
        (len - cfg.header_size - edge_len) (len - cfg.header_size - edge_len) 0
        ⟨0, 0, 0, out, []⟩ with
    | ok st =>
      dsimp only
      split_ifs <;> simp
    | abort => simp
    | undefined => simp
    | timeout => exact absurd hsc (scan_no_timeout cfg inp _ raster _ _ _ 0 _ (by omega))

/-- An edge in the operation region, before the tail and out of tolerance, stops the run
in an assertion. -/
theorem on_edge_abort (cfg : RasterConfig) (inp : Nat → Nat) (len raster min_pos : Nat)
    (st : ScanState) (h0 : 0 < st.last_pos) (hr : raster ≠ 0) (hp : cfg.min_pause ≤ st.start)
    (hd : (min_pos : Int) - (st.last_pos : Int) < Int.tdiv cfg.pause_trigger 2)
    (hb : before_tail len raster min_pos)
    (ht : ¬ in_tolerance raster ((min_pos : Int) - (st.last_pos : Int))) :
    on_edge cfg inp len raster min_pos st = Outcome.abort := by
  unfold on_edge write_window
  rw [if_pos h0]
  dsimp only
  rw [if_pos ⟨hr, hp, hd⟩, if_pos ⟨hb, ht⟩]

/-! ## The tolerance of `raster` -/

/-- A distance outside `[0.9 * (R-5), 1.1 * R]` fails one of the two assertions. -/
theorem not_in_tolerance {R : Nat} (hR : R < 2 ^ 31) {d : Int}
    (h : (d : ℚ) < (9 / 10 : ℚ) * ((R : ℚ) - 5) ∨ (11 / 10 : ℚ) * (R : ℚ) < (d : ℚ)) :
    ¬ in_tolerance R d := by
  obtain ⟨c11, c09⟩ := dbl_literals
  have hRq : (R : ℚ) < 2 ^ 31 := by exact_mod_cast hR
  have hR0 : (0 : ℚ) ≤ (R : ℚ) := by positivity
  unfold in_tolerance
  rw [c11, c09]
  rintro ⟨t1, t2⟩
  rcases h with h | h
  · -- below: `max d (-2^53)` is a barrier under the product `0.9 * (R-5)`
    have hd10 : 10 * d < 9 * ((R : Int) - 5) := by
      have : ((10 * d : Int) : ℚ) < ((9 * ((R : Int) - 5) : Int) : ℚ) := by
        push_cast
        linarith
      exact_mod_cast this
    have hd10' : 10 * d + 1 ≤ 9 * ((R : Int) - 5) := by omega
    have hd10q : (10 : ℚ) * (d : ℚ) + 1 ≤ 9 * ((R : ℚ) - 5) := by exact_mod_cast hd10'
    have hb : |max d (-(2 ^ 53))| ≤ 2 ^ 53 := by
      rw [abs_le]
      constructor
      · exact le_max_right _ _
      · apply max_le
        · omega
        · norm_num
    have hx : ((max d (-(2 ^ 53)) : Int) : ℚ)
        ≤ 8106479329266893 / 9007199254740992 * ((((R : Int) - 5 : Int)) : ℚ) := by
      push_cast
      apply max_le
      · by_cases h5 : (5 : ℚ) ≤ (R : ℚ)
        · nlinarith
        · push_neg at h5
          nlinarith
      · nlinarith
    have := le_dbl_of_int_le hb hx
    have h3 : (d : ℚ) ≤ ((max d (-(2 ^ 53)) : Int) : ℚ) := by exact_mod_cast le_max_left _ _
    exact lt_irrefl _ (lt_of_le_of_lt (h3.trans this) t2)
  · have hd10 : 11 * (R : Int) < 10 * d := by
      have : ((11 * (R : Int) : Int) : ℚ) < ((10 * d : Int) : ℚ) := by
        push_cast
        linarith
      exact_mod_cast this
    have hd10' : 11 * (R : Int) + 1 ≤ 10 * d := by omega
    have hd10q : (11 : ℚ) * (R : ℚ) + 1 ≤ 10 * (d : ℚ) := by exact_mod_cast hd10'
    have hb : |min d (2 ^ 53)| ≤ 2 ^ 53 := by
      rw [abs_le]
      constructor
      · apply le_min
        · omega
        · norm_num
      · exact min_le_right _ _
    have hx : 4953959590107546 / 4503599627370496 * (R : ℚ)
        ≤ ((min d (2 ^ 53) : Int) : ℚ) := by
      push_cast
      apply le_min
      · nlinarith
      · nlinarith
    have := dbl_le_of_le_int hb hx
    have h3 : ((min d (2 ^ 53) : Int) : ℚ) ≤ (d : ℚ) := by exact_mod_cast min_le_left _ _
    exact lt_irrefl _ (lt_of_lt_of_le t1 (this.trans h3))

/-- A distance that passes the two assertions lies in `[0.9 * (R-5), 1.1 * R]`. -/
theorem in_tolerance_bounds {R : Nat} (hR : R < 2 ^ 31) {d : Int} (h : in_tolerance R d) :
    (9 / 10 : ℚ) * ((R : ℚ) - 5) ≤ (d : ℚ) ∧ (d : ℚ) ≤ (11 / 10 : ℚ) * (R : ℚ) := by
  constructor
  · by_contra hc
    exact not_in_tolerance hR (Or.inl (not_le.mp hc)) h
  · by_contra hc
    exact not_in_tolerance hR (Or.inr (not_le.mp hc)) h

/-- The tolerance as the program evaluates it: for `R = 50` the product `1.1 * 50` is the
`double` `55.00000000000001`, and the distance 55 passes the assertion `d < 1.1 * R`
although `55 < 1.1 * 50` is false of the real numbers. -/
theorem in_tolerance_50_55 :
    in_tolerance 50 55 ∧ ¬ ((55 : ℚ) < 11 / 10 * 50)
      ∧ dbl (dbl (11 / 10) * ((50 : Nat) : ℚ)) = 55 + 1 / 2 ^ 47 := by
  refine ⟨⟨by decide!, by decide!⟩, by norm_num, by decide!⟩

section Turns

variable (cfg : RasterConfig) (inp : Nat → Nat) (len raster : Nat) (comp_vals : Nat → Int)
  (bound : Nat)

/-- After `k` turns the scan goes on as a scan from the turn it has come to. -/
theorem scan_turns_scan (k fuel cnt0 : Nat) (st0 : ScanState) (cnt : Nat) (st : ScanState)
    (h : scan_turns cfg inp len raster comp_vals bound k cnt0 st0 = some (cnt, st)) :
    scan cfg inp len raster comp_vals bound (k + fuel) cnt0 st0
      = scan cfg inp len raster comp_vals bound fuel cnt st := by
  induction k generalizing cnt0 st0 with
  | zero =>
    simp only [scan_turns, Option.some.injEq, Prod.mk.injEq] at h
    obtain ⟨h1, h2⟩ := h
    subst h1 h2
    rw [Nat.zero_add]
  | succ k ih =>
    rw [show k + 1 + fuel = (k + fuel) + 1 by omega, scan_succ]
    unfold scan_turns at h
    by_cases h1 : cnt0 < bound
    · rw [if_pos h1] at h ⊢
      by_cases h2 : comp_vals cnt0 < cfg.trigger
      · rw [if_pos h2] at h ⊢
        cases hoe : on_edge cfg inp len raster (refine_edge comp_vals raster cnt0).2 st0 with
        | ok a =>
          rw [hoe] at h
          exact ih _ a h
        | abort => rw [hoe] at h; cases h
        | undefined => rw [hoe] at h; cases h
        | timeout => rw [hoe] at h; cases h
      · rw [if_neg h2] at h ⊢
        exact ih _ st0 h
    · rw [if_neg h1] at h
      cases h

/-- Each turn advances the position. -/
theorem scan_turns_le (k cnt0 : Nat) (st0 : ScanState) (cnt : Nat) (st : ScanState)
    (h : scan_turns cfg inp len raster comp_vals bound k cnt0 st0 = some (cnt, st)) :
    cnt0 + k ≤ cnt := by
  induction k generalizing cnt0 st0 with
  | zero =>
    simp only [scan_turns, Option.some.injEq, Prod.mk.injEq] at h
    omega
  | succ k ih =>
    unfold scan_turns at h
    by_cases h1 : cnt0 < bound
    · rw [if_pos h1] at h
      by_cases h2 : comp_vals cnt0 < cfg.trigger
      · rw [if_pos h2] at h
        cases hoe : on_edge cfg inp len raster (refine_edge comp_vals raster cnt0).2 st0 with
        | ok a =>
          rw [hoe] at h
          have := ih _ a h
          omega
        | abort => rw [hoe] at h; cases h
        | undefined => rw [hoe] at h; cases h
        | timeout => rw [hoe] at h; cases h
      · rw [if_neg h2] at h
        have := ih _ st0 h
        omega
    · rw [if_neg h1] at h
      cases h

/-- A turn of the scan that fails an assertion ends the scan in that failure. -/
theorem scan_abort_of_turn (k cnt : Nat) (st0 st : ScanState)
    (h : scan_turns cfg inp len raster comp_vals bound k 0 st0 = some (cnt, st))
    (hc : cnt < bound) (ht : comp_vals cnt < cfg.trigger)
    (ha : on_edge cfg inp len raster (refine_edge comp_vals raster cnt).2 st = Outcome.abort) :
    scan cfg inp len raster comp_vals bound bound 0 st0 = Outcome.abort := by
  have hk := scan_turns_le cfg inp len raster comp_vals bound k 0 st0 cnt st h
  obtain ⟨f, hf⟩ : ∃ f, bound = k + (f + 1) := ⟨bound - k - 1, by omega⟩
  have e := scan_turns_scan cfg inp len raster comp_vals bound k (f + 1) 0 st0 cnt st h
  rw [← hf] at e
  rw [e, scan_succ, if_pos hc, if_pos ht, ha]

end Turns

/-! ## Claims on `raster` -/

/-- C8, as the code has it, for a raster width `R` (an `int`).  In a run of `raster` that
returns without failure, every window written was closer than `pause_trigger / 2`
(integer division) to the previous edge, and every window whose closing edge `p`
satisfies `p < len - 2*R` (in `size_t` arithmetic, `len` counted after the header) passed
the two assertions and has `0.9 * (R-5) ≤ d ≤ 1.1 * R`.  And when the scan of a run comes,
after `k` turns, to an edge in the operation region (`start ≥ min_pause`, distance below
`pause_trigger / 2`) whose refined position lies before that tail and whose distance is
outside `[0.9 * (R-5), 1.1 * R]`, the run fails in an assertion: `raster` does not return.
Nothing is checked for an edge in the tail. -/
theorem C8_checked_windows_in_tolerance (cfg : RasterConfig) (junk : Nat → Int)
    (out inp : Nat → Nat) (len R : Nat) (edge : Nat → Nat) (edge_len : Nat)
    (hR : R < 2 ^ 31) :
    (∀ n, (raster cfg junk out inp len R edge edge_len).out_size = some n →
      ∀ w, w ∈ (raster cfg junk out inp len R edge edge_len).windows →
        w.2 < Int.tdiv cfg.pause_trigger 2
          ∧ ((w.1 : Int) + w.2 < (((len - cfg.header_size : Nat) : Int) - 2 * (R : Int)) % 2 ^ 64 →
              in_tolerance R w.2
                ∧ (9 / 10 : ℚ) * ((R : ℚ) - 5) ≤ (w.2 : ℚ)
                ∧ (w.2 : ℚ) ≤ (11 / 10 : ℚ) * (R : ℚ)))
      ∧ (∀ (k cnt last_pos : Nat) (start : Int),
          cfg.header_size + edge_len ≤ len →
          (scan_turns cfg inp (len - cfg.header_size) R
              (comp_array cfg junk inp edge edge_len (len - cfg.header_size - edge_len))
              (len - cfg.header_size - edge_len) k 0 ⟨0, 0, 0, out, []⟩).map turn_view
            = some (cnt, last_pos, start) →
          cnt < len - cfg.header_size - edge_len →
          comp_array cfg junk inp edge edge_len (len - cfg.header_size - edge_len) cnt
            < cfg.trigger →
          0 < last_pos → R ≠ 0 → cfg.min_pause ≤ start →
          (((refine_edge (comp_array cfg junk inp edge edge_len
              (len - cfg.header_size - edge_len)) R cnt).2 : Int) - (last_pos : Int)
            < Int.tdiv cfg.pause_trigger 2) →
          before_tail (len - cfg.header_size) R (refine_edge (comp_array cfg junk inp edge
            edge_len (len - cfg.header_size - edge_len)) R cnt).2 →
          (((((refine_edge (comp_array cfg junk inp edge edge_len
                (len - cfg.header_size - edge_len)) R cnt).2 : Int) - (last_pos : Int) : Int) : ℚ)
              < (9 / 10 : ℚ) * ((R : ℚ) - 5)
            ∨ (11 / 10 : ℚ) * (R : ℚ)
              < ((((refine_edge (comp_array cfg junk inp edge edge_len
                (len - cfg.header_size - edge_len)) R cnt).2 : Int) - (last_pos : Int) : Int) : ℚ)) →
          raster cfg junk out inp len R edge edge_len = RasterResult.aborted) := by
  constructor
  · intro n h w hw
    obtain ⟨st, ⟨-, i2, -⟩, -, hres, -⟩ := raster_done cfg inp len R junk out edge edge_len n h
    rw [hres] at hw
    obtain ⟨a1, a2⟩ := i2 w hw
    refine ⟨a1, fun hb => ?_⟩
    have ht := a2 hb
    exact ⟨ht, in_tolerance_bounds hR ht⟩
  · intro k cnt last_pos start hlen hturn hc htr h0 hr hp hd hb hout
    generalize hcv : comp_array cfg junk inp edge edge_len (len - cfg.header_size - edge_len)
      = comp_vals at hturn htr hd hb hout
    cases hst : scan_turns cfg inp (len - cfg.header_size) R comp_vals
        (len - cfg.header_size - edge_len) k 0 ⟨0, 0, 0, out, []⟩ with
    | none => rw [hst] at hturn; cases hturn
    | some t =>
      obtain ⟨c, st⟩ := t
      rw [hst] at hturn
      simp only [Option.map_some', turn_view, Option.some.injEq, Prod.mk.injEq] at hturn
      obtain ⟨e1, e2, e3⟩ := hturn
      subst e1
      have ha : on_edge cfg inp (len - cfg.header_size) R (refine_edge comp_vals R c).2 st
          = Outcome.abort := by
        apply on_edge_abort cfg inp _ R _ st (by omega) hr (by rw [e3]; exact hp)
          (by rw [e2]; exact hd) hb
        rw [e2]
        exact not_in_tolerance hR hout
      have hs := scan_abort_of_turn cfg inp (len - cfg.header_size) R comp_vals
        (len - cfg.header_size - edge_len) k c _ st hst hc htr ha
      unfold raster
      rw [if_neg (by omega)]
      simp only [hcv, hs]

theorem C8_checked_windows_in_tolerance_witness :
    (4 < 2 ^ 31
      ∧ (raster cfgA (fun _ => 0) (fun _ => 0) inB 40 4 edgeA 1).out_size = some 4
      ∧ (raster cfgA (fun _ => 0) (fun _ => 0) inB 40 4 edgeA 1).windows = [(23, 4)]
      ∧ ∀ w, w ∈ (raster cfgA (fun _ => 0) (fun _ => 0) inB 40 4 edgeA 1).windows →
        w.2 < Int.tdiv cfgA.pause_trigger 2
          ∧ ((w.1 : Int) + w.2 < (((40 - cfgA.header_size : Nat) : Int) - 2 * ((4 : Nat) : Int)) % 2 ^ 64 →
              in_tolerance 4 w.2
                ∧ (9 / 10 : ℚ) * (((4 : Nat) : ℚ) - 5) ≤ (w.2 : ℚ)
                ∧ (w.2 : ℚ) ≤ (11 / 10 : ℚ) * ((4 : Nat) : ℚ)))
      ∧ ((scan_turns cfgA inA (60 - cfgA.header_size) 4
              (comp_array cfgA (fun _ => 0) inA edgeA 1 (60 - cfgA.header_size - 1))
              (60 - cfgA.header_size - 1) 24 0 ⟨0, 0, 0, fun _ => 0, []⟩).map turn_view
            = some (30, 23, 1)
        ∧ raster cfgA (fun _ => 0) (fun _ => 0) inA 60 4 edgeA 1 = RasterResult.aborted) :=
  ⟨⟨by decide, by decide!, by decide!,
    (C8_checked_windows_in_tolerance cfgA (fun _ => 0) (fun _ => 0) inB 40 4 edgeA 1
      (by decide)).1 4 (by decide!)⟩,
   by decide!,
   (C8_checked_windows_in_tolerance cfgA (fun _ => 0) (fun _ => 0) inA 60 4 edgeA 1
      (by decide)).2 24 30 23 1 (by decide) (by decide!) (by decide) (by decide!) (by decide)
      (by decide) (by decide) (by decide!) (by decide!) (Or.inr (by decide!))⟩

/-- C8 fails as stated: with `R = 4` the run on `inA` returns without failure after
writing the window that starts at 23 and is 7 samples long, and `7 > 1.1 * 4`; its
closing edge, at 30, is not before `36 - 2*4`. -/
theorem C8_counterexample :
    (raster cfgA (fun _ => 0) (fun _ => 0) inA 36 4 edgeA 1).windows = [(23, 7)]
      ∧ (raster cfgA (fun _ => 0) (fun _ => 0) inA 36 4 edgeA 1).retval = some cfgA.min_pause
      ∧ (raster cfgA (fun _ => 0) (fun _ => 0) inA 36 4 edgeA 1).out_size = some 4
      ∧ (7 : Int) < Int.tdiv cfgA.pause_trigger 2
      ∧ ¬ ((7 : ℚ) ≤ (11 / 10 : ℚ) * 4) := by
  refine ⟨by decide!, by decide!, by decide!, by decide, by norm_num⟩

/-- C9 (the code does not do this): with `min_pause = 1` the run on an acquisition without
any edge counts no pause and fails, leaving `*out_size` unwritten, and returns 1; the run
on `inB` counts one pause and succeeds, and returns 1 as well.  The failure value 1 is
the success value. -/
theorem C9_failure_value_is_success_value :
    (raster cfgA (fun _ => 0) (fun _ => 0) inZ 36 4 edgeA 1).retval = some 1
      ∧ (raster cfgA (fun _ => 0) (fun _ => 0) inZ 36 4 edgeA 1).out_size = none
      ∧ (raster cfgA (fun _ => 0) (fun _ => 0) inB 40 4 edgeA 1).retval = some 1
      ∧ (raster cfgA (fun _ => 0) (fun _ => 0) inB 40 4 edgeA 1).out_size = some 4
      ∧ cfgA.min_pause = 1 :=
  ⟨by decide!, by decide!, by decide!, by decide!, rfl⟩

/-- C10: in every run of `raster` that returns without failure, `*out_size` is `R` times
the number of windows written, and the `j`-th window written, `(last_p, d)`, occupies
`out[j*R .. (j+1)*R)`: cell `j*R + i` holds the value that `spline` computes, in `double`
arithmetic, for output index `i` from the `d` input samples starting at
`header_size + last_p`, resampled to length `R`.  `raster_write` returns `R` whatever the
distance is. -/
theorem C10_windows_fill_raster_samples (cfg : RasterConfig) (junk : Nat → Int)
    (out inp : Nat → Nat) (len R : Nat) (edge : Nat → Nat) (edge_len n : Nat)
    (h : (raster cfg junk out inp len R edge edge_len).out_size = some n) :
    n = R * (raster cfg junk out inp len R edge edge_len).windows.length
      ∧ (∀ j w, (raster cfg junk out inp len R edge edge_len).windows[j]? = some w →
          ∀ i, i < R →
            spline_value dbl (fun a => inp (cfg.header_size + w.1 + a)) R w.2 i
              = some ((raster cfg junk out inp len R edge edge_len).out_mem (j * R + i)))
      ∧ (∀ (o : Nat → Nat) (p : Nat) (d : Nat → Nat) (dlen : Int),
          (raster_write o p d dlen ((R : Int) - dlen)).2 = R) := by
  obtain ⟨st, ⟨i1, -, i3⟩, -, hres, hn⟩ := raster_done cfg inp len R junk out edge edge_len n h
  rw [hres]
  refine ⟨?_, ?_, ?_⟩
  · rw [hn, i1]
    rfl
  · exact i3
  · intro o p d dlen
    have hsum : dlen + ((R : Int) - dlen) = (R : Int) := by ring
    unfold raster_write
    rw [hsum, Int.toNat_ofNat]

theorem C10_windows_fill_raster_samples_witness :
    (raster cfgW (fun _ => 0) (fun _ => 0) inW 70 13 edgeA 1).out_size = some 13
      ∧ (raster cfgW (fun _ => 0) (fun _ => 0) inW 70 13 edgeA 1).windows = [(40, 11)]
      ∧ 13 = 13 * (raster cfgW (fun _ => 0) (fun _ => 0) inW 70 13 edgeA 1).windows.length
      ∧ (∀ i, i < 13 →
          spline_value dbl (fun a => inW (cfgW.header_size + 40 + a)) ((13 : Nat) : Int) 11 i
            = some ((raster cfgW (fun _ => 0) (fun _ => 0) inW 70 13 edgeA 1).out_mem
                (0 * 13 + i)))
      ∧ (List.range 13).map (raster cfgW (fun _ => 0) (fun _ => 0) inW 70 13 edgeA 1).out_mem
          = [1, 0, 0, 0, 0, 0, 0, 167, 86, 15, 0, 0, 0]
      ∧ spline_value exact (fun a => inW (40 + a)) 13 11 8 = some 87 :=
  ⟨by decide!, by decide!,
   (C10_windows_fill_raster_samples cfgW (fun _ => 0) (fun _ => 0) inW 70 13 edgeA 1 13
      (by decide!)).1,
   (C10_windows_fill_raster_samples cfgW (fun _ => 0) (fun _ => 0) inW 70 13 edgeA 1 13
      (by decide!)).2.1 0 (40, 11) (by decide!),
   by decide!, by decide!⟩

/-! ## Claims on `raster`, `spline` and `compare` -/

/-- C11: for every input with `len < header_size + edge_len`, `raster` returns `-1` at
once: nothing is stored into `*out_size` and no window is written to `out`. -/
theorem C11_short_input_rejected (cfg : RasterConfig) (junk : Nat → Int) (out inp : Nat → Nat)
    (len R : Nat) (edge : Nat → Nat) (edge_len : Nat)
    (h : len < cfg.header_size + edge_len) :
    raster cfg junk out inp len R edge edge_len = RasterResult.too_short
      ∧ (raster cfg junk out inp len R edge edge_len).retval = some (-1)
      ∧ (raster cfg junk out inp len R edge edge_len).out_size = none
      ∧ (raster cfg junk out inp len R edge edge_len).windows = [] := by
  have e : raster cfg junk out inp len R edge edge_len = RasterResult.too_short := by
    unfold raster
    rw [if_pos h]
  rw [e]
  exact ⟨rfl, rfl, rfl, rfl⟩

theorem C11_short_input_rejected_witness :
    100 < raster_config.header_size + 16
      ∧ (raster raster_config (fun _ => 0) (fun _ => 0) inZ 100 1000 edgeA 16).retval
        = some (-1) :=
  ⟨by decide,
   (C11_short_input_rejected raster_config (fun _ => 0) (fun _ => 0) inZ 100 1000 edgeA 16
      (by decide)).2.1⟩

/-- One turn of the loop of `compare`. -/
theorem compare_succ (a b : Nat → Nat) (n : Nat) :
    compare a b (n + 1)
      = ⌊flt ((compare a b n : ℚ)
          + flt (flt (((a n : Int) - (b n : Int) : Int) : ℚ)
              * flt (((a n : Int) - (b n : Int) : Int) : ℚ)))⌋ := by
  unfold compare
  rw [List.range_succ, List.foldl_append]
  rfl

/-- The square of the difference of two bytes is formed without rounding. -/
theorem compare_term {x y : Nat} (hx : x < 256) (hy : y < 256) :
    flt (flt (((x : Int) - (y : Int) : Int) : ℚ) * flt (((x : Int) - (y : Int) : Int) : ℚ))
      = ((((x : Int) - (y : Int)) ^ 2 : Int) : ℚ) := by
  have h1 : |(x : Int) - (y : Int)| ≤ 2 ^ 24 := by
    rw [abs_le]
    constructor <;> omega
  rw [flt_intCast h1, ← Int.cast_mul, ← pow_two]
  apply flt_intCast
  rw [abs_of_nonneg (sq_nonneg _)]
  have h2 : |(x : Int) - (y : Int)| ≤ 255 := by
    rw [abs_le]
    constructor <;> omega
  calc ((x : Int) - (y : Int)) ^ 2 = |(x : Int) - (y : Int)| ^ 2 := (sq_abs _).symm
    _ ≤ 255 ^ 2 := pow_le_pow_left₀ (abs_nonneg _) h2 2
    _ ≤ 2 ^ 24 := by norm_num

theorem compare_nonneg (a b : Nat → Nat) (n : Nat) : 0 ≤ compare a b n := by
  cases n with
  | zero => simp [compare]
  | succ n =>
    rw [compare_succ]
    apply Int.floor_nonneg.mpr
    apply flt_nonneg
    have h1 : (0 : ℚ) ≤ (compare a b n : ℚ) := by
      induction n with
      | zero => simp [compare]
      | succ n ih =>
        rw [compare_succ]
        have : (0 : Int) ≤ ⌊flt ((compare a b n : ℚ)
            + flt (flt (((a n : Int) - (b n : Int) : Int) : ℚ)
                * flt (((a n : Int) - (b n : Int) : Int) : ℚ)))⌋ := by
          apply Int.floor_nonneg.mpr
          apply flt_nonneg
          exact add_nonneg ih (flt_nonneg (mul_self_nonneg _))
        exact_mod_cast this
    exact add_nonneg h1 (flt_nonneg (mul_self_nonneg _))

/-- While the sum of the squares fits the 24 bits of a `float`, `compare` is that sum. -/
theorem compare_exact (a b : Nat → Nat) (n : Nat)
    (hb : ∀ i, i < n → a i < 256 ∧ b i < 256)
    (hs : ∑ i in Finset.range n, ((a i : Int) - (b i : Int)) ^ 2 ≤ 2 ^ 24) :
    compare a b n = ∑ i in Finset.range n, ((a i : Int) - (b i : Int)) ^ 2 := by
  induction n with
  | zero => simp [compare]
  | succ n ih =>
    rw [Finset.sum_range_succ] at hs ⊢
    have h0 : 0 ≤ ∑ i in Finset.range n, ((a i : Int) - (b i : Int)) ^ 2 :=
      Finset.sum_nonneg (fun i _ => sq_nonneg _)
    have ht : 0 ≤ ((a n : Int) - (b n : Int)) ^ 2 := sq_nonneg _
    rw [compare_succ, ih (fun i hi => hb i (by omega)) (by omega),
      compare_term (hb n (by omega)).1 (hb n (by omega)).2, ← Int.cast_add,
      flt_intCast (by rw [abs_of_nonneg (by omega)]; exact hs), Int.floor_intCast]

theorem compare_symm (a b : Nat → Nat) (n : Nat) : compare a b n = compare b a n := by
  induction n with
  | zero => simp [compare]
  | succ n ih =>
    rw [compare_succ, compare_succ, ih]
    have : (((b n : Int) - (a n : Int) : Int) : ℚ) = -(((a n : Int) - (b n : Int) : Int) : ℚ) := by
      push_cast
      ring
    rw [this, flt_neg, neg_mul_neg]

/-- Two windows that differ give a positive value. -/
theorem compare_pos (a b : Nat → Nat) (n : Nat) (hb : ∀ i, i < n → a i < 256 ∧ b i < 256)
    (h : ∃ i, i < n ∧ a i ≠ b i) : 1 ≤ compare a b n := by
  induction n with
  | zero =>
    obtain ⟨i, hi, -⟩ := h
    omega
  | succ n ih =>
    rw [compare_succ, compare_term (hb n (by omega)).1 (hb n (by omega)).2, ← Int.cast_add]
    apply Int.le_floor.mpr
    have key : (1 : Int) ≤ compare a b n + ((a n : Int) - (b n : Int)) ^ 2 := by
      have h0 := compare_nonneg a b n
      have ht : 0 ≤ ((a n : Int) - (b n : Int)) ^ 2 := sq_nonneg _
      by_cases hn : a n = b n
      · have : 1 ≤ compare a b n := by
          apply ih (fun i hi => hb i (by omega))
          obtain ⟨i, hi, hne⟩ := h
          refine ⟨i, ?_, hne⟩
          rcases Nat.lt_or_ge i n with h1 | h1
          · exact h1
          · have : i = n := by omega
            subst this
            exact absurd hn hne
        omega
      · have hne : (a n : Int) - (b n : Int) ≠ 0 := by omega
        have : 0 < ((a n : Int) - (b n : Int)) ^ 2 := by positivity
        omega
    apply le_flt_of_int_le (by norm_num)
    exact_mod_cast key

theorem compare_zero_of_eq (a b : Nat → Nat) (n : Nat) (h : ∀ i, i < n → a i = b i) :
    compare a b n = 0 := by
  induction n with
  | zero => simp [compare]
  | succ n ih =>
    rw [compare_succ, ih (fun i hi => h i (by omega)), h n (by omega)]
    simp [flt_zero]

/-- C14, as the code has it: for two buffers of bytes, `compare(a, b, len)` is the sum
over `i < len` of `(a[i] - b[i])^2`, each difference a signed number, as long as that sum
does not exceed `2^24`, which holds for every `len ≤ 258`; a larger sum is rounded to a
`float` at each turn.  For every `len` the value is symmetric in `a` and `b`, not
negative, and zero exactly when the two windows are equal. -/
theorem C14_compare_squared_distance (a b : Nat → Nat) (len : Nat)
    (hb : ∀ i, i < len → a i < 256 ∧ b i < 256) :
    (∑ i in Finset.range len, ((a i : Int) - (b i : Int)) ^ 2 ≤ 2 ^ 24 →
        compare a b len = ∑ i in Finset.range len, ((a i : Int) - (b i : Int)) ^ 2)
      ∧ (len ≤ 258 →
        compare a b len = ∑ i in Finset.range len, ((a i : Int) - (b i : Int)) ^ 2)
      ∧ compare a b len = compare b a len
      ∧ 0 ≤ compare a b len
      ∧ (compare a b len = 0 ↔ ∀ i, i < len → a i = b i) := by
  refine ⟨compare_exact a b len hb, ?_, compare_symm a b len, compare_nonneg a b len, ?_⟩
  · intro hl
    apply compare_exact a b len hb
    have hterm : ∀ i, i ∈ Finset.range len → ((a i : Int) - (b i : Int)) ^ 2 ≤ 65025 := by
      intro i hi
      obtain ⟨h1, h2⟩ := hb i (Finset.mem_range.mp hi)
      have h3 : |(a i : Int) - (b i : Int)| ≤ 255 := by
        rw [abs_le]
        constructor <;> omega
      calc ((a i : Int) - (b i : Int)) ^ 2 = |(a i : Int) - (b i : Int)| ^ 2 := (sq_abs _).symm
        _ ≤ 255 ^ 2 := pow_le_pow_left₀ (abs_nonneg _) h3 2
        _ = 65025 := by norm_num
    calc ∑ i in Finset.range len, ((a i : Int) - (b i : Int)) ^ 2
        ≤ ∑ _i in Finset.range len, (65025 : Int) := Finset.sum_le_sum hterm
      _ = (len : Int) * 65025 := by simp
      _ ≤ 2 ^ 24 := by
          have : (len : Int) ≤ 258 := by exact_mod_cast hl
          omega
  · constructor
    · intro h i hi
      by_contra hne
      have := compare_pos a b len hb ⟨i, hi, hne⟩
      omega
    · exact compare_zero_of_eq a b len


theorem C14_compare_squared_distance_witness :
    (∀ i, i < 5 → s4_in i < 256 ∧ inZ i < 256)
      ∧ 5 ≤ 258
      ∧ compare s4_in inZ 5 = ∑ i in Finset.range 5, ((s4_in i : Int) - (inZ i : Int)) ^ 2
      ∧ ∑ i in Finset.range 5, ((s4_in i : Int) - (inZ i : Int)) ^ 2 = 122369 :=
  ⟨by decide, by decide,
   (C14_compare_squared_distance s4_in inZ 5 (by decide)).2.1 (by decide), by decide⟩

/-- C14 fails as stated: for 259 samples of 255 against 259 samples of 0 the sum of the
squares is `259 * 65025 = 16841475`, which is not a `float`; `compare` returns
`16841476`. -/
theorem C14_counterexample :
    compare (fun _ => 255) (fun _ => 0) 259 = 16841476
      ∧ ∑ i in Finset.range 259, (((fun _ => 255 : Nat → Nat) i : Int)
          - ((fun _ => 0 : Nat → Nat) i : Int)) ^ 2 = 16841475 := by
  constructor
  · rw [compare_succ, compare_exact (fun _ => 255) (fun _ => 0) 258
        (fun i _ => ⟨by norm_num, by norm_num⟩) (by simp),
      compare_term (by decide) (by decide), ← Int.cast_add]
    have : (∑ i in Finset.range 258, (((255 : Nat) : Int) - ((0 : Nat) : Int)) ^ 2)
        + (((255 : Nat) : Int) - ((0 : Nat) : Int)) ^ 2 = 16841475 := by
      simp
    rw [this]
    decide!
  · simp


/-! ## `spline` -/

theorem truncq_natCast (k : Nat) : truncq (k : ℚ) = (k : Int) := by
  unfold truncq
  rw [if_pos (by positivity)]
  exact Int.floor_natCast k

theorem toU8q_natCast {k : Nat} (h : k < 256) : toU8q (k : ℚ) = some k := by
  unfold toU8q
  have h1 : (-1 : ℚ) < (k : ℚ) := by
    have : (0 : ℚ) ≤ (k : ℚ) := by positivity
    linarith
  have h2 : (k : ℚ) < 256 := by exact_mod_cast h
  rw [if_pos ⟨h1, h2⟩, Int.floor_natCast, Int.toNat_ofNat]

/-- Where the position `inpos` is the integer `k`, `spline` stores `in[k]`. -/
theorem spline_value_at_integer (inp : Nat → Nat) {N : Nat} (hN : 2 ≤ N) (M : Int) (i k : Nat)
    (hk : (i : ℚ) * (((M - 1 : Int) : ℚ) / (((N : Int) - 1 : Int) : ℚ)) = (k : ℚ))
    (hb : inp k < 256) :
    spline_value exact inp (N : Int) M i = some (inp k) := by
  have h1 : ¬ ((N : Int) - 1 = 0) := by omega
  unfold spline_value
  rw [if_neg h1]
  simp only [exact, hk, truncq_natCast]
  rw [if_neg (by omega)]
  simp only [Int.toNat_ofNat, Int.cast_natCast, sub_self, mul_zero, add_zero]
  rw [show (1 : ℚ) - (k : ℚ) + (k : ℚ) = 1 by ring, mul_one]
  exact toU8q_natCast hb

/-- Every cell that `spline` computes from bytes is a byte: with `outsize ≥ 2` and
`insize ≥ 1` the conversion to `data_out_t` is defined. -/
theorem spline_value_defined (inp : Nat → Nat) {N M : Nat} (hN : 2 ≤ N) (hM : 1 ≤ M)
    (hb : ∀ j, j < M → inp j < 256) (i : Nat) (hi : i < N) :
    ∃ v, spline_value exact inp (N : Int) (M : Int) i = some v := by
  have h1 : ¬ ((N : Int) - 1 = 0) := by omega
  have hq : (0 : ℚ) < (((N : Int) - 1 : Int) : ℚ) := by
    have : (0 : Int) < (N : Int) - 1 := by omega
    exact_mod_cast this
  have hm : (0 : ℚ) ≤ (((M : Int) - 1 : Int) : ℚ) := by
    have : (0 : Int) ≤ (M : Int) - 1 := by omega
    exact_mod_cast this
  have hs : (0 : ℚ) ≤ (((M : Int) - 1 : Int) : ℚ) / (((N : Int) - 1 : Int) : ℚ) :=
    div_nonneg hm hq.le
  have hpos : (0 : ℚ) ≤ (i : ℚ) * ((((M : Int) - 1 : Int) : ℚ) / (((N : Int) - 1 : Int) : ℚ)) :=
    mul_nonneg (by positivity) hs
  have hle : (i : ℚ) * ((((M : Int) - 1 : Int) : ℚ) / (((N : Int) - 1 : Int) : ℚ))
      ≤ (((M : Int) - 1 : Int) : ℚ) := by
    have hi' : (i : ℚ) ≤ (((N : Int) - 1 : Int) : ℚ) := by
      have : (i : Int) ≤ (N : Int) - 1 := by omega
      exact_mod_cast this
    calc (i : ℚ) * ((((M : Int) - 1 : Int) : ℚ) / (((N : Int) - 1 : Int) : ℚ))
        ≤ (((N : Int) - 1 : Int) : ℚ)
          * ((((M : Int) - 1 : Int) : ℚ) / (((N : Int) - 1 : Int) : ℚ)) :=
          mul_le_mul_of_nonneg_right hi' hs
      _ = (((M : Int) - 1 : Int) : ℚ) := by
          rw [← mul_div_assoc, mul_div_cancel_left₀ _ hq.ne']
  unfold spline_value
  rw [if_neg h1]
  simp only [exact]
  generalize hx : (i : ℚ) * ((((M : Int) - 1 : Int) : ℚ) / (((N : Int) - 1 : Int) : ℚ)) = x
    at hpos hle
  have ha : truncq x = ⌊x⌋ := by
    unfold truncq
    rw [if_pos hpos]
  rw [ha]
  have hf0 : (0 : Int) ≤ ⌊x⌋ := Int.floor_nonneg.mpr hpos
  rw [if_neg (by omega)]
  obtain ⟨a, haa⟩ := Int.eq_ofNat_of_zero_le hf0
  rw [haa]
  simp only [Int.toNat_ofNat, Int.cast_natCast]
  have hax : (a : ℚ) ≤ x := by
    have := Int.floor_le x
    rw [haa] at this
    exact_mod_cast this
  have hxa : x < (a : ℚ) + 1 := by
    have := Int.lt_floor_add_one x
    rw [haa] at this
    exact_mod_cast this
  have haM : a < M := by
    have : (a : ℚ) ≤ (((M : Int) - 1 : Int) : ℚ) := hax.trans hle
    have : (a : Int) ≤ (M : Int) - 1 := by exact_mod_cast this
    omega
  have hba : (inp a : ℚ) ≤ 255 := by
    have := hb a haM
    have : inp a ≤ 255 := by omega
    exact_mod_cast this
  have h0a : (0 : ℚ) ≤ (inp a : ℚ) := by positivity
  have h0b : (0 : ℚ) ≤ (inp (a + 1) : ℚ) := by positivity
  have hval : (0 : ℚ) ≤ (inp a : ℚ) * (1 - x + a) + (inp (a + 1) : ℚ) * (x - a)
      ∧ (inp a : ℚ) * (1 - x + a) + (inp (a + 1) : ℚ) * (x - a) ≤ 255 := by
    by_cases hfr : x = (a : ℚ)
    · rw [hfr]
      constructor
      · have : (inp a : ℚ) * (1 - (a : ℚ) + a) + (inp (a + 1) : ℚ) * ((a : ℚ) - a) = inp a := by
          ring
        rw [this]
        exact h0a
      · have : (inp a : ℚ) * (1 - (a : ℚ) + a) + (inp (a + 1) : ℚ) * ((a : ℚ) - a) = inp a := by
          ring
        rw [this]
        exact hba
    · have hlt : (a : ℚ) < x := lt_of_le_of_ne hax (Ne.symm hfr)
      have ha1 : a + 1 < M := by
        have : (a : ℚ) < (((M : Int) - 1 : Int) : ℚ) := lt_of_lt_of_le hlt hle
        have : (a : Int) < (M : Int) - 1 := by exact_mod_cast this
        omega
      have hbb : (inp (a + 1) : ℚ) ≤ 255 := by
        have := hb (a + 1) ha1
        have : inp (a + 1) ≤ 255 := by omega
        exact_mod_cast this
      constructor
      · apply add_nonneg
        · exact mul_nonneg h0a (by linarith)
        · exact mul_nonneg h0b (by linarith)
      · nlinarith
  unfold toU8q
  rw [if_pos ⟨by linarith [hval.1], by linarith [hval.2]⟩]
  exact ⟨_, rfl⟩

/-- `spline` returns when each of its cells is defined. -/
theorem spline_defined (rnd : ℚ → ℚ) (out : Nat → Nat) (o : Nat) (d : Nat → Nat) (n : Nat)
    (insize : Int) (h : ∀ i, i < n → ∃ v, spline_value rnd d (n : Int) insize i = some v) :
    ∃ out1, spline rnd out o d (n : Int) insize = some out1 := by
  unfold spline
  rw [Int.toNat_ofNat]
  generalize (n : Int) = N at h ⊢
  induction n with
  | zero => exact ⟨out, rfl⟩
  | succ n ih =>
    obtain ⟨m, hm⟩ := ih (fun i hi => h i (by omega))
    obtain ⟨v, hv⟩ := h n (by omega)
    rw [List.range_succ, List.foldl_append, hm]
    simp only [List.foldl_cons, List.foldl_nil, hv]
    exact ⟨_, rfl⟩


/-- For equal sizes the `double` computation of `spline` is exact: the scale is `1.0`, the
position is the integer `i`, and the weights are `1` and `0`. -/
theorem spline_value_dbl_same_size (inp : Nat → Nat) {n : Nat} (hn : 2 ≤ n) (hn31 : n < 2 ^ 31)
    {i : Nat} (hi : i < n) (hb : inp i < 256) :
    spline_value dbl inp (n : Int) (n : Int) i = some (inp i) := by
  have h1 : ¬ ((n : Int) - 1 = 0) := by omega
  have hq : (((n : Int) - 1 : Int) : ℚ) ≠ 0 := by exact_mod_cast h1
  have hi53 : i ≤ 2 ^ 53 := by
    have : (2 : Nat) ^ 31 ≤ 2 ^ 53 := by norm_num
    omega
  have d1 : dbl 1 = 1 := by
    have := dbl_natCast (n := 1) (by norm_num)
    simpa using this
  have di : dbl (i : ℚ) = (i : ℚ) := dbl_natCast hi53
  have dx : dbl ((inp i : ℚ)) = (inp i : ℚ) := dbl_natCast (by
    have : (256 : Nat) ≤ 2 ^ 53 := by norm_num
    omega)
  have dm : dbl (1 - (i : ℚ)) = 1 - (i : ℚ) := by
    have e : (1 : ℚ) - (i : ℚ) = (((1 : Int) - (i : Int) : Int) : ℚ) := by push_cast; ring
    rw [e]
    apply dbl_intCast
    rw [abs_le]
    have : ((2 : Int) ^ 53) = 9007199254740992 := by norm_num
    have : (i : Int) ≤ 9007199254740992 := by exact_mod_cast hi53
    constructor <;> omega
  unfold spline_value
  rw [if_neg h1]
  simp only [div_self hq, d1, mul_one, di, truncq_natCast]
  rw [if_neg (by omega)]
  simp only [Int.toNat_ofNat, Int.cast_natCast, dm, sub_add_cancel, d1, mul_one, dx, sub_self,
    dbl_zero, mul_zero, add_zero]
  exact toU8q_natCast hb

/-- C12: for every `n ≥ 2` and every input of `n` bytes, `spline(out, in, n, n)` returns
and stores `out[i] = in[i]` for every `i < n`; no other cell of `out` is written.  This
holds in exact arithmetic, and for an `int` `n` in the `double` arithmetic of the
program, where the scale is `1.0` and nothing is rounded. -/
theorem C12_spline_same_size_identity (out : Nat → Nat) (o : Nat) (inp : Nat → Nat) (n : Nat)
    (hn : 2 ≤ n) (hb : ∀ i, i < n → inp i < 256) :
    (∃ out1, spline exact out o inp (n : Int) (n : Int) = some out1
      ∧ (∀ i, i < n → out1 (o + i) = inp i)
      ∧ (∀ x, x < o ∨ o + n ≤ x → out1 x = out x))
    ∧ (n < 2 ^ 31 →
      ∃ out1, spline dbl out o inp (n : Int) (n : Int) = some out1
        ∧ (∀ i, i < n → out1 (o + i) = inp i)
        ∧ (∀ x, x < o ∨ o + n ≤ x → out1 x = out x)) := by
  constructor
  · obtain ⟨out1, h1⟩ := spline_defined exact out o inp n (n : Int)
      (fun i hi => spline_value_defined inp hn (by omega) hb i hi)
    obtain ⟨s1, s2⟩ := spline_some exact out o inp n (n : Int) out1 h1
    refine ⟨out1, h1, ?_, s2⟩
    intro i hi
    have hq : (((n : Int) - 1 : Int) : ℚ) ≠ 0 := by
      have : (n : Int) - 1 ≠ 0 := by omega
      exact_mod_cast this
    have hk : (i : ℚ) * ((((n : Int) - 1 : Int) : ℚ) / (((n : Int) - 1 : Int) : ℚ)) = (i : ℚ) := by
      rw [div_self hq, mul_one]
    have e := spline_value_at_integer inp hn (n : Int) i i hk (hb i hi)
    rw [s1 i hi] at e
    exact Option.some.inj e
  · intro hn31
    obtain ⟨out1, h1⟩ := spline_defined dbl out o inp n (n : Int)
      (fun i hi => ⟨inp i, spline_value_dbl_same_size inp hn hn31 hi (hb i hi)⟩)
    obtain ⟨s1, s2⟩ := spline_some dbl out o inp n (n : Int) out1 h1
    refine ⟨out1, h1, ?_, s2⟩
    intro i hi
    have e := spline_value_dbl_same_size inp hn hn31 hi (hb i hi)
    rw [s1 i hi] at e
    exact Option.some.inj e

theorem C12_spline_same_size_identity_witness :
    (2 ≤ 4 ∧ (∀ i, i < 4 → inA i < 256) ∧ 4 < 2 ^ 31)
      ∧ (∃ out1, spline exact (fun _ => 0) 0 inA ((4 : Nat) : Int) ((4 : Nat) : Int) = some out1
        ∧ (∀ i, i < 4 → out1 (0 + i) = inA i)
        ∧ (∀ x, x < 0 ∨ 0 + 4 ≤ x → out1 x = (fun _ => 0) x))
      ∧ (∃ out1, spline dbl (fun _ => 0) 0 inA ((4 : Nat) : Int) ((4 : Nat) : Int) = some out1
        ∧ (∀ i, i < 4 → out1 (0 + i) = inA i)
        ∧ (∀ x, x < 0 ∨ 0 + 4 ≤ x → out1 x = (fun _ => 0) x)) :=
  ⟨⟨by decide, by decide, by decide⟩,
   (C12_spline_same_size_identity (fun _ => 0) 0 inA 4 (by decide) (by decide)).1,
   (C12_spline_same_size_identity (fun _ => 0) 0 inA 4 (by decide) (by decide)).2 (by decide)⟩

/-- C13: for every `insize ≥ 2` and `outsize ≥ 2` and every input of `insize` bytes,
`spline` returns and its last output point is the last input point:
`out[outsize-1] = in[insize-1]`, in exact rational arithmetic. -/
theorem C13_spline_last_point (out : Nat → Nat) (o : Nat) (inp : Nat → Nat)
    (outsize insize : Nat) (ho : 2 ≤ outsize) (hi : 2 ≤ insize)
    (hb : ∀ j, j < insize → inp j < 256) :
    ∃ out1, spline exact out o inp (outsize : Int) (insize : Int) = some out1
      ∧ out1 (o + (outsize - 1)) = inp (insize - 1) := by
  obtain ⟨out1, h1⟩ := spline_defined exact out o inp outsize (insize : Int)
    (fun i hi' => spline_value_defined inp ho (by omega) hb i hi')
  obtain ⟨s1, -⟩ := spline_some exact out o inp outsize (insize : Int) out1 h1
  refine ⟨out1, h1, ?_⟩
  have hq : (((outsize : Int) - 1 : Int) : ℚ) ≠ 0 := by
    have : (outsize : Int) - 1 ≠ 0 := by omega
    exact_mod_cast this
  have c1 : ((outsize - 1 : Nat) : ℚ) = (((outsize : Int) - 1 : Int) : ℚ) := by
    have : ((outsize - 1 : Nat) : Int) = (outsize : Int) - 1 := by omega
    exact_mod_cast this
  have c2 : ((insize - 1 : Nat) : ℚ) = (((insize : Int) - 1 : Int) : ℚ) := by
    have : ((insize - 1 : Nat) : Int) = (insize : Int) - 1 := by omega
    exact_mod_cast this
  have hk : ((outsize - 1 : Nat) : ℚ)
      * ((((insize : Int) - 1 : Int) : ℚ) / (((outsize : Int) - 1 : Int) : ℚ))
      = ((insize - 1 : Nat) : ℚ) := by
    rw [c1, c2, ← mul_div_assoc, mul_div_cancel_left₀ _ hq]
  have e := spline_value_at_integer inp ho (insize : Int) (outsize - 1) (insize - 1) hk
    (hb (insize - 1) (by omega))
  rw [s1 (outsize - 1) (by omega)] at e
  exact Option.some.inj e

theorem C13_spline_last_point_witness :
    (2 ≤ 4 ∧ 2 ≤ 8 ∧ ∀ j, j < 8 → inA j < 256)
      ∧ ∃ out1, spline exact (fun _ => 0) 0 inA ((4 : Nat) : Int) ((8 : Nat) : Int) = some out1
        ∧ out1 (0 + (4 - 1)) = inA (8 - 1) :=
  ⟨⟨by decide, by decide, by decide⟩,
   C13_spline_last_point (fun _ => 0) 0 inA 4 8 (by decide) (by decide) (by decide)⟩

/-! ## `average_filter` -/

theorem wrapSize_pred {n : Nat} (h1 : 1 ≤ n) (h2 : n < 2 ^ 64) :
    wrapSize ((n : Int) - 1) = n - 1 := by
  unfold wrapSize
  omega

/-- A sum of at most `2^45` bytes is a `double`. -/
theorem dbl_sum_bytes (f : Nat → Nat) (n : Nat) (hf : ∀ k, k < n → f k < 256)
    (hn : n ≤ 2 ^ 45) :
    dbl (∑ k in Finset.range n, (f k : ℚ)) = ∑ k in Finset.range n, (f k : ℚ) := by
  rw [← Nat.cast_sum]
  apply dbl_natCast
  calc ∑ k in Finset.range n, f k ≤ ∑ _k in Finset.range n, 255 :=
        Finset.sum_le_sum (fun k hk => by
          have := hf k (Finset.mem_range.mp hk)
          omega)
    _ = n * 255 := by simp
    _ ≤ 2 ^ 45 * 255 := Nat.mul_le_mul_right _ hn
    _ ≤ 2 ^ 53 := by norm_num

/-- The first loop of `average_filter`: the sum of the first `n1` samples. -/
theorem average_first_loop (inp : Nat → Nat) (n1 : Nat) (hb : ∀ k, k < n1 → inp k < 256)
    (hn : n1 ≤ 2 ^ 45) :
    (List.range n1).foldl (fun avg i => dbl (avg + (inp i : ℚ))) 0
      = ∑ k in Finset.range n1, (inp k : ℚ) := by
  induction n1 with
  | zero => simp
  | succ n ih =>
    rw [List.range_succ, List.foldl_append, ih (fun k hk => hb k (by omega)) (by omega)]
    simp only [List.foldl_cons, List.foldl_nil]
    rw [← Finset.sum_range_succ]
    exact dbl_sum_bytes inp (n + 1) hb hn

/-- The second loop of `average_filter` after `m` turns: `avg` is the sum of the `n - 1`
samples from `m` on, and the cells `j` with `j * skip < m` are written. -/
theorem average_loop (out inp : Nat → Nat) (len n1 n skip : Nat) (scale : ℚ) (issigned : Int)
    (hn : n1 + 1 = n) (hs : 1 ≤ skip) (hb : ∀ i, i < len → inp i < 256)
    (hl : len ≤ 2 ^ 45) (m : Nat) (hm : m + n1 ≤ len) :
    ((List.range m).foldl (average_step inp n1 n skip scale issigned)
        (∑ k in Finset.range n1, (inp k : ℚ), some out)).1
        = ∑ k in Finset.range n1, (inp (m + k) : ℚ)
      ∧ (∀ o, ((List.range m).foldl (average_step inp n1 n skip scale issigned)
            (∑ k in Finset.range n1, (inp k : ℚ), some out)).2 = some o →
          (∀ j, j * skip < m →
            toU8q (dbl ((issigned : ℚ)
              + dbl (dbl (dbl (window_mean inp n (j * skip)) - (issigned : ℚ)) * scale)))
              = some (o j))
            ∧ (∀ j, m ≤ j * skip → o j = out j))
      ∧ (((List.range m).foldl (average_step inp n1 n skip scale issigned)
            (∑ k in Finset.range n1, (inp k : ℚ), some out)).2 = none →
          ∃ j, j * skip < m
            ∧ toU8q (dbl ((issigned : ℚ)
              + dbl (dbl (dbl (window_mean inp n (j * skip)) - (issigned : ℚ)) * scale)))
              = none) := by
  have hs0 : skip ≠ 0 := by omega
  induction m with
  | zero =>
    refine ⟨by simp, ?_, ?_⟩
    · intro o ho
      simp only [List.range_zero, List.foldl_nil, Option.some.injEq] at ho
      subst ho
      exact ⟨fun j hj => absurd hj (Nat.not_lt_zero _), fun _ _ => rfl⟩
    · intro h
      simp at h
  | succ m ih =>
    obtain ⟨ih1, ih2, ih3⟩ := ih (by omega)
    rw [List.range_succ, List.foldl_append]
    simp only [List.foldl_cons, List.foldl_nil]
    generalize (List.range m).foldl (average_step inp n1 n skip scale issigned)
      (∑ k in Finset.range n1, (inp k : ℚ), some out) = st at ih1 ih2 ih3
    have hw0 : st.1 + (inp (n1 + m) : ℚ) = ∑ k in Finset.range n, (inp (m + k) : ℚ) := by
      rw [ih1, ← hn, Finset.sum_range_succ, Nat.add_comm n1 m]
    have hw : dbl (st.1 + (inp (n1 + m) : ℚ)) = ∑ k in Finset.range n, (inp (m + k) : ℚ) := by
      rw [hw0]
      exact dbl_sum_bytes (fun k => inp (m + k)) n (fun k hk => hb (m + k) (by omega))
        (by omega)
    have hnd : dbl (n : ℚ) = (n : ℚ) := dbl_natCast (by
      have : (2 : Nat) ^ 45 ≤ 2 ^ 53 := by norm_num
      omega)
    have hmean : dbl (dbl (st.1 + (inp (n1 + m) : ℚ)) / dbl (n : ℚ))
        = dbl (window_mean inp n m) := by
      rw [hw, hnd]
      rfl
    have hsc : SSCALE (dbl (dbl (st.1 + (inp (n1 + m) : ℚ)) / dbl (n : ℚ))) issigned scale
        = dbl ((issigned : ℚ)
            + dbl (dbl (dbl (window_mean inp n m) - (issigned : ℚ)) * scale)) := by
      rw [hmean]
      rfl
    refine ⟨?_, ?_, ?_⟩
    · show dbl (dbl (st.1 + (inp (n1 + m) : ℚ)) - (inp m : ℚ)) = _
      have e : (∑ k in Finset.range n, (inp (m + k) : ℚ)) - (inp m : ℚ)
          = ∑ k in Finset.range n1, (inp (m + 1 + k) : ℚ) := by
        rw [← hn, Finset.sum_range_succ']
        have : ∀ k, m + 1 + k = m + (k + 1) := fun k => by omega
        simp only [this, Nat.add_zero]
        ring
      rw [hw, e]
      exact dbl_sum_bytes (fun k => inp (m + 1 + k)) n1 (fun k hk => hb (m + 1 + k) (by omega))
        (by omega)
    · intro o ho
      have ho' : (if skip = 0 then none
          else if m % skip = 0 then
            match st.2, toU8q (SSCALE (dbl (dbl (st.1 + (inp (n1 + m) : ℚ)) / dbl (n : ℚ)))
                issigned scale) with
            | some mm, some v => some (Function.update mm (m / skip) v)
            | _, _ => none
          else st.2) = some o := ho
      rw [if_neg hs0, hsc] at ho'
      by_cases hm' : m % skip = 0
      · rw [if_pos hm'] at ho'
        have hdm : m / skip * skip = m := Nat.div_mul_cancel (Nat.dvd_of_mod_eq_zero hm')
        cases h2 : st.2 with
        | none => rw [h2] at ho'; simp at ho'
        | some mm =>
          cases hv : toU8q (dbl ((issigned : ℚ)
              + dbl (dbl (dbl (window_mean inp n m) - (issigned : ℚ)) * scale))) with
          | none => rw [h2, hv] at ho'; simp at ho'
          | some v =>
            rw [h2, hv] at ho'
            simp only [Option.some.injEq] at ho'
            subst ho'
            obtain ⟨a1, a2⟩ := ih2 mm h2
            constructor
            · intro j hj
              by_cases hjm : j = m / skip
              · subst hjm
                rw [hdm, hv]
                simp
              · have hlt : j * skip < m := by
                  rcases Nat.lt_or_ge (j * skip) m with h | h
                  · exact h
                  · exfalso
                    have : j * skip = m := by omega
                    apply hjm
                    rw [← this, Nat.mul_div_cancel _ (by omega)]
                rw [a1 j hlt, Function.update_apply, if_neg hjm]
            · intro j hj
              have hjm : j ≠ m / skip := by
                intro h
                rw [h, hdm] at hj
                omega
              rw [Function.update_apply, if_neg hjm]
              exact a2 j (by omega)
      · rw [if_neg hm'] at ho'
        obtain ⟨a1, a2⟩ := ih2 o ho'
        constructor
        · intro j hj
          have hne : j * skip ≠ m := by
            intro h
            apply hm'
            rw [← h]
            exact Nat.mul_mod_left j skip
          exact a1 j (by omega)
        · intro j hj
          exact a2 j (by omega)
    · intro ho
      have ho' : (if skip = 0 then none
          else if m % skip = 0 then
            match st.2, toU8q (SSCALE (dbl (dbl (st.1 + (inp (n1 + m) : ℚ)) / dbl (n : ℚ)))
                issigned scale) with
            | some mm, some v => some (Function.update mm (m / skip) v)
            | _, _ => none
          else st.2) = none := ho
      rw [if_neg hs0, hsc] at ho'
      by_cases hm' : m % skip = 0
      · rw [if_pos hm'] at ho'
        have hdm : m / skip * skip = m := Nat.div_mul_cancel (Nat.dvd_of_mod_eq_zero hm')
        cases h2 : st.2 with
        | none =>
          obtain ⟨j, hj, hjv⟩ := ih3 h2
          exact ⟨j, by omega, hjv⟩
        | some mm =>
          cases hv : toU8q (dbl ((issigned : ℚ)
              + dbl (dbl (dbl (window_mean inp n m) - (issigned : ℚ)) * scale))) with
          | none =>
            refine ⟨m / skip, by omega, ?_⟩
            rw [hdm, hv]
          | some v => rw [h2, hv] at ho'; simp at ho'
      · rw [if_neg hm'] at ho'
        obtain ⟨j, hj, hjv⟩ := ih3 ho'
        exact ⟨j, by omega, hjv⟩

theorem average_filter_eq (out inp : Nat → Nat) (len n skip : Nat) (scale : ℚ)
    (issigned : Int) (hn : 1 ≤ n) (hnl : n ≤ len) (hb : ∀ i, i < len → inp i < 256)
    (hl : len ≤ 2 ^ 45) :
    average_filter out inp len n skip scale issigned
      = ((List.range (len - (n - 1))).foldl (average_step inp (n - 1) n skip scale issigned)
          (∑ k in Finset.range (n - 1), (inp k : ℚ), some out)).2 := by
  have h64 : n < 2 ^ 64 := by
    have : (2 : Nat) ^ 45 < 2 ^ 64 := by norm_num
    omega
  unfold average_filter
  simp only [wrapSize_pred hn h64]
  rw [average_first_loop inp (n - 1) (fun k hk => hb k (by omega)) (by omega)]

/-- The number of cells that `average_filter` writes. -/
theorem average_count (len n skip : Nat) (hn : 1 ≤ n) (hnl : n ≤ len) (hs : 1 ≤ skip) (j : Nat) :
    j < ⌈(((len - n + 1 : Nat) : ℚ) / (skip : ℚ))⌉₊ ↔ j * skip < len - (n - 1) := by
  have hsq : (0 : ℚ) < (skip : ℚ) := by exact_mod_cast hs
  rw [Nat.lt_ceil, lt_div_iff₀ hsq]
  have e : len - (n - 1) = len - n + 1 := by omega
  rw [e]
  exact_mod_cast Iff.rfl

/-- The cells of `average_filter`: for bytes and `len ≤ 2^45` the running sum is never
rounded, and cell `j` receives the scaled mean of the window at `j * skip`, each of the
operations `/`, `-`, `*`, `+` rounded to `double`. -/
theorem average_filter_cells (out inp : Nat → Nat) (len n skip : Nat) (scale : ℚ)
    (issigned : Int) (hn : 1 ≤ n) (hnl : n ≤ len) (hs : 1 ≤ skip)
    (hb : ∀ i, i < len → inp i < 256) (hl : len ≤ 2 ^ 45) :
    (∀ o, average_filter out inp len n skip scale issigned = some o →
        (∀ j, j < ⌈(((len - n + 1 : Nat) : ℚ) / (skip : ℚ))⌉₊ →
          toU8q (dbl ((issigned : ℚ)
            + dbl (dbl (dbl (window_mean inp n (j * skip)) - (issigned : ℚ)) * scale)))
            = some (o j))
          ∧ (∀ j, ⌈(((len - n + 1 : Nat) : ℚ) / (skip : ℚ))⌉₊ ≤ j → o j = out j))
      ∧ ((∀ j, j < ⌈(((len - n + 1 : Nat) : ℚ) / (skip : ℚ))⌉₊ →
            ∃ v, toU8q (dbl ((issigned : ℚ)
              + dbl (dbl (dbl (window_mean inp n (j * skip)) - (issigned : ℚ)) * scale)))
              = some v) →
          ∃ o, average_filter out inp len n skip scale issigned = some o) := by
  have hcnt := average_count len n skip hn hnl hs
  have hloop := average_loop out inp len (n - 1) n skip scale issigned (by omega) hs hb hl
    (len - (n - 1)) (by omega)
  rw [← average_filter_eq out inp len n skip scale issigned hn hnl hb hl] at hloop
  obtain ⟨-, l2, l3⟩ := hloop
  constructor
  · intro o ho
    obtain ⟨a1, a2⟩ := l2 o ho
    refine ⟨fun j hj => a1 j ((hcnt j).mp hj), fun j hj => a2 j ?_⟩
    by_contra hlt
    exact absurd ((hcnt j).mpr (by omega)) (by omega)
  · intro hall
    cases hr : average_filter out inp len n skip scale issigned with
    | some o => exact ⟨o, rfl⟩
    | none =>
      obtain ⟨j, hj, hjv⟩ := l3 hr
      obtain ⟨v, hv⟩ := hall j ((hcnt j).mpr hj)
      rw [hv] at hjv
      cases hjv

/-- C15, as the code has it: for an input of `L ≤ 2^45` bytes, `1 ≤ n ≤ L` and
`skip ≥ 1`, `average_filter` writes exactly the cells `j` with `j < ⌈(L-n+1)/skip⌉`, and
`out[j]` is the conversion to the output type of
`issigned + (mean(in[j*skip .. j*skip+n-1]) - issigned) * scale` evaluated in `double`
arithmetic: the quotient, the difference, the product and the sum are each rounded to the
nearest `double`.  It returns whenever these values fit the output type.  With `n = 1`,
`skip = 1`, `scale = 1` and an `int` `issigned` it copies the input: `out[j] = in[j]` for
all `j < L`. -/
theorem C15_average_filter_box_average (out inp : Nat → Nat) (len n skip : Nat) (scale : ℚ)
    (issigned : Int) (hn : 1 ≤ n) (hnl : n ≤ len) (hs : 1 ≤ skip)
    (hb : ∀ i, i < len → inp i < 256) (hl : len ≤ 2 ^ 45) :
    (∀ o, average_filter out inp len n skip scale issigned = some o →
        (∀ j, j < ⌈(((len - n + 1 : Nat) : ℚ) / (skip : ℚ))⌉₊ →
          toU8q (dbl ((issigned : ℚ)
            + dbl (dbl (dbl ((∑ k in Finset.range n, (inp (j * skip + k) : ℚ)) / (n : ℚ))
                - (issigned : ℚ)) * scale)))
            = some (o j))
          ∧ (∀ j, ⌈(((len - n + 1 : Nat) : ℚ) / (skip : ℚ))⌉₊ ≤ j → o j = out j))
      ∧ ((∀ j, j < ⌈(((len - n + 1 : Nat) : ℚ) / (skip : ℚ))⌉₊ →
            ∃ v, toU8q (dbl ((issigned : ℚ)
              + dbl (dbl (dbl ((∑ k in Finset.range n, (inp (j * skip + k) : ℚ)) / (n : ℚ))
                  - (issigned : ℚ)) * scale)))
              = some v) →
          ∃ o, average_filter out inp len n skip scale issigned = some o)
      ∧ (n = 1 → skip = 1 → scale = 1 → |issigned| ≤ 2 ^ 31 →
          ∃ o, average_filter out inp len n skip scale issigned = some o
            ∧ ∀ j, j < len → o j = inp j) := by
  obtain ⟨part1, part2⟩ := average_filter_cells out inp len n skip scale issigned hn hnl hs hb hl
  refine ⟨part1, part2, ?_⟩
  intro h1 h2 h3 hi
  subst h1 h2 h3
  have hval : ∀ j, j < len →
      toU8q (dbl ((issigned : ℚ)
        + dbl (dbl (dbl (window_mean inp 1 (j * 1)) - (issigned : ℚ)) * 1))) = some (inp j) := by
    intro j hj
    have hx := hb j hj
    have d0 : dbl (inp j : ℚ) = (inp j : ℚ) := dbl_natCast (by
      have : (256 : Nat) ≤ 2 ^ 53 := by norm_num
      omega)
    have habs := abs_le.mp hi
    have d1 : dbl ((inp j : ℚ) - (issigned : ℚ)) = (inp j : ℚ) - (issigned : ℚ) := by
      have e : (inp j : ℚ) - (issigned : ℚ) = ((((inp j : Int) - issigned : Int)) : ℚ) := by
        push_cast
        ring
      rw [e]
      apply dbl_intCast
      rw [abs_le]
      have : ((2 : Int) ^ 53) = 9007199254740992 := by norm_num
      have : ((2 : Int) ^ 31) = 2147483648 := by norm_num
      constructor <;> omega
    unfold window_mean
    simp only [Finset.sum_range_one, Nat.mul_one, Nat.add_zero, Nat.cast_one, div_one, d0, d1,
      mul_one, add_sub_cancel]
    exact toU8q_natCast hx
  have hlen : ∀ j, j < ⌈(((len - 1 + 1 : Nat) : ℚ) / ((1 : Nat) : ℚ))⌉₊ ↔ j < len := by
    intro j
    rw [average_count len 1 1 hn hnl hs j]
    omega
  obtain ⟨o, ho⟩ := part2 (fun j hj => ⟨inp j, hval j ((hlen j).mp hj)⟩)
  refine ⟨o, ho, fun j hj => ?_⟩
  have := (part1 o ho).1 j ((hlen j).mpr hj)
  rw [hval j hj] at this
  exact (Option.some.inj this).symm

theorem C15_average_filter_box_average_witness :
    (1 ≤ 1 ∧ 1 ≤ 5 ∧ (∀ j, j < 5 → s4_in j < 256) ∧ 5 ≤ 2 ^ 45 ∧ |(128 : Int)| ≤ 2 ^ 31)
      ∧ (∃ o, average_filter (fun _ => 0) s4_in 5 1 1 1 128 = some o
        ∧ ∀ j, j < 5 → o j = s4_in j)
      ∧ (average_filter (fun _ => 0) s4_in 5 2 2 (1 / 2) 128).map (fun o => [o 0, o 1, o 2])
        = some [80, 144, 0]
      ∧ (average_filter (fun _ => 0) s4_in 5 3 1 (1 / 4) 0).map (fun o => [o 0, o 1, o 2, o 3])
        = some [16, 32, 47, 0] :=
  ⟨⟨by decide, by decide, by decide, by decide, by decide⟩,
   (C15_average_filter_box_average (fun _ => 0) s4_in 5 1 1 1 128 (by decide) (by decide)
      (by decide) (by decide) (by decide)).2.2 rfl rfl rfl (by decide),
   by decide!, by decide!⟩

/-- C15 fails as stated: for the window of 49 samples whose sum is 1 and `scale = 49`,
`issigned = 0`, the value `issigned + (mean - issigned) * scale` is 1, but the `double`
quotient `1/49` times 49 is below 1, and `average_filter` stores 0. -/
theorem C15_counterexample :
    (∃ o, average_filter (fun _ => 7) in_unit 49 49 1 49 0 = some o ∧ o 0 = 0)
      ∧ toU8q (((0 : Int) : ℚ) + (window_mean in_unit 49 0 - ((0 : Int) : ℚ)) * 49) = some 1 := by
  have hb : ∀ i, i < 49 → in_unit i < 256 := by
    intro i _
    unfold in_unit
    split_ifs <;> norm_num
  obtain ⟨p1, p2⟩ := average_filter_cells (fun _ => 7) in_unit 49 49 1 49 0 (by norm_num)
    (by norm_num) (by norm_num) hb (by norm_num)
  have hmean : window_mean in_unit 49 0 = 1 / 49 := by
    unfold window_mean
    rw [Finset.sum_range_succ']
    simp [in_unit]
  have hcell : toU8q (dbl (((0 : Int) : ℚ)
      + dbl (dbl (dbl (window_mean in_unit 49 (0 * 1)) - ((0 : Int) : ℚ)) * 49))) = some 0 := by
    rw [Nat.zero_mul, hmean]
    decide!
  have hcnt : ⌈(((49 - 49 + 1 : Nat) : ℚ) / ((1 : Nat) : ℚ))⌉₊ = 1 := by
    norm_num
  constructor
  · obtain ⟨o, ho⟩ := p2 (fun j hj => by
      rw [hcnt] at hj
      have : j = 0 := by omega
      subst this
      exact ⟨0, hcell⟩)
    refine ⟨o, ho, ?_⟩
    have := (p1 o ho).1 0 (by rw [hcnt]; norm_num)
    rw [hcell] at this
    exact (Option.some.inj this).symm
  · rw [hmean]
    decide!

/-! ## `peak_extract` -/

section Peak

variable (lo hi : ℚ) (bl : Nat) (inp : Nat → Nat)

theorem peak_extract_eq (out : Nat → Nat) (len : Nat) (avg sd : ℚ) (bc : Nat) :
    peak_extract out inp len avg sd bl bc
      = ((peak_run (dbl (avg - sd)) (dbl (avg + sd)) bl inp 0 len
            ⟨0, (inp 0 : ℚ), 0, 0, bc, some out⟩).pos,
         (peak_run (dbl (avg - sd)) (dbl (avg + sd)) bl inp 0 len
            ⟨0, (inp 0 : ℚ), 0, 0, bc, some out⟩).out) := by
  unfold peak_extract peak_run
  rw [List.range_eq_range']

theorem peak_run_add (s m n : Nat) (st : PeakState) :
    peak_run lo hi bl inp s (m + n) st
      = peak_run lo hi bl inp (s + m) n (peak_run lo hi bl inp s m st) := by
  unfold peak_run
  rw [Nat.add_comm m n, ← List.range'_append_1, List.foldl_append]

theorem peak_run_one (s : Nat) (st : PeakState) :
    peak_run lo hi bl inp s 1 st = peak_step lo hi bl st s (inp s) := rfl

/-- A sample that triggers none of the four `if` statements leaves the state alone. -/
theorem peak_step_idle (st : PeakState) (i x : Nat)
    (h1 : ¬ (st.state = 0 ∧ (x : ℚ) < lo)) (h2 : ¬ (st.state ≠ 0 ∧ st.max < (x : ℚ)))
    (h3 : ¬ (st.state = 1 ∧ hi < (x : ℚ))) (h4 : ¬ (st.state = 2 ∧ (x : ℚ) < lo)) :
    peak_step lo hi bl st i x = st := by
  unfold peak_step
  simp only [if_neg h1, if_neg h2, if_neg h3, if_neg h4]

/-- A stretch of equal samples that trigger nothing leaves the state alone. -/
theorem peak_run_idle (st : PeakState) (x : Nat) (s n : Nat)
    (hx : ∀ i, s ≤ i → i < s + n → inp i = x)
    (h1 : ¬ (st.state = 0 ∧ (x : ℚ) < lo)) (h2 : ¬ (st.state ≠ 0 ∧ st.max < (x : ℚ)))
    (h3 : ¬ (st.state = 1 ∧ hi < (x : ℚ))) (h4 : ¬ (st.state = 2 ∧ (x : ℚ) < lo)) :
    peak_run lo hi bl inp s n st = st := by
  induction n generalizing s with
  | zero => rfl
  | succ n ih =>
    rw [Nat.add_comm n 1, peak_run_add, peak_run_one, hx s (le_refl s) (by omega),
      peak_step_idle lo hi bl st s x h1 h2 h3 h4]
    exact ih (s + 1) (fun i hi1 hi2 => hx i (by omega) (by omega))

end Peak

theorem s3_low (i : Nat) (h : i < 100 ∨ (105 ≤ i ∧ i < 505) ∨ (510 ≤ i ∧ i < 520) ∨ 525 ≤ i) :
    s3_in i = 50 := by
  unfold s3_in
  rw [if_neg (by omega)]

theorem s3_high (i : Nat) (h : (100 ≤ i ∧ i < 105) ∨ (505 ≤ i ∧ i < 510) ∨ (520 ≤ i ∧ i < 525)) :
    s3_in i = 150 := by
  unfold s3_in
  rw [if_pos h]


/-- The run of `peak_extract` on scenario S3, sample by sample: the state before the turn
at index 105, where the first peak ends. -/
theorem s3_run_105 (out : Nat → Nat) :
    peak_run 90 110 200 s3_in 0 105 ⟨0, 50, 0, 0, 1, some out⟩
      = ⟨2, 150, 0, 0, 1, some out⟩ := by
  have a1 : peak_run 90 110 200 s3_in 0 1 ⟨0, 50, 0, 0, 1, some out⟩
      = ⟨1, 50, 0, 0, 1, some out⟩ := by
    rw [peak_run_one, s3_low 0 (by omega)]
    norm_num [peak_step]
  have a2 : peak_run 90 110 200 s3_in 1 99 ⟨1, 50, 0, 0, 1, some out⟩
      = ⟨1, 50, 0, 0, 1, some out⟩ :=
    peak_run_idle 90 110 200 s3_in _ 50 1 99 (fun i _ _ => s3_low i (by omega))
      (by norm_num) (by norm_num) (by norm_num) (by norm_num)
  have a3 : peak_run 90 110 200 s3_in 100 1 ⟨1, 50, 0, 0, 1, some out⟩
      = ⟨2, 150, 0, 0, 1, some out⟩ := by
    rw [peak_run_one, s3_high 100 (by omega)]
    norm_num [peak_step]
  have a4 : peak_run 90 110 200 s3_in 101 4 ⟨2, 150, 0, 0, 1, some out⟩
      = ⟨2, 150, 0, 0, 1, some out⟩ :=
    peak_run_idle 90 110 200 s3_in _ 150 101 4 (fun i _ _ => s3_high i (by omega))
      (by norm_num) (by norm_num) (by norm_num) (by norm_num)
  rw [peak_run_add 90 110 200 s3_in 0 1 104, a1, peak_run_add 90 110 200 s3_in 1 99 5, a2,
    peak_run_add 90 110 200 s3_in 100 1 4, a3, a4]

/-- The state before the turn at index 510, where the second peak ends. -/
theorem s3_run_510 (out : Nat → Nat) :
    peak_run 90 110 200 s3_in 0 510 ⟨0, 50, 0, 0, 1, some out⟩
      = ⟨2, 150, 1, 105, 1, some (Function.update out 0 150)⟩ := by
  have a5 : peak_run 90 110 200 s3_in 105 1 ⟨2, 150, 0, 0, 1, some out⟩
      = ⟨1, 50, 1, 105, 1, some (Function.update out 0 150)⟩ := by
    rw [peak_run_one, s3_low 105 (by omega)]
    norm_num [peak_step, store_peak, toU8q]
    rfl
  have a6 : peak_run 90 110 200 s3_in 106 399
      ⟨1, 50, 1, 105, 1, some (Function.update out 0 150)⟩
      = ⟨1, 50, 1, 105, 1, some (Function.update out 0 150)⟩ :=
    peak_run_idle 90 110 200 s3_in _ 50 106 399 (fun i _ _ => s3_low i (by omega))
      (by norm_num) (by norm_num) (by norm_num) (by norm_num)
  have a7 : peak_run 90 110 200 s3_in 505 1
      ⟨1, 50, 1, 105, 1, some (Function.update out 0 150)⟩
      = ⟨2, 150, 1, 105, 1, some (Function.update out 0 150)⟩ := by
    rw [peak_run_one, s3_high 505 (by omega)]
    norm_num [peak_step]
  have a8 : peak_run 90 110 200 s3_in 506 4
      ⟨2, 150, 1, 105, 1, some (Function.update out 0 150)⟩
      = ⟨2, 150, 1, 105, 1, some (Function.update out 0 150)⟩ :=
    peak_run_idle 90 110 200 s3_in _ 150 506 4 (fun i _ _ => s3_high i (by omega))
      (by norm_num) (by norm_num) (by norm_num) (by norm_num)
  rw [peak_run_add 90 110 200 s3_in 0 105 405, s3_run_105,
    peak_run_add 90 110 200 s3_in 105 1 404, a5, peak_run_add 90 110 200 s3_in 106 399 5, a6,
    peak_run_add 90 110 200 s3_in 505 1 4, a7, a8]

/-- The state after the 525 samples of scenario S3. -/
theorem s3_run (out : Nat → Nat) :
    peak_run 90 110 200 s3_in 0 525 ⟨0, 50, 0, 0, 1, some out⟩
      = ⟨2, 150, 0, 510, 0, some (Function.update (Function.update out 0 150) 1 150)⟩ := by
  have a9 : peak_run 90 110 200 s3_in 510 1
      ⟨2, 150, 1, 105, 1, some (Function.update out 0 150)⟩
      = ⟨1, 50, 0, 510, 0, some (Function.update (Function.update out 0 150) 1 150)⟩ := by
    rw [peak_run_one, s3_low 510 (by omega)]
    norm_num [peak_step, store_peak, toU8q]
    rfl
  have a10 : peak_run 90 110 200 s3_in 511 9
      ⟨1, 50, 0, 510, 0, some (Function.update (Function.update out 0 150) 1 150)⟩
      = ⟨1, 50, 0, 510, 0, some (Function.update (Function.update out 0 150) 1 150)⟩ :=
    peak_run_idle 90 110 200 s3_in _ 50 511 9 (fun i _ _ => s3_low i (by omega))
      (by norm_num) (by norm_num) (by norm_num) (by norm_num)
  have a11 : peak_run 90 110 200 s3_in 520 1
      ⟨1, 50, 0, 510, 0, some (Function.update (Function.update out 0 150) 1 150)⟩
      = ⟨2, 150, 0, 510, 0, some (Function.update (Function.update out 0 150) 1 150)⟩ := by
    rw [peak_run_one, s3_high 520 (by omega)]
    norm_num [peak_step]
  have a12 : peak_run 90 110 200 s3_in 521 4
      ⟨2, 150, 0, 510, 0, some (Function.update (Function.update out 0 150) 1 150)⟩
      = ⟨2, 150, 0, 510, 0, some (Function.update (Function.update out 0 150) 1 150)⟩ :=
    peak_run_idle 90 110 200 s3_in _ 150 521 4 (fun i _ _ => s3_high i (by omega))
      (by norm_num) (by norm_num) (by norm_num) (by norm_num)
  rw [peak_run_add 90 110 200 s3_in 0 510 15, s3_run_510,
    peak_run_add 90 110 200 s3_in 510 1 14, a9, peak_run_add 90 110 200 s3_in 511 9 5, a10,
    peak_run_add 90 110 200 s3_in 520 1 4, a11, a12]

/-- Ten further samples of 50 end the third excursion: one peak is then counted. -/
theorem s3_run_on (out : Nat → Nat) :
    peak_run 90 110 200 s3_in 525 10 ⟨2, 150, 0, 510, 0, some out⟩
      = ⟨1, 50, 1, 525, 0, some (Function.update out 0 150)⟩ := by
  have b1 : peak_run 90 110 200 s3_in 525 1 ⟨2, 150, 0, 510, 0, some out⟩
      = ⟨1, 50, 1, 525, 0, some (Function.update out 0 150)⟩ := by
    rw [peak_run_one, s3_low 525 (by omega)]
    norm_num [peak_step, store_peak, toU8q]
    rfl
  have b2 : peak_run 90 110 200 s3_in 526 9 ⟨1, 50, 1, 525, 0, some (Function.update out 0 150)⟩
      = ⟨1, 50, 1, 525, 0, some (Function.update out 0 150)⟩ :=
    peak_run_idle 90 110 200 s3_in _ 50 526 9 (fun i _ _ => s3_low i (by omega))
      (by norm_num) (by norm_num) (by norm_num) (by norm_num)
  rw [peak_run_add 90 110 200 s3_in 525 1 9, b1, b2]

theorem s3_thresholds : dbl ((100 : ℚ) - 10) = 90 ∧ dbl ((100 : ℚ) + 10) = 110 := by
  constructor <;> decide!

/-- The end of a peak: a sample below the low threshold in state 2.  With `break_count = 1`
and more than `break_length` samples since the end of the previous peak the count is reset
to 0; with `break_count = 0`, or a shorter distance, the count grows by one. -/
theorem peak_end_count (lo hi : ℚ) (bl : Nat) (st : PeakState) (i x : Nat)
    (h2 : st.state = 2) (hx : (x : ℚ) < lo) :
    (st.break_count = 1 → bl < i - st.last_pos → (peak_step lo hi bl st i x).pos = 0)
      ∧ (st.break_count = 0 ∨ i - st.last_pos ≤ bl →
          (peak_step lo hi bl st i x).pos = st.pos + 1) := by
  constructor
  · intro hb hl
    by_cases c2 : st.max < (x : ℚ)
    · simp [peak_step, h2, hx, hb, hl, c2]
    · simp [peak_step, h2, hx, hb, hl, c2]
  · intro h
    rcases h with h | h
    · by_cases c2 : st.max < (x : ℚ)
      · simp [peak_step, h2, hx, h, c2]
      · simp [peak_step, h2, hx, h, c2]
    · have hl : ¬ bl < i - st.last_pos := by omega
      by_cases c2 : st.max < (x : ℚ)
      · simp [peak_step, h2, hx, hl, c2]
      · simp [peak_step, h2, hx, hl, c2]

/-- C16, as the code has it.  A peak ends at a sample below `avg - std_dev` that comes
after a sample above `avg + std_dev` (state 2).  When a peak ends at index `i`, in a run
with `break_count = 1` that has not used its break yet, more than `break_length` samples
after the end of the previous peak (after index 0 for the first peak), `peak_extract`
returns 0 for the input up to `i`: the count is reset, which discards that peak together
with the peaks before the gap.  When the break was used before, or the distance is at most
`break_length`, the count grows by one.  On scenario S3 (`avg = 100`, `std_dev = 10`,
`break_length = 200`, `break_count = 1`) the peak before the gap is stored in `out[0]`
and the first peak after the gap in `out[1]`; the end of that peak, at index 510, 405
samples after the end of the first, resets the count, and the third excursion is not
followed by a sample below `avg - std_dev`, so it is not counted: `peak_extract` returns
0 and `out[0..1] = [150, 150]`.  With ten further samples of 50 the third peak is counted:
it returns 1 and `out[0] = 150`. -/
theorem C16_peak_extract_break (out : Nat → Nat) :
    (∀ (inp : Nat → Nat) (avg std_dev : ℚ) (break_length i : Nat) (st : PeakState),
        peak_run (dbl (avg - std_dev)) (dbl (avg + std_dev)) break_length inp 0 i
            ⟨0, (inp 0 : ℚ), 0, 0, 1, some out⟩ = st →
        st.state = 2 → (inp i : ℚ) < dbl (avg - std_dev) →
        (st.break_count = 1 → break_length < i - st.last_pos →
            (peak_extract out inp (i + 1) avg std_dev break_length 1).1 = 0)
          ∧ (st.break_count = 0 ∨ i - st.last_pos ≤ break_length →
            (peak_extract out inp (i + 1) avg std_dev break_length 1).1 = st.pos + 1))
      ∧ peak_extract out s3_in 525 100 10 200 1
        = (0, some (Function.update (Function.update out 0 150) 1 150))
      ∧ peak_extract out s3_in 535 100 10 200 1
        = (1, some (Function.update (Function.update (Function.update out 0 150) 1 150)
            0 150)) := by
  have h50 : ((s3_in 0 : Nat) : ℚ) = 50 := by
    rw [s3_low 0 (by omega)]
    norm_num
  refine ⟨?_, ?_, ?_⟩
  · intro inp avg std_dev break_length i st hst h2 hx
    have e : (peak_extract out inp (i + 1) avg std_dev break_length 1).1
        = (peak_step (dbl (avg - std_dev)) (dbl (avg + std_dev)) break_length st i (inp i)).pos := by
      rw [peak_extract_eq, peak_run_add, hst, peak_run_one, Nat.zero_add]
    rw [e]
    exact peak_end_count _ _ break_length st i (inp i) h2 hx
  · rw [peak_extract_eq, s3_thresholds.1, s3_thresholds.2, h50, s3_run]
  · rw [peak_extract_eq, s3_thresholds.1, s3_thresholds.2, h50,
      peak_run_add 90 110 200 s3_in 0 525 10, s3_run, s3_run_on]

theorem C16_peak_extract_break_witness :
    (peak_run (dbl ((100 : ℚ) - 10)) (dbl ((100 : ℚ) + 10)) 200 s3_in 0 510
          ⟨0, (s3_in 0 : ℚ), 0, 0, 1, some (fun _ => 0)⟩
        = ⟨2, 150, 1, 105, 1, some (Function.update (fun _ => 0) 0 150)⟩
      ∧ (s3_in 510 : ℚ) < dbl ((100 : ℚ) - 10) ∧ 200 < 510 - 105)
      ∧ (peak_extract (fun _ => 0) s3_in (510 + 1) 100 10 200 1).1 = 0
      ∧ (peak_run (dbl ((100 : ℚ) - 10)) (dbl ((100 : ℚ) + 10)) 200 s3_in 0 105
          ⟨0, (s3_in 0 : ℚ), 0, 0, 1, some (fun _ => 0)⟩
        = ⟨2, 150, 0, 0, 1, some (fun _ => 0)⟩
      ∧ (s3_in 105 : ℚ) < dbl ((100 : ℚ) - 10) ∧ 105 - 0 ≤ 200)
      ∧ (peak_extract (fun _ => 0) s3_in (105 + 1) 100 10 200 1).1 = 0 + 1 := by
  have h50 : ((s3_in 0 : Nat) : ℚ) = 50 := by
    rw [s3_low 0 (by omega)]
    norm_num
  have r510 : peak_run (dbl ((100 : ℚ) - 10)) (dbl ((100 : ℚ) + 10)) 200 s3_in 0 510
      ⟨0, (s3_in 0 : ℚ), 0, 0, 1, some (fun _ => 0)⟩
      = ⟨2, 150, 1, 105, 1, some (Function.update (fun _ => 0) 0 150)⟩ := by
    rw [s3_thresholds.1, s3_thresholds.2, h50, s3_run_510]
  have r105 : peak_run (dbl ((100 : ℚ) - 10)) (dbl ((100 : ℚ) + 10)) 200 s3_in 0 105
      ⟨0, (s3_in 0 : ℚ), 0, 0, 1, some (fun _ => 0)⟩
      = ⟨2, 150, 0, 0, 1, some (fun _ => 0)⟩ := by
    rw [s3_thresholds.1, s3_thresholds.2, h50, s3_run_105]
  have x510 : (s3_in 510 : ℚ) < dbl ((100 : ℚ) - 10) := by
    rw [s3_thresholds.1, s3_low 510 (by omega)]
    norm_num
  have x105 : (s3_in 105 : ℚ) < dbl ((100 : ℚ) - 10) := by
    rw [s3_thresholds.1, s3_low 105 (by omega)]
    norm_num
  exact ⟨⟨r510, x510, by norm_num⟩,
    ((C16_peak_extract_break (fun _ => 0)).1 s3_in 100 10 200 510 _ r510 rfl x510).1 rfl
      (by norm_num),
    ⟨r105, x105, by norm_num⟩,
    ((C16_peak_extract_break (fun _ => 0)).1 s3_in 100 10 200 105 _ r105 rfl x105).2
      (Or.inr (by norm_num))⟩

/-- C16 fails as stated: on scenario S3 `peak_extract` returns 0, not 2. -/
theorem C16_counterexample :
    (peak_extract (fun _ => 0) s3_in 525 100 10 200 1).1 = 0
      ∧ (peak_extract (fun _ => 0) s3_in 525 100 10 200 1).1 ≠ 2 := by
  have h50 : ((s3_in 0 : Nat) : ℚ) = 50 := by
    rw [s3_low 0 (by omega)]
    norm_num
  have h : (peak_extract (fun _ => 0) s3_in 525 100 10 200 1).1 = 0 := by
    rw [peak_extract_eq, s3_thresholds.1, s3_thresholds.2, h50, s3_run]
  rw [h]
  exact ⟨rfl, by decide⟩

/-! ## `normalize` -/

section Normalize

variable (inp : Nat → Nat) (min max : ℚ)

/-- A sample inside `[min, max]` is stored as a byte: the `double` value computed for it
lies between 0 and `255.2`. -/
theorem normalize_store_defined (hlt : min < max) {x : Nat} (h1 : min ≤ (x : ℚ))
    (h2 : (x : ℚ) ≤ max) :
    ∃ s, div_rounded ((((255 : Nat) : Int) - ((0 : Nat) : Int) : Int) : ℚ) (dbl (max - min))
        = some s
      ∧ ∃ v, toU8q (dbl (dbl (dbl ((x : ℚ) - min) * s) + ((0 : Nat) : ℚ))) = some v := by
  have hA : 0 < max - min := by linarith
  have hX : 0 ≤ (x : ℚ) - min := by linarith
  have hD : (max - min) * (9999 / 10000) ≤ dbl (max - min) := mul_le_dbl hA.le
  have hD0 : 0 < dbl (max - min) := lt_of_lt_of_le (by positivity) hD
  have hd1 : dbl ((x : ℚ) - min) ≤ dbl (max - min) * (10003 / 10000) := by
    have := dbl_le_mul hX
    nlinarith
  have hd0 : 0 ≤ dbl ((x : ℚ) - min) := dbl_nonneg hX
  have hq0 : (0 : ℚ) ≤ 255 / dbl (max - min) := by positivity
  have hs1 : dbl (255 / dbl (max - min)) ≤ 255 / dbl (max - min) * (10001 / 10000) :=
    dbl_le_mul hq0
  have hs0 : 0 ≤ dbl (255 / dbl (max - min)) := dbl_nonneg hq0
  have hp1 : dbl ((x : ℚ) - min) * dbl (255 / dbl (max - min)) ≤ 2552 / 10 := by
    calc dbl ((x : ℚ) - min) * dbl (255 / dbl (max - min))
        ≤ dbl (max - min) * (10003 / 10000) * (255 / dbl (max - min) * (10001 / 10000)) :=
          mul_le_mul hd1 hs1 hs0 (by positivity)
      _ = 255 * (10003 / 10000) * (10001 / 10000) := by
          field_simp
          ring
      _ ≤ 2552 / 10 := by norm_num
  have hp0 : 0 ≤ dbl ((x : ℚ) - min) * dbl (255 / dbl (max - min)) := mul_nonneg hd0 hs0
  have hr1 := dbl_le_mul hp0
  have hr0 : 0 ≤ dbl (dbl ((x : ℚ) - min) * dbl (255 / dbl (max - min))) := dbl_nonneg hp0
  have hv1 := dbl_le_mul (x := dbl (dbl ((x : ℚ) - min) * dbl (255 / dbl (max - min)))
    + ((0 : Nat) : ℚ)) (by simpa using hr0)
  have hv0 : 0 ≤ dbl (dbl (dbl ((x : ℚ) - min) * dbl (255 / dbl (max - min)))
      + ((0 : Nat) : ℚ)) := dbl_nonneg (by simpa using hr0)
  have hc : ((((255 : Nat) : Int) - ((0 : Nat) : Int) : Int) : ℚ) = 255 := by norm_num
  refine ⟨dbl (255 / dbl (max - min)), ?_, ?_⟩
  · unfold div_rounded
    rw [if_neg hD0.ne', hc]
  · have hlt256 : dbl (dbl (dbl ((x : ℚ) - min) * dbl (255 / dbl (max - min)))
        + ((0 : Nat) : ℚ)) < 256 := by
      simp only [Nat.cast_zero, add_zero] at hv1 ⊢
      linarith
    unfold toU8q
    rw [if_pos ⟨by linarith, hlt256⟩]
    exact ⟨_, rfl⟩

/-- With every sample of `l` in range the loop of `normalize` runs to its end and
returns 1. -/
theorem normalize_loop_in_range (hlt : min < max) (l : List Nat) (out : Nat → Nat)
    (hall : ∀ i, i ∈ l → min ≤ (inp i : ℚ) ∧ (inp i : ℚ) ≤ max) :
    ∃ out1, normalize_loop inp min max
      (div_rounded ((((255 : Nat) : Int) - ((0 : Nat) : Int) : Int) : ℚ) (dbl (max - min)))
      0 l out = some ⟨1, out1⟩ := by
  induction l generalizing out with
  | nil => exact ⟨out, rfl⟩
  | cons i l ih =>
    obtain ⟨h1, h2⟩ := hall i (List.mem_cons_self i l)
    obtain ⟨s, hs, v, hv⟩ := normalize_store_defined min max hlt h1 h2
    unfold normalize_loop
    rw [if_neg (by rintro (h | h) <;> linarith), hs, Option.some_bind, hv]
    rw [← hs]
    exact ih _ (fun j hj => hall j (List.mem_cons_of_mem i hj))

/-- The loop of `normalize` stops at the first sample out of range and returns the `int`
that `-i` is converted to. -/
theorem normalize_loop_first_bad (hlt : min < max) (l1 : List Nat) (i : Nat) (l2 : List Nat)
    (out : Nat → Nat) (hall : ∀ j, j ∈ l1 → min ≤ (inp j : ℚ) ∧ (inp j : ℚ) ≤ max)
    (hbad : max < (inp i : ℚ) ∨ (inp i : ℚ) < min) :
    ∃ out1, normalize_loop inp min max
      (div_rounded ((((255 : Nat) : Int) - ((0 : Nat) : Int) : Int) : ℚ) (dbl (max - min)))
      0 (l1 ++ i :: l2) out = some ⟨wrapInt32 (-(i : Int)), out1⟩ := by
  induction l1 generalizing out with
  | nil =>
    refine ⟨out, ?_⟩
    show normalize_loop inp min max _ 0 (i :: l2) out = _
    unfold normalize_loop
    rw [if_pos hbad]
  | cons j l1 ih =>
    obtain ⟨h1, h2⟩ := hall j (List.mem_cons_self j l1)
    obtain ⟨s, hs, v, hv⟩ := normalize_store_defined min max hlt h1 h2
    show ∃ out1, normalize_loop inp min max _ 0 (j :: (l1 ++ i :: l2)) out = _
    unfold normalize_loop
    rw [if_neg (by rintro (h | h) <;> linarith), hs, Option.some_bind, hv]
    rw [← hs]
    exact ih _ (fun k hk => hall k (List.mem_cons_of_mem j hk))

theorem range_split {i len : Nat} (h : i < len) :
    List.range len = List.range i ++ i :: List.range' (i + 1) (len - (i + 1)) := by
  rw [List.range_eq_range', List.range_eq_range', ← List.range'_succ]
  have : len = (len - (i + 1) + 1) + i := by omega
  conv_lhs => rw [this]
  rw [← List.range'_append_1]
  simp

theorem normalize_eq (out : Nat → Nat) (len : Nat) :
    normalize out inp len min max = normalize_loop inp min max
      (div_rounded ((((255 : Nat) : Int) - ((0 : Nat) : Int) : Int) : ℚ) (dbl (max - min)))
      0 (List.range len) out := rfl

/-- The value returned by `normalize` at the first sample out of range. -/
theorem normalize_first_bad (out : Nat → Nat) (len : Nat) (hlt : min < max) {i : Nat}
    (hi : i < len) (hbad : max < (inp i : ℚ) ∨ (inp i : ℚ) < min)
    (hall : ∀ j, j < i → min ≤ (inp j : ℚ) ∧ (inp j : ℚ) ≤ max) :
    (normalize out inp len min max).map NormResult.ret = some (wrapInt32 (-(i : Int))) := by
  rw [normalize_eq, range_split hi]
  obtain ⟨out1, h⟩ := normalize_loop_first_bad inp min max hlt (List.range i) i
    (List.range' (i + 1) (len - (i + 1))) out
    (fun j hj => hall j (List.mem_range.mp hj)) hbad
  rw [h]
  rfl

theorem normalize_all_in_range (out : Nat → Nat) (len : Nat) (hlt : min < max)
    (hall : ∀ j, j < len → min ≤ (inp j : ℚ) ∧ (inp j : ℚ) ≤ max) :
    (normalize out inp len min max).map NormResult.ret = some 1 := by
  rw [normalize_eq]
  obtain ⟨out1, h⟩ := normalize_loop_in_range inp min max hlt (List.range len) out
    (fun j hj => hall j (List.mem_range.mp hj))
  rw [h]
  rfl

end Normalize

/-- The return value of `normalize` on an input of length `L ≤ 2^31 + 1`, for every
`min < max`: 1 if and only if every sample lies in `[min, max]`; otherwise `-i` where `i`
is the smallest index with `in[i] < min` or `in[i] > max` (0 for `i = 0`), which is never
1.  The bound on `L` is what makes `-i` fit the returned `int`. -/
theorem normalize_return_of_short (out inp : Nat → Nat) (len : Nat) (min max : ℚ)
    (hlt : min < max) (hlen : len ≤ 2 ^ 31 + 1) :
    (∃ r, normalize out inp len min max = some r)
      ∧ ((normalize out inp len min max).map NormResult.ret = some 1
          ↔ ∀ i, i < len → min ≤ (inp i : ℚ) ∧ (inp i : ℚ) ≤ max)
      ∧ (∀ i, i < len → (max < (inp i : ℚ) ∨ (inp i : ℚ) < min) →
          (∀ j, j < i → min ≤ (inp j : ℚ) ∧ (inp j : ℚ) ≤ max) →
          (normalize out inp len min max).map NormResult.ret = some (-(i : Int))) := by
  have hw : ∀ i, i < len → wrapInt32 (-(i : Int)) = -(i : Int) := by
    intro i hi
    unfold wrapInt32
    omega
  have bad : ∀ i, i < len → (max < (inp i : ℚ) ∨ (inp i : ℚ) < min) →
      (∀ j, j < i → min ≤ (inp j : ℚ) ∧ (inp j : ℚ) ≤ max) →
      (normalize out inp len min max).map NormResult.ret = some (-(i : Int)) := by
    intro i hi hbad hall
    rw [normalize_first_bad inp min max out len hlt hi hbad hall, hw i hi]
  by_cases hall : ∀ i, i < len → min ≤ (inp i : ℚ) ∧ (inp i : ℚ) ≤ max
  · have h1 := normalize_all_in_range inp min max out len hlt hall
    refine ⟨?_, ⟨fun _ => hall, fun _ => h1⟩, bad⟩
    cases hr : normalize out inp len min max with
    | none => rw [hr] at h1; cases h1
    | some r => exact ⟨r, rfl⟩
  · have hex : ∃ i, i < len ∧ ¬ (min ≤ (inp i : ℚ) ∧ (inp i : ℚ) ≤ max) := by
      by_contra hne
      apply hall
      intro i hi
      by_contra hc
      exact hne ⟨i, hi, hc⟩
    obtain ⟨i0, ⟨hi, hb⟩, hmin⟩ := Nat.lt_wfRel.wf.has_min
      {i | i < len ∧ ¬ (min ≤ (inp i : ℚ) ∧ (inp i : ℚ) ≤ max)} hex
    have hbad : max < (inp i0 : ℚ) ∨ (inp i0 : ℚ) < min := by
      by_contra hc
      push_neg at hc
      exact hb ⟨hc.2, hc.1⟩
    have hprev : ∀ j, j < i0 → min ≤ (inp j : ℚ) ∧ (inp j : ℚ) ≤ max := by
      intro j hj
      by_contra hc
      exact hmin j ⟨by omega, hc⟩ hj
    have h1 := bad _ hi hbad hprev
    refine ⟨?_, ⟨fun h => ?_, fun h => absurd h hall⟩, bad⟩
    · cases hr : normalize out inp len min max with
      | none => rw [hr] at h1; cases h1
      | some r => exact ⟨r, rfl⟩
    · rw [h1] at h
      have : -((i0 : Nat) : Int) = 1 := Option.some.inj h
      omega

theorem s4_in_range : ∀ i, i < 5 → (0 : ℚ) ≤ (s4_in i : ℚ) ∧ (s4_in i : ℚ) ≤ 255 := by
  intro i hi
  interval_cases i <;> norm_num [s4_in]

/-- Scenario S4 passes: every sample of `[0, 64, 128, 192, 255]` lies in `[0, 255]` and
`normalize` returns 1. -/
theorem normalize_return_s4 :
    (normalize (fun _ => 0) s4_in 5 0 255).map NormResult.ret = some 1 :=
  (normalize_return_of_short (fun _ => 0) s4_in 5 0 255 (by norm_num) (by norm_num)).2.1.mpr
    s4_in_range

/-- C17 against the code: `normalize` returns `-i` through its return type `int` while `i`
is a `size_t`.  On an input of `2^32` samples of which only the last one, at index
`i = 2^32 - 1`, is out of the range `[0, 100]` (it is 255, every earlier sample is 0),
`normalize` returns 1, the value of success: the `size_t` value `-i = 2^64 - i` converted
to `int` is 1.  The failure cannot be told from success and the index is lost. -/
theorem C17_long_input_failure_returns_success :
    (normalize (fun _ => 0) in_long (4294967295 + 1) 0 100).map NormResult.ret = some 1
      ∧ (100 : ℚ) < (in_long 4294967295 : ℚ)
      ∧ (∀ j : Fin 4294967295, in_long j = 0)
      ∧ (0 : ℚ) < 100 := by
  have hbad : (100 : ℚ) < (in_long 4294967295 : ℚ) ∨ (in_long 4294967295 : ℚ) < 0 := by
    left
    norm_num [in_long]
  have hall : ∀ j, j < 4294967295 → (0 : ℚ) ≤ (in_long j : ℚ) ∧ (in_long j : ℚ) ≤ 100 := by
    intro j hj
    have : in_long j = 0 := by
      unfold in_long
      rw [if_neg (by omega)]
    rw [this]
    norm_num
  have h := normalize_first_bad in_long 0 100 (fun _ => 0) (4294967295 + 1) (by norm_num)
    (Nat.lt_succ_self 4294967295) hbad hall
  refine ⟨?_, by norm_num [in_long], fun j => ?_, by norm_num⟩
  swap
  · unfold in_long
    rw [if_neg (by omega)]
  rw [h]
  have : wrapInt32 (-((4294967295 : Nat) : Int)) = 1 := by
    unfold wrapInt32
    norm_num
  rw [this]

/-! ## `reorder` -/

section Reorder

variable (len p : Nat)

theorem class_offset_succ (r : Nat) :
    class_offset len p (r + 1) = class_offset len p r + class_count len p r := by
  unfold class_offset
  rw [Finset.sum_range_succ]

theorem class_offset_mono {r s : Nat} (h : r ≤ s) :
    class_offset len p r ≤ class_offset len p s := by
  induction s with
  | zero =>
    have : r = 0 := by omega
    rw [this]
  | succ s ih =>
    rcases Nat.lt_or_ge r (s + 1) with h1 | h1
    · rw [class_offset_succ]
      exact (ih (by omega)).trans (Nat.le_add_right _ _)
    · have : r = s + 1 := by omega
      rw [this]

/-- The array `poff` holds the offsets of the residue classes. -/
theorem reorder_poff_prefix (k : Nat) :
    ∀ r, r ≤ k →
      (List.range' 1 k).foldl (fun (poff : Nat → Nat) i =>
        Function.update poff i (poff (i - 1) + (len + p - i) / p))
        (Function.update (fun _ => 0) 0 0) r = class_offset len p r := by
  induction k with
  | zero =>
    intro r hr
    have : r = 0 := by omega
    subst this
    simp [class_offset]
  | succ k ih =>
    intro r hr
    have hsp : List.range' 1 (k + 1) = List.range' 1 k ++ [1 + k] := List.range'_1_concat 1 k
    rw [hsp, List.foldl_append]
    simp only [List.foldl_cons, List.foldl_nil, Function.update_apply]
    by_cases h : r = 1 + k
    · rw [if_pos h]
      have e1 : 1 + k - 1 = k := by omega
      rw [e1, ih k (le_refl k), h, Nat.add_comm 1 k, class_offset_succ]
      rfl
    · rw [if_neg h]
      exact ih r (by omega)

theorem reorder_poff_eq {r : Nat} (hp : 1 ≤ p) (hr : r < p) :
    reorder_poff len p r = class_offset len p r := by
  unfold reorder_poff
  exact reorder_poff_prefix len p (p - 1) r (by omega)

/-- An index below `len` has a quotient below the count of its class. -/
theorem div_lt_class_count (hp : 1 ≤ p) {i : Nat} (hi : i < len) :
    i / p < class_count len p (i % p) := by
  unfold class_count
  have hm : i % p < p := Nat.mod_lt _ (by omega)
  have hd := Nat.div_add_mod i p
  rw [Nat.lt_iff_add_one_le, Nat.le_div_iff_mul_le (by omega)]
  have : (i / p + 1) * p = p * (i / p) + p := by ring
  omega

theorem lt_of_lt_class_count (hp : 1 ≤ p) {r q : Nat} (_hr : r < p)
    (hq : q < class_count len p r) : r + q * p < len := by
  unfold class_count at hq
  rw [Nat.lt_iff_add_one_le, Nat.le_div_iff_mul_le (by omega)] at hq
  have : (q + 1) * p = q * p + p := by ring
  omega

/-- The counts of the residue classes add up to `len`. -/
theorem class_offset_total (hp : 1 ≤ p) : class_offset len p p = len := by
  obtain ⟨q, rfl⟩ : ∃ q, p = q + 1 := ⟨p - 1, by omega⟩
  have key : ∀ n, ∑ k in Finset.range (q + 1), (n + (q + 1) - (k + 1)) / (q + 1) = n := by
    intro n
    induction n with
    | zero =>
      apply Finset.sum_eq_zero
      intro k hk
      have := Finset.mem_range.mp hk
      apply Nat.div_eq_of_lt
      omega
    | succ n ih =>
      rw [Finset.sum_range_succ] at ih
      rw [Finset.sum_range_succ']
      have h1 : ∑ k in Finset.range q, (n + 1 + (q + 1) - (k + 1 + 1)) / (q + 1)
          = ∑ k in Finset.range q, (n + (q + 1) - (k + 1)) / (q + 1) := by
        apply Finset.sum_congr rfl
        intro k hk
        have := Finset.mem_range.mp hk
        congr 1
        omega
      have h2 : (n + 1 + (q + 1) - (0 + 1)) / (q + 1) = n / (q + 1) + 1 := by
        have : n + 1 + (q + 1) - (0 + 1) = n + (q + 1) := by omega
        rw [this, Nat.add_div_right _ (by omega)]
      have h3 : (n + (q + 1) - (q + 1)) / (q + 1) = n / (q + 1) := by
        rw [Nat.add_sub_cancel]
      rw [h1, h2]
      rw [h3] at ih
      omega
  exact key len

/-- The index map in terms of the class offsets. -/
theorem reorder_index_eq (hp : 1 ≤ p) (i : Nat) :
    reorder_index len p i = class_offset len p (i % p) + i / p := by
  unfold reorder_index
  rw [reorder_poff_eq len p hp (Nat.mod_lt _ (by omega))]

theorem reorder_index_lt (hp : 1 ≤ p) {i : Nat} (hi : i < len) :
    reorder_index len p i < class_offset len p (i % p + 1) := by
  rw [reorder_index_eq len p hp, class_offset_succ]
  have := div_lt_class_count len p hp hi
  omega

theorem reorder_index_range (hp : 1 ≤ p) {i : Nat} (hi : i < len) :
    reorder_index len p i < len := by
  have h1 := reorder_index_lt len p hp hi
  have h2 : class_offset len p (i % p + 1) ≤ class_offset len p p :=
    class_offset_mono len p (Nat.mod_lt _ (by omega))
  rw [class_offset_total len p hp] at h2
  omega

theorem reorder_index_inj (hp : 1 ≤ p) {i j : Nat} (hi : i < len) (hj : j < len)
    (h : reorder_index len p i = reorder_index len p j) : i = j := by
  have li := reorder_index_lt len p hp hi
  have lj := reorder_index_lt len p hp hj
  have ei := reorder_index_eq len p hp i
  have ej := reorder_index_eq len p hp j
  have di := Nat.div_add_mod i p
  have dj := Nat.div_add_mod j p
  generalize i / p = qi at ei di
  generalize j / p = qj at ej dj
  have hmod : i % p = j % p := by
    rcases Nat.lt_trichotomy (i % p) (j % p) with hlt | heq | hgt
    · have := class_offset_mono len p (r := i % p + 1) (s := j % p) hlt
      omega
    · exact heq
    · have := class_offset_mono len p (r := j % p + 1) (s := i % p) hgt
      omega
  have hdiv : qi = qj := by
    rw [hmod] at ei
    omega
  rw [← di, ← dj, hmod, hdiv]

/-- Every position below a class offset lies in the stretch of one class. -/
theorem exists_class (k : Nat) {x : Nat} (hx : x < class_offset len p k) :
    ∃ r, r < k ∧ class_offset len p r ≤ x ∧ x < class_offset len p (r + 1) := by
  induction k with
  | zero =>
    simp [class_offset] at hx
  | succ k ih =>
    rcases Nat.lt_or_ge x (class_offset len p k) with h | h
    · obtain ⟨r, hr, h1, h2⟩ := ih h
      exact ⟨r, by omega, h1, h2⟩
    · exact ⟨k, by omega, h, hx⟩

theorem reorder_index_surj (hp : 1 ≤ p) {x : Nat} (hx : x < len) :
    ∃ i, i < len ∧ reorder_index len p i = x := by
  have hx' : x < class_offset len p p := by
    rw [class_offset_total len p hp]
    exact hx
  obtain ⟨r, hr, h1, h2⟩ := exists_class len p p hx'
  rw [class_offset_succ] at h2
  have hq : x - class_offset len p r < class_count len p r := by omega
  have hlt := lt_of_lt_class_count len p hp hr hq
  refine ⟨r + (x - class_offset len p r) * p, hlt, ?_⟩
  rw [reorder_index_eq len p hp]
  have hm : (r + (x - class_offset len p r) * p) % p = r := by
    rw [Nat.add_mul_mod_self_right, Nat.mod_eq_of_lt hr]
  have hd : (r + (x - class_offset len p r) * p) / p = x - class_offset len p r := by
    rw [Nat.add_mul_div_right _ _ (by omega), Nat.div_eq_of_lt hr, Nat.zero_add]
  rw [hm, hd]
  omega

/-- A loop of stores at pairwise different cells. -/
theorem fold_update_inj (g v : Nat → Nat) (n : Nat) (out : Nat → Nat)
    (hinj : ∀ i j, i < n → j < n → g i = g j → i = j) :
    (∀ i, i < n → (List.range n).foldl (fun (o : Nat → Nat) i =>
        Function.update o (g i) (v i)) out (g i) = v i)
      ∧ (∀ x, (∀ i, i < n → g i ≠ x) → (List.range n).foldl (fun (o : Nat → Nat) i =>
        Function.update o (g i) (v i)) out x = out x) := by
  induction n with
  | zero =>
    exact ⟨fun i hi => absurd hi (Nat.not_lt_zero i), fun _ _ => rfl⟩
  | succ n ih =>
    obtain ⟨ih1, ih2⟩ := ih (fun i j hi hj h => hinj i j (by omega) (by omega) h)
    rw [List.range_succ, List.foldl_append]
    simp only [List.foldl_cons, List.foldl_nil, Function.update_apply]
    constructor
    · intro i hi
      by_cases h : g i = g n
      · rw [if_pos h, hinj i n hi (by omega) h]
      · rw [if_neg h]
        have : i ≠ n := fun e => h (by rw [e])
        exact ih1 i (by omega)
    · intro x hx
      rw [if_neg (fun e => hx n (by omega) e.symm)]
      exact ih2 x (fun i hi => hx i (by omega))

end Reorder

/-- C18: for every `len` and every `period ≥ 1` the index map
`i ↦ poff[i mod period] + i div period` of `reorder` maps `{0..len-1}` one-to-one onto
itself; `reorder` stores `in[i]` at its image, so the input is recovered from the output
through the map, and nothing else is written; the output is the concatenation over
`r = 0 .. period-1` of the subsequences `in[r], in[r+period], ...`: class `r` starts at
the sum of the lengths of the classes before it. -/
theorem C18_reorder_permutation (out inp : Nat → Nat) (len period : Nat) (hp : 1 ≤ period) :
    (∀ i, i < len → reorder_index len period i < len)
      ∧ (∀ i j, i < len → j < len → reorder_index len period i = reorder_index len period j →
          i = j)
      ∧ (∀ x, x < len → ∃ i, i < len ∧ reorder_index len period i = x)
      ∧ (∀ i, i < len → reorder out inp len period (reorder_index len period i) = inp i)
      ∧ (∀ x, len ≤ x → reorder out inp len period x = out x)
      ∧ (∀ r q, r < period → r + q * period < len →
          reorder out inp len period (class_offset len period r + q) = inp (r + q * period))
      ∧ class_offset len period 0 = 0
      ∧ class_offset len period period = len
      ∧ (∀ r, r < period →
          class_offset len period (r + 1)
            = class_offset len period r + class_count len period r
          ∧ ∀ q, q < class_count len period r ↔ r + q * period < len) := by
  have hinj : ∀ i j, i < len → j < len →
      reorder_index len period i = reorder_index len period j → i = j :=
    fun i j hi hj h => reorder_index_inj len period hp hi hj h
  obtain ⟨w1, w2⟩ := fold_update_inj (reorder_index len period) inp len out hinj
  refine ⟨fun i hi => reorder_index_range len period hp hi, hinj,
    fun x hx => reorder_index_surj len period hp hx, w1, ?_, ?_, rfl,
    class_offset_total len period hp, ?_⟩
  · intro x hx
    apply w2
    intro i hi h
    have := reorder_index_range len period hp hi
    omega
  · intro r q hr hlt
    have hm : (r + q * period) % period = r := by
      rw [Nat.add_mul_mod_self_right, Nat.mod_eq_of_lt hr]
    have hd : (r + q * period) / period = q := by
      rw [Nat.add_mul_div_right _ _ (by omega), Nat.div_eq_of_lt hr, Nat.zero_add]
    have := w1 (r + q * period) hlt
    rw [reorder_index_eq len period hp, hm, hd] at this
    exact this
  · intro r hr
    refine ⟨class_offset_succ len period r, fun q => ⟨fun h => lt_of_lt_class_count len period hp hr h, fun h => ?_⟩⟩
    have hm : (r + q * period) % period = r := by
      rw [Nat.add_mul_mod_self_right, Nat.mod_eq_of_lt hr]
    have hd : (r + q * period) / period = q := by
      rw [Nat.add_mul_div_right _ _ (by omega), Nat.div_eq_of_lt hr, Nat.zero_add]
    have := div_lt_class_count len period hp h
    rw [hm, hd] at this
    exact this

theorem C18_reorder_permutation_witness :
    1 ≤ 2
      ∧ (∀ i, i < 5 → reorder (fun _ => 0) s4_in 5 2 (reorder_index 5 2 i) = s4_in i)
      ∧ reorder (fun _ => 0) s4_in 5 2 0 = 0
      ∧ reorder (fun _ => 0) s4_in 5 2 1 = 128
      ∧ reorder (fun _ => 0) s4_in 5 2 2 = 255
      ∧ reorder (fun _ => 0) s4_in 5 2 3 = 64
      ∧ reorder (fun _ => 0) s4_in 5 2 4 = 192 :=
  ⟨by decide, (C18_reorder_permutation (fun _ => 0) s4_in 5 2 (by decide)).2.2.2.1,
   by decide, by decide, by decide, by decide, by decide⟩

/-! ## The refinement of an edge -/

/-- The refinement loop returns the first index of `[cnt, cnt + k]` at which `comp_vals`
is least. -/
theorem refine_fold_argmin (comp_vals : Nat → Int) (cnt k : Nat) :
    cnt ≤ ((List.range' (cnt + 1) k).foldl (fun (m : Int × Nat) cnt2 =>
        if comp_vals cnt2 < m.1 then (comp_vals cnt2, cnt2) else m) (comp_vals cnt, cnt)).2
      ∧ ((List.range' (cnt + 1) k).foldl (fun (m : Int × Nat) cnt2 =>
        if comp_vals cnt2 < m.1 then (comp_vals cnt2, cnt2) else m) (comp_vals cnt, cnt)).2
          ≤ cnt + k
      ∧ ((List.range' (cnt + 1) k).foldl (fun (m : Int × Nat) cnt2 =>
        if comp_vals cnt2 < m.1 then (comp_vals cnt2, cnt2) else m) (comp_vals cnt, cnt)).1
          = comp_vals ((List.range' (cnt + 1) k).foldl (fun (m : Int × Nat) cnt2 =>
        if comp_vals cnt2 < m.1 then (comp_vals cnt2, cnt2) else m) (comp_vals cnt, cnt)).2
      ∧ (∀ j, cnt ≤ j → j ≤ cnt + k →
          ((List.range' (cnt + 1) k).foldl (fun (m : Int × Nat) cnt2 =>
            if comp_vals cnt2 < m.1 then (comp_vals cnt2, cnt2) else m) (comp_vals cnt, cnt)).1
            ≤ comp_vals j)
      ∧ (∀ j, cnt ≤ j →
          j < ((List.range' (cnt + 1) k).foldl (fun (m : Int × Nat) cnt2 =>
            if comp_vals cnt2 < m.1 then (comp_vals cnt2, cnt2) else m) (comp_vals cnt, cnt)).2 →
          ((List.range' (cnt + 1) k).foldl (fun (m : Int × Nat) cnt2 =>
            if comp_vals cnt2 < m.1 then (comp_vals cnt2, cnt2) else m) (comp_vals cnt, cnt)).1
            < comp_vals j) := by
  induction k with
  | zero =>
    refine ⟨le_refl _, le_refl _, rfl, ?_, ?_⟩
    · intro j h1 h2
      have : j = cnt := by omega
      rw [this]
      exact le_refl _
    · intro j h1 h2
      exact absurd h2 (by simpa using h1)
  | succ k ih =>
    rw [List.range'_1_concat, List.foldl_append]
    simp only [List.foldl_cons, List.foldl_nil]
    generalize (List.range' (cnt + 1) k).foldl (fun (m : Int × Nat) cnt2 =>
      if comp_vals cnt2 < m.1 then (comp_vals cnt2, cnt2) else m) (comp_vals cnt, cnt) = m at ih
    obtain ⟨i1, i2, i3, i4, i5⟩ := ih
    by_cases h : comp_vals (cnt + 1 + k) < m.1
    · rw [if_pos h]
      refine ⟨by show cnt ≤ cnt + 1 + k; omega, by show cnt + 1 + k ≤ cnt + (k + 1); omega,
        rfl, ?_, ?_⟩
      · intro j h1 h2
        show comp_vals (cnt + 1 + k) ≤ comp_vals j
        rcases Nat.lt_or_ge j (cnt + 1 + k) with hj | hj
        · exact (h.trans_le (i4 j h1 (by omega))).le
        · have : j = cnt + 1 + k := by omega
          rw [this]
      · intro j h1 h2
        show comp_vals (cnt + 1 + k) < comp_vals j
        have h2' : j < cnt + 1 + k := h2
        exact h.trans_le (i4 j h1 (by omega))
    · rw [if_neg h]
      refine ⟨i1, by omega, i3, ?_, i5⟩
      intro j h1 h2
      rcases Nat.lt_or_ge j (cnt + 1 + k) with hj | hj
      · exact i4 j h1 (by omega)
      · have : j = cnt + 1 + k := by omega
        rw [this]
        exact not_lt.mp h

/-- The refined position is the first index of `[cnt, cnt + raster/2]` at which the cell
of `comp_vals` is least, whatever the cells hold. -/
theorem refine_edge_argmin (comp_vals : Nat → Int) (raster cnt : Nat) :
    cnt ≤ (refine_edge comp_vals raster cnt).2
      ∧ (refine_edge comp_vals raster cnt).2 ≤ cnt + raster / 2
      ∧ (refine_edge comp_vals raster cnt).1 = comp_vals (refine_edge comp_vals raster cnt).2
      ∧ (∀ j, cnt ≤ j → j ≤ cnt + raster / 2 →
          comp_vals (refine_edge comp_vals raster cnt).2 ≤ comp_vals j)
      ∧ (∀ j, cnt ≤ j → j < (refine_edge comp_vals raster cnt).2 →
          comp_vals (refine_edge comp_vals raster cnt).2 < comp_vals j) := by
  obtain ⟨h1, h2, h3, h4, h5⟩ := refine_fold_argmin comp_vals cnt (raster / 2)
  refine ⟨h1, h2, h3, ?_, ?_⟩
  · intro j a b
    have := h4 j a b
    rw [h3] at this
    exact this
  · intro j a b
    have := h5 j a b
    rw [h3] at this
    exact this

/-- C19 (the code does not do this): on the acquisition `inC` of 36 samples with `R = 4`
and one template sample, the cells `comp_vals[0..34]` are computed; at the edge at
`cnt = 33` the refinement loop reads `comp_vals[34]` and `comp_vals[35]`, and cell 35 was
never written.  With 0 in that cell the refined position is 33 and the window `(25, 8)`
is written; with -1 in it the refined position is 35, no valid window position, and no
window is written. -/
theorem C19_refinement_reads_unwritten_cell :
    refine_edge (comp_array cfgA (fun _ => 0) inC edgeA 1 35) 4 33 = (0, 33)
      ∧ refine_edge (comp_array cfgA (fun _ => -1) inC edgeA 1 35) 4 33 = (-1, 35)
      ∧ (raster cfgA (fun _ => 0) (fun _ => 0) inC 36 4 edgeA 1).windows = [(25, 8)]
      ∧ (raster cfgA (fun _ => -1) (fun _ => 0) inC 36 4 edgeA 1).windows = []
      ∧ (raster cfgA (fun _ => 0) (fun _ => 0) inC 36 4 edgeA 1).out_size = some 4
      ∧ (raster cfgA (fun _ => -1) (fun _ => 0) inC 36 4 edgeA 1).out_size = some 0 :=
  ⟨by decide!, by decide!, by decide!, by decide!, by decide!, by decide!⟩

/-! ## `add_trace_u16` -/

/-- C20 (the code does not do this): for the 16-bit sample 65535 one call of
`add_trace_u16` adds `-131071` to `square_sum[0]`, not `65535^2 = 4294836225`: the square
is an `int` product and overflows.  The product with the hypothesis value is exact. -/
theorem C20_u16_square_overflows :
    (add_trace_u16 wide_state 0 (fun _ => 65535)).square_sum 0 = -131071
      ∧ (65535 : ℚ) ^ 2 = 4294836225
      ∧ (add_trace_u16 wide_state 0 (fun _ => 65535)).mult_sum 0 = 65535
      ∧ (add_trace_u16 wide_state 0 (fun _ => 65535)).sum 0 = 65535 := by
  unfold add_trace_u16
  rw [add_trace_eq]
  have hs : wide_state.samples = 1 := rfl
  have hk : wide_state.keys = 1 := rfl
  refine ⟨?_, by norm_num, ?_, ?_⟩
  · show (if 0 < wide_state.samples then wide_state.square_sum 0
        + intSample.square ((fun _ => 65535) 0) else wide_state.square_sum 0) = -131071
    rw [hs, if_pos (by decide)]
    have h0 : wide_state.square_sum 0 = 0 := rfl
    rw [h0]
    norm_num [intSample, wrapInt32]
  · show (if 0 < wide_state.keys * wide_state.samples then wide_state.mult_sum 0
        + mult_term intSample wide_state 0 (fun _ => 65535) 0 else wide_state.mult_sum 0) = 65535
    rw [hs, hk, if_pos (by decide)]
    have h0 : wide_state.mult_sum 0 = 0 := rfl
    have h1 : wide_state.hypo (0 / wide_state.samples * wide_state.traces + 0) = 1 := rfl
    rw [h0]
    unfold mult_term
    rw [h1]
    norm_num [intSample, wrapInt32]
  · show (if 0 < wide_state.samples then wide_state.sum 0
        + intSample.toAcc ((fun _ => 65535) 0) else wide_state.sum 0) = 65535
    rw [hs, if_pos (by decide)]
    have h0 : wide_state.sum 0 = 0 := rfl
    rw [h0]
    norm_num [intSample]

/-! ## `spline` with checked indices -/

/-- The index `a` of `spline` at the output index `i`: with both sizes at least 2 it lies
in `0 .. insize-1`, and it is `insize - 1` at the last output index only. -/
theorem spline_index_bounds {N M : Nat} (hN : 2 ≤ N) (hM : 2 ≤ M) (i : Nat) (hi : i < N) :
    0 ≤ truncq ((i : ℚ) * ((((M : Int) - 1 : Int) : ℚ) / (((N : Int) - 1 : Int) : ℚ)))
      ∧ truncq ((i : ℚ) * ((((M : Int) - 1 : Int) : ℚ) / (((N : Int) - 1 : Int) : ℚ)))
          < (M : Int)
      ∧ (i < N - 1 →
          truncq ((i : ℚ) * ((((M : Int) - 1 : Int) : ℚ) / (((N : Int) - 1 : Int) : ℚ))) + 1
            < (M : Int))
      ∧ (i = N - 1 →
          truncq ((i : ℚ) * ((((M : Int) - 1 : Int) : ℚ) / (((N : Int) - 1 : Int) : ℚ))) + 1
            = (M : Int)) := by
  have hq : (0 : ℚ) < (((N : Int) - 1 : Int) : ℚ) := by
    have : (0 : Int) < (N : Int) - 1 := by omega
    exact_mod_cast this
  have hm : (0 : ℚ) < (((M : Int) - 1 : Int) : ℚ) := by
    have : (0 : Int) < (M : Int) - 1 := by omega
    exact_mod_cast this
  have hs : (0 : ℚ) < (((M : Int) - 1 : Int) : ℚ) / (((N : Int) - 1 : Int) : ℚ) :=
    div_pos hm hq
  have hfull : (((N : Int) - 1 : Int) : ℚ)
      * ((((M : Int) - 1 : Int) : ℚ) / (((N : Int) - 1 : Int) : ℚ))
      = (((M : Int) - 1 : Int) : ℚ) := by
    rw [← mul_div_assoc, mul_div_cancel_left₀ _ hq.ne']
  have hpos : (0 : ℚ) ≤ (i : ℚ) * ((((M : Int) - 1 : Int) : ℚ) / (((N : Int) - 1 : Int) : ℚ)) :=
    mul_nonneg (by positivity) hs.le
  have hi' : (i : ℚ) ≤ (((N : Int) - 1 : Int) : ℚ) := by
    have : (i : Int) ≤ (N : Int) - 1 := by omega
    exact_mod_cast this
  have hle : (i : ℚ) * ((((M : Int) - 1 : Int) : ℚ) / (((N : Int) - 1 : Int) : ℚ))
      ≤ (((M : Int) - 1 : Int) : ℚ) := by
    exact (mul_le_mul_of_nonneg_right hi' hs.le).trans hfull.le
  have ha : truncq ((i : ℚ) * ((((M : Int) - 1 : Int) : ℚ) / (((N : Int) - 1 : Int) : ℚ)))
      = ⌊(i : ℚ) * ((((M : Int) - 1 : Int) : ℚ) / (((N : Int) - 1 : Int) : ℚ))⌋ := by
    unfold truncq
    rw [if_pos hpos]
  rw [ha]
  refine ⟨Int.floor_nonneg.mpr hpos, ?_, ?_, ?_⟩
  · have : ⌊(i : ℚ) * ((((M : Int) - 1 : Int) : ℚ) / (((N : Int) - 1 : Int) : ℚ))⌋
        ≤ (M : Int) - 1 := Int.floor_le_iff.mpr (by
          have := hle
          push_cast at this ⊢
          linarith)
    omega
  · intro hlt
    have hi2 : (i : ℚ) < (((N : Int) - 1 : Int) : ℚ) := by
      have : (i : Int) < (N : Int) - 1 := by omega
      exact_mod_cast this
    have hstrict : (i : ℚ) * ((((M : Int) - 1 : Int) : ℚ) / (((N : Int) - 1 : Int) : ℚ))
        < (((M : Int) - 1 : Int) : ℚ) := by
      exact (mul_lt_mul_of_pos_right hi2 hs).trans_le hfull.le
    have : ⌊(i : ℚ) * ((((M : Int) - 1 : Int) : ℚ) / (((N : Int) - 1 : Int) : ℚ))⌋
        < (M : Int) - 1 := Int.floor_lt.mpr hstrict
    omega
  · intro he
    have hi2 : (i : ℚ) = (((N : Int) - 1 : Int) : ℚ) := by
      have : (i : Int) = (N : Int) - 1 := by omega
      exact_mod_cast this
    rw [hi2, hfull, Int.floor_intCast]
    omega

/-- A turn of the checked loop whose two reads and whose write are in range does what the
turn of `spline` does. -/
theorem spline_step_checked_ok (inp : Nat → Nat) (in_len out_len o : Nat)
    (outsize insize : Int) (m : Nat → Nat) (i v : Nat) (h1 : ¬ (outsize - 1 = 0))
    (ha : 0 ≤ truncq ((i : ℚ) * (((insize - 1 : Int) : ℚ) / ((outsize - 1 : Int) : ℚ))))
    (hb : truncq ((i : ℚ) * (((insize - 1 : Int) : ℚ) / ((outsize - 1 : Int) : ℚ))) + 1
      < (in_len : Int))
    (hi : i < out_len) (hv : spline_value exact inp outsize insize i = some v) :
    spline_step_checked inp in_len out_len o outsize insize m i
      = Except.ok (Function.update m (o + i) v) := by
  unfold spline_value at hv
  rw [if_neg h1] at hv
  simp only [exact] at hv
  rw [if_neg (not_lt.mpr ha)] at hv
  unfold spline_step_checked read_checked
  rw [if_neg h1]
  simp only
  rw [if_pos ⟨ha, by omega⟩, if_pos ⟨by omega, hb⟩]
  simp only
  rw [Int.toNat_add ha (by decide)]
  rw [show (1 : Int).toNat = 1 from rfl, hv]
  simp only
  rw [if_pos hi]

/-- A turn of the checked loop whose index `a` is the last cell of `in` stops at the read
of `in[a+1]`. -/
theorem spline_step_checked_read (inp : Nat → Nat) (in_len out_len o : Nat)
    (outsize insize : Int) (m : Nat → Nat) (i : Nat) (h1 : ¬ (outsize - 1 = 0))
    (ha : 0 ≤ truncq ((i : ℚ) * (((insize - 1 : Int) : ℚ) / ((outsize - 1 : Int) : ℚ))))
    (hb : truncq ((i : ℚ) * (((insize - 1 : Int) : ℚ) / ((outsize - 1 : Int) : ℚ))) + 1
      = (in_len : Int)) :
    spline_step_checked inp in_len out_len o outsize insize m i
      = Except.error (SplineFault.read i (in_len : Int)) := by
  unfold spline_step_checked read_checked
  rw [if_neg h1]
  simp only
  rw [if_pos ⟨ha, by omega⟩, if_neg (by omega), hb]

/-- A prefix of the checked loop whose accesses are all in range leaves what the same
prefix of the loop of `spline` leaves. -/
theorem spline_checked_prefix (out : Nat → Nat) (o : Nat) (inp : Nat → Nat)
    (in_len out_len : Nat) (outsize insize : Int) (h1 : ¬ (outsize - 1 = 0)) (k : Nat)
    (hk : k ≤ out_len)
    (ha : ∀ i, i < k →
      0 ≤ truncq ((i : ℚ) * (((insize - 1 : Int) : ℚ) / ((outsize - 1 : Int) : ℚ)))
      ∧ truncq ((i : ℚ) * (((insize - 1 : Int) : ℚ) / ((outsize - 1 : Int) : ℚ))) + 1
          < (in_len : Int))
    (hv : ∀ i, i < k → ∃ v, spline_value exact inp outsize insize i = some v) :
    ∃ m, (List.range k).foldl (fun (acc : Except SplineFault (Nat → Nat)) i =>
          match acc with
          | Except.ok m => spline_step_checked inp in_len out_len o outsize insize m i
          | Except.error e => Except.error e) (Except.ok out) = Except.ok m
      ∧ (List.range k).foldl (fun (acc : Option (Nat → Nat)) i =>
          match acc, spline_value exact inp outsize insize i with
          | some m, some v => some (Function.update m (o + i) v)
          | _, _ => none) (some out) = some m := by
  induction k with
  | zero => exact ⟨out, rfl, rfl⟩
  | succ k ih =>
    obtain ⟨m, hm1, hm2⟩ := ih (by omega) (fun i hi => ha i (by omega))
      (fun i hi => hv i (by omega))
    obtain ⟨v, hvk⟩ := hv k (by omega)
    obtain ⟨a0, a1⟩ := ha k (by omega)
    refine ⟨Function.update m (o + k) v, ?_, ?_⟩
    · rw [List.range_succ, List.foldl_append, hm1]
      simp only [List.foldl_cons, List.foldl_nil]
      exact spline_step_checked_ok inp in_len out_len o outsize insize m k v h1 a0 a1
        (by omega) hvk
    · rw [List.range_succ, List.foldl_append, hm2]
      simp only [List.foldl_cons, List.foldl_nil, hvk]

/-- C21 (the code does not do this): for every `insize ≥ 2` and `outsize ≥ 2` and every
input of `insize` bytes, in exact arithmetic, the bounds-checked run of `spline` on an
input buffer of `insize` cells stops in its last turn, `i = outsize - 1`, at the read of
`in[insize]`: there `a = insize - 1` and `in[a+1]` is read, with weight 0.  It is the only
access out of range: on an input buffer of `insize + 1` cells the bounds-checked run goes
through, every write within the `outsize` cells of `out`, and leaves what `spline`
leaves. -/
theorem C21_spline_reads_past_input (out : Nat → Nat) (o : Nat) (inp : Nat → Nat)
    (outsize insize : Nat) (ho : 2 ≤ outsize) (hi : 2 ≤ insize)
    (hb : ∀ j, j < insize → inp j < 256) :
    spline_checked out o inp insize outsize (outsize : Int) (insize : Int)
        = Except.error (SplineFault.read (outsize - 1) (insize : Int))
      ∧ ∃ m, spline_checked out o inp (insize + 1) outsize (outsize : Int) (insize : Int)
            = Except.ok m
          ∧ spline exact out o inp (outsize : Int) (insize : Int) = some m := by
  have h1 : ¬ ((outsize : Int) - 1 = 0) := by omega
  constructor
  · obtain ⟨m, hm, -⟩ := spline_checked_prefix out o inp insize outsize (outsize : Int)
      (insize : Int) h1 (outsize - 1) (by omega)
      (fun i hi' => by
        obtain ⟨b0, -, b2, -⟩ := spline_index_bounds ho hi i (show i < outsize by omega)
        exact ⟨b0, b2 hi'⟩)
      (fun i hi' => spline_value_defined inp ho (by omega) hb i (by omega))
    obtain ⟨b0, -, -, b3⟩ := spline_index_bounds ho hi (outsize - 1)
      (show outsize - 1 < outsize by omega)
    unfold spline_checked
    rw [Int.toNat_ofNat]
    have hr : List.range outsize = List.range (outsize - 1) ++ [outsize - 1] := by
      rw [← List.range_succ]
      congr 1
      omega
    rw [hr, List.foldl_append, hm]
    simp only [List.foldl_cons, List.foldl_nil]
    exact spline_step_checked_read inp insize outsize o (outsize : Int) (insize : Int) m
      (outsize - 1) h1 b0 (b3 rfl)
  · obtain ⟨m, hm1, hm2⟩ := spline_checked_prefix out o inp (insize + 1) outsize
      (outsize : Int) (insize : Int) h1 outsize (le_refl _)
      (fun i hi' => by
        obtain ⟨b0, b1, -, -⟩ := spline_index_bounds ho hi i hi'
        refine ⟨b0, ?_⟩
        rw [Nat.cast_succ insize]
        omega)
      (fun i hi' => spline_value_defined inp ho (by omega) hb i hi')
    refine ⟨m, ?_, ?_⟩
    · unfold spline_checked
      rw [Int.toNat_ofNat]
      exact hm1
    · unfold spline
      rw [Int.toNat_ofNat]
      exact hm2

theorem C21_spline_reads_past_input_witness :
    (2 ≤ 2 ∧ 2 ≤ 2 ∧ ∀ j, j < 2 → in_two j < 256)
      ∧ (spline_checked (fun _ => 0) 0 in_two 2 2 ((2 : Nat) : Int) ((2 : Nat) : Int)
          = Except.error (SplineFault.read (2 - 1) ((2 : Nat) : Int))
        ∧ ∃ m, spline_checked (fun _ => 0) 0 in_two (2 + 1) 2 ((2 : Nat) : Int)
              ((2 : Nat) : Int) = Except.ok m
            ∧ spline exact (fun _ => 0) 0 in_two ((2 : Nat) : Int) ((2 : Nat) : Int) = some m)
      ∧ fault_of (spline_checked (fun _ => 0) 0 in_two 2 2 2 2)
          = some (SplineFault.read 1 2)
      ∧ cells_of (spline_checked (fun _ => 0) 0 in_two 3 2 2 2) 0 2 = some [10, 20]
      ∧ fault_of (spline_checked (fun _ => 0) 0 s4_in 5 8 8 5)
          = some (SplineFault.read 7 5) :=
  ⟨⟨by decide, by decide, by decide⟩,
   C21_spline_reads_past_input (fun _ => 0) 0 in_two 2 2 (by decide) (by decide) (by decide),
   by decide!, by decide!, by decide!⟩

end Dpa
